import Mathlib

/-! # advanced-vector: a verification development for `vector.h`

The header defines two class templates, `RawMemory<T>` (an owner of raw,
unconstructed storage) and `Vector<T>` (a dynamic array built on it).

The embedding:

* Storage is one flat `Memory`: a list of cells, the address of a cell being
  its index. A cell is `none` when it holds no object (raw storage) and
  `some x` when it holds a live `T` of value `x`. A `T*` is an address.
  Address `0` plays `nullptr`.
* Every function of the header is a state transformer `Exec α β` on that
  memory. Its outcome is a normal return (`ok`), a propagating C++ exception
  (`thrown`), or a `fault`: a failed `assert`, or behaviour the C++ standard
  leaves undefined (reading, assigning or destroying a cell without a live
  object, touching storage that was never allocated, an iterator range whose
  end precedes its start).
* The element type `T` is a type `α` with an instance of `Elem`, which carries
  what the header asks of `T`: the value-initialised value, the state a
  moved-from object is left in, which values make the copy constructor throw,
  and the two traits `CopyOrMoveElements` branches on.
* Moves, move assignments, copy assignments, value-initialisation and
  destructors do not throw in this model; a copy construction throws exactly
  when `Elem.copyThrows` says so.
* The blocks a vector asks for on its own account (as many objects as another
  vector holds, or twice its own size) are counted in objects and their
  allocation does not fail. For the calls in which the caller chooses the
  number, `Vector(size)`, `Reserve` and `Resize`, the section on `Allocator`
  carries the byte count `n * sizeof(T)` modulo `2^64` and the failure of the
  request.
-/

namespace AdvancedVector

/-! ## Memory, outcomes, and the execution monad -/

/-- How an execution can go wrong outside the language's exception mechanism. -/
inductive Fault where
  /-- An `assert(...)` of the header evaluated to false. -/
  | assertion
  /-- Undefined behaviour according to the C++ standard. -/
  | undefined
  deriving DecidableEq, Repr

/-- Flat storage: cell `a` is `none` (raw storage, no object) or `some x`
(a live object of value `x`). Addresses past the end are unallocated. -/
abbrev Memory (α : Type) := List (Option α)

/-- Result of running a function of the header on a memory. -/
inductive Outcome (α β : Type) where
  /-- Normal return with a value and the memory left behind. -/
  | ok (val : β) (mem : Memory α)
  /-- An exception propagates out; the memory is as the unwinding left it. -/
  | thrown (mem : Memory α)
  /-- A failed assertion or undefined behaviour. -/
  | fault (f : Fault)
  deriving DecidableEq, Repr

/-- A computation over the memory. -/
def Exec (α β : Type) : Type := Memory α → Outcome α β

/-- Sequencing: exceptions and faults of the first computation propagate. -/
def Exec.bind {α β γ : Type} (x : Exec α β) (f : β → Exec α γ) : Exec α γ := fun m =>
  match x m with
  | .ok b m1 => f b m1
  | .thrown m1 => .thrown m1
  | .fault e => .fault e

instance (α : Type) : Monad (Exec α) where
  pure b := fun m => .ok b m
  bind := Exec.bind

/-- Stop with a fault. -/
def Exec.fail {α β : Type} (f : Fault) : Exec α β := fun _ => .fault f

/-- The statement `throw`: an exception leaves with the current memory. -/
def Exec.throw {α β : Type} : Exec α β := fun m => .thrown m

/-- The statement `assert(c)`. -/
def Exec.assert {α : Type} (c : Bool) : Exec α Unit := fun m =>
  if c then .ok () m else .fault .assertion

/-- The block `try { body } catch (...) { handler; throw; }`. -/
def Exec.tryCatchRethrow {α β : Type} (body : Exec α β) (handler : Exec α Unit) : Exec α β :=
  fun m =>
    match body m with
    | .ok b m1 => .ok b m1
    | .thrown m1 =>
      match handler m1 with
      | .ok _ m2 => .thrown m2
      | .thrown m2 => .thrown m2
      | .fault e => .fault e
    | .fault e => .fault e

/-! ## The element type -/

/-- What the header requires of, and asks about, the element type `T`. -/
class Elem (α : Type) where
  /-- The value of a value-initialised object, `T()`. -/
  dflt : α
  /-- The value an object is left with after it has been moved from. -/
  movedFrom : α → α
  /-- Whether copy-constructing from an object of this value throws. -/
  copyThrows : α → Bool
  /-- The trait `std::is_nothrow_move_constructible_v<T>`. -/
  nothrowMove : Bool
  /-- The trait `std::is_copy_constructible_v<T>`. -/
  copyConstructible : Bool

/-- The element type `int`: trivially copyable, a move is a copy. -/
instance : Elem Int where
  dflt := 0
  movedFrom := id
  copyThrows := fun _ => false
  nothrowMove := true
  copyConstructible := true

/-- The element type `std::string`: a moved-from string is empty, moving never throws. -/
instance : Elem String where
  dflt := ""
  movedFrom := fun _ => ""
  copyThrows := fun _ => false
  nothrowMove := true
  copyConstructible := true

/-- Constructor arguments `args...` handed to an emplacing function: either one
lvalue of type `T` (the copy constructor runs, and may throw), or arguments
from which `T(args...)` is built without throwing, giving the value `x`
(an rvalue `T&&` is this case). -/
inductive CtorArgs (α : Type) where
  | copy (x : α)
  | make (x : α)
  deriving DecidableEq, Repr

/-- The value `T(args...)` has once constructed. -/
def CtorArgs.value {α : Type} : CtorArgs α → α
  | .copy x => x
  | .make x => x

/-- Whether `T(args...)` throws. -/
def CtorArgs.throws {α : Type} [Elem α] : CtorArgs α → Bool
  | .copy x => Elem.copyThrows x
  | .make _ => false

/-! ## Primitive object operations -/

/-- Read `*p`; the cell must hold a live object. -/
def load {α : Type} (p : Nat) : Exec α α := fun m =>
  match m[p]? with
  | some (some x) => .ok x m
  | _ => .fault .undefined

/-- Overwrite the value of the live object at `p` (the effect of an assignment
on its left operand, or of a move on its source). -/
def store {α : Type} (p : Nat) (x : α) : Exec α Unit := fun m =>
  match m[p]? with
  | some (some _) => .ok () (m.set p (some x))
  | _ => .fault .undefined

/-- Placement `new (p) T(...)` once the value `x` is known: the storage must
be allocated; the cell becomes a live object. -/
def construct_at {α : Type} (p : Nat) (x : α) : Exec α Unit := fun m =>
  if p < m.length then .ok () (m.set p (some x)) else .fault .undefined

/-- The call `std::destroy_at(p)`: the object must be live; the cell becomes raw. -/
def destroy_at {α : Type} (p : Nat) : Exec α Unit := fun m =>
  match m[p]? with
  | some (some _) => .ok () (m.set p none)
  | _ => .fault .undefined

/-- Placement `new (p) T(args...)`. -/
def construct_from {α : Type} [Elem α] (p : Nat) (args : CtorArgs α) : Exec α Unit :=
  if args.throws then Exec.throw else construct_at p args.value

/-- Placement `new (dst) T(std::move(*src))`: the source stays live, moved-from. -/
def move_construct {α : Type} [Elem α] (src dst : Nat) : Exec α Unit := do
  let x ← load src
  store src (Elem.movedFrom x)
  construct_at dst x

/-- The assignment `*dst = std::move(*src)` between two live objects. -/
def move_assign {α : Type} [Elem α] (src dst : Nat) : Exec α Unit := do
  let x ← load src
  store dst x
  store src (Elem.movedFrom x)

/-- The assignment `*dst = *src` between two live objects. -/
def copy_assign {α : Type} (src dst : Nat) : Exec α Unit := do
  let x ← load src
  store dst x

/-! ## Standard-library algorithms used by the header -/

/-- The call `std::destroy_n(first, n)`. -/
def destroy_n {α : Type} (first : Nat) : Nat → Exec α Unit
  | 0 => pure ()
  | n + 1 => do
    destroy_at first
    destroy_n (first + 1) n

/-- The call `std::uninitialized_value_construct_n(first, n)`. -/
def uninitialized_value_construct_n {α : Type} [Elem α] (first : Nat) : Nat → Exec α Unit
  | 0 => pure ()
  | n + 1 => do
    construct_at first (Elem.dflt : α)
    uninitialized_value_construct_n (first + 1) n

/-- Loop of `std::uninitialized_copy_n`: `d_first` is where the output began,
`cur` the next output cell. When a copy constructor throws, the objects
built so far, `[d_first, cur)`, are destroyed and the exception leaves. -/
def uninitialized_copy_loop {α : Type} [Elem α] (d_first : Nat) :
    Nat → Nat → Nat → Exec α Unit
  | 0, _, _ => pure ()
  | n + 1, src, cur => do
    let x ← load src
    if Elem.copyThrows x then
      destroy_n d_first (cur - d_first)
      Exec.throw
    else
      construct_at cur x
      uninitialized_copy_loop d_first n (src + 1) (cur + 1)

/-- The call `std::uninitialized_copy_n(first, count, d_first)`. -/
def uninitialized_copy_n {α : Type} [Elem α] (first count d_first : Nat) : Exec α Unit :=
  uninitialized_copy_loop d_first count first d_first

/-- The call `std::uninitialized_move_n(first, count, d_first)`. -/
def uninitialized_move_n {α : Type} [Elem α] : Nat → Nat → Nat → Exec α Unit
  | _, 0, _ => pure ()
  | first, n + 1, d_first => do
    move_construct first d_first
    uninitialized_move_n (first + 1) n (d_first + 1)

/-- Loop of `std::move_backward`: `n` assignments `*--d_last = std::move(*--last)`. -/
def move_backward_loop {α : Type} [Elem α] : Nat → Nat → Nat → Exec α Unit
  | 0, _, _ => pure ()
  | n + 1, last, d_last => do
    move_assign (last - 1) (d_last - 1)
    move_backward_loop n (last - 1) (d_last - 1)

/-- The call `std::move_backward(first, last, d_last)`; `[first, last)` must be
a valid range. Returns the start of the destination range. -/
def move_backward {α : Type} [Elem α] (first last d_last : Nat) : Exec α Nat :=
  if last < first then Exec.fail .undefined
  else do
    move_backward_loop (last - first) last d_last
    pure (d_last - (last - first))

/-- Loop of `std::move`: `n` assignments `*d_first++ = std::move(*first++)`. -/
def move_loop {α : Type} [Elem α] : Nat → Nat → Nat → Exec α Unit
  | 0, _, _ => pure ()
  | n + 1, first, d_first => do
    move_assign first d_first
    move_loop n (first + 1) (d_first + 1)

/-- The call `std::move(first, last, d_first)` on ranges; `[first, last)` must
be a valid range. Returns the end of the destination range. -/
def move_range {α : Type} [Elem α] (first last d_first : Nat) : Exec α Nat :=
  if last < first then Exec.fail .undefined
  else do
    move_loop (last - first) first d_first
    pure (d_first + (last - first))

/-- The allocation function `operator new(n * sizeof(T))`: a fresh block of
`n` raw cells. One unused cell precedes every block, so no block starts at
address `0` and no block ends where the next one starts. -/
def operator_new {α : Type} (n : Nat) : Exec α Nat := fun m =>
  .ok (m.length + 1) (m ++ List.replicate (n + 1) none)

/-- The deallocation function `operator delete(buf)`. Storage is never handed
out twice in this model, so the cells stay as they are: an object still live
in a released block is an object whose destructor never ran. -/
def operator_delete {α : Type} (_buf : Nat) : Exec α Unit := pure ()

/-- The decrement `--n` on a `size_t`: decrementing `0` wraps around. (Sizes
are otherwise unbounded naturals here: a vector of `2^63` or more elements
does not fit the address space, so no other operation of the header can
overflow.) -/
def size_t_dec (n : Nat) : Nat := if n = 0 then 2 ^ 64 - 1 else n - 1

/-- The subtraction `a - b` on `size_t`, wrapping when `b` exceeds `a`. -/
def size_t_sub (a b : Nat) : Nat := if b ≤ a then a - b else a + 2 ^ 64 - b

/-! ## `RawMemory<T>` -/

/-- The class `RawMemory<T>`: the address of a raw block and its capacity in
elements. Default member initialisers give `nullptr` and `0`. -/
structure RawMemory (α : Type) where
  buffer_ : Nat := 0
  capacity_ : Nat := 0
  deriving DecidableEq, Repr

namespace RawMemory

/-- The static member `Allocate(n)`. -/
def Allocate {α : Type} (n : Nat) : Exec α Nat :=
  if n ≠ 0 then operator_new n else pure 0

/-- The static member `Deallocate(buf)`. -/
def Deallocate {α : Type} (buf : Nat) : Exec α Unit := operator_delete buf

/-- The constructor `RawMemory(size_t capacity)`. -/
def withCapacity {α : Type} (capacity : Nat) : Exec α (RawMemory α) := do
  let buffer ← Allocate capacity
  pure { buffer_ := buffer, capacity_ := capacity }

/-- The move constructor `RawMemory(RawMemory&& other)`: the new object and
what is left of `other`. -/
def moveCtor {α : Type} (other : RawMemory α) : RawMemory α × RawMemory α :=
  ({ buffer_ := other.buffer_, capacity_ := other.capacity_ }, { buffer_ := 0, capacity_ := 0 })

/-- The move assignment `operator=(RawMemory&& rhs)`: the assigned object and
what is left of `rhs`. -/
def moveAssign {α : Type} (self rhs : RawMemory α) : Exec α (RawMemory α × RawMemory α) := do
  Deallocate self.buffer_
  pure ({ buffer_ := rhs.buffer_, capacity_ := rhs.capacity_ }, { buffer_ := 0, capacity_ := 0 })

/-- The destructor `~RawMemory()`. -/
def destroy {α : Type} (self : RawMemory α) : Exec α Unit :=
  Deallocate self.buffer_

/-- The member `operator+(size_t offset)`. -/
def add {α : Type} (self : RawMemory α) (offset : Nat) : Exec α Nat := do
  Exec.assert (decide (offset ≤ self.capacity_))
  pure (self.buffer_ + offset)

/-- The member `operator[](size_t index)`; the reference returned is the address of the cell. -/
def index {α : Type} (self : RawMemory α) (index : Nat) : Exec α Nat := do
  Exec.assert (decide (index < self.capacity_))
  pure (self.buffer_ + index)

/-- The member `Swap(RawMemory& other)`: this object and `other` afterwards. -/
def Swap {α : Type} (self other : RawMemory α) : RawMemory α × RawMemory α :=
  ({ buffer_ := other.buffer_, capacity_ := other.capacity_ },
   { buffer_ := self.buffer_, capacity_ := self.capacity_ })

/-- The member `GetAddress()`. -/
def GetAddress {α : Type} (self : RawMemory α) : Nat := self.buffer_

/-- The member `Capacity()`. -/
def Capacity {α : Type} (self : RawMemory α) : Nat := self.capacity_

end RawMemory

/-! ## `Vector<T>` -/

/-- The class `Vector<T>`: its raw memory and the number of live elements. -/
structure Vector (α : Type) where
  data_ : RawMemory α := {}
  size_ : Nat := 0
  deriving DecidableEq, Repr

namespace Vector

/-- The default constructor `Vector() = default`. -/
def empty {α : Type} : Vector α := {}

/-- The member `Size()`. -/
def Size {α : Type} (v : Vector α) : Nat := v.size_

/-- The member `Capacity()`. -/
def Capacity {α : Type} (v : Vector α) : Nat := v.data_.Capacity

/-- The member `begin()` (and `cbegin()`). -/
def begin {α : Type} (v : Vector α) : Nat := v.data_.GetAddress

/-- The member `end()` (and `cend()`): `std::next(data_.GetAddress(), size_)`. -/
def end_ {α : Type} (v : Vector α) : Nat := v.data_.GetAddress + v.size_

/-- The member `operator[](size_t index)`; the reference returned is the address of the element. -/
def index {α : Type} (v : Vector α) (index : Nat) : Exec α Nat := do
  Exec.assert (decide (index < v.size_))
  v.data_.index index

/-- The caller's read `v[index]`. -/
def read {α : Type} (v : Vector α) (index : Nat) : Exec α α := do
  let p ← v.index index
  load p

/-- The caller's write `v[index] = x`. -/
def write {α : Type} (v : Vector α) (index : Nat) (x : α) : Exec α Unit := do
  let p ← v.index index
  store p x

/-- The private member `CopyOrMoveElements(from, to, count)`. -/
def CopyOrMoveElements {α : Type} [Elem α] (src dst count : Nat) : Exec α Unit :=
  if (Elem.nothrowMove α || !Elem.copyConstructible α) = true then
    uninitialized_move_n src count dst
  else
    uninitialized_copy_n src count dst

/-- The constructor `Vector(size_t size)`. -/
def sized {α : Type} [Elem α] (size : Nat) : Exec α (Vector α) := do
  let data ← RawMemory.withCapacity size
  uninitialized_value_construct_n data.GetAddress size
  pure { data_ := data, size_ := size }

/-- The copy constructor `Vector(const Vector& other)`. -/
def copyCtor {α : Type} [Elem α] (other : Vector α) : Exec α (Vector α) := do
  let data ← RawMemory.withCapacity other.size_
  uninitialized_copy_n other.data_.GetAddress other.size_ data.GetAddress
  pure { data_ := data, size_ := other.size_ }

/-- The move constructor `Vector(Vector&& other)`: the new vector and what is left of `other`. -/
def moveCtor {α : Type} (other : Vector α) : Vector α × Vector α :=
  let (data, rest) := other.data_.moveCtor
  ({ data_ := data, size_ := other.size_ }, { data_ := rest, size_ := 0 })

/-- The destructor `~Vector()`, followed by the destructor of the member `data_`. -/
def destroy {α : Type} (v : Vector α) : Exec α Unit := do
  destroy_n v.data_.GetAddress v.size_
  v.data_.destroy

/-- The private member `ConstructElements(new_data)`: this vector and `new_data` afterwards. -/
def ConstructElements {α : Type} [Elem α] (v : Vector α) (new_data : RawMemory α) :
    Exec α (Vector α × RawMemory α) := do
  CopyOrMoveElements v.data_.GetAddress new_data.GetAddress v.size_
  destroy_n v.data_.GetAddress v.size_
  let (data, old) := v.data_.Swap new_data
  pure ({ v with data_ := data }, old)

/-- The member `Reserve(size_t new_capacity)`. -/
def Reserve {α : Type} [Elem α] (v : Vector α) (new_capacity : Nat) : Exec α (Vector α) :=
  if new_capacity ≤ v.data_.Capacity then pure v
  else do
    let new_data ← RawMemory.withCapacity new_capacity
    let (v, new_data) ← v.ConstructElements new_data
    new_data.destroy
    pure v

/-- The member `Swap(Vector& other)`: this vector and `other` afterwards. -/
def Swap {α : Type} (v other : Vector α) : Vector α × Vector α :=
  ({ data_ := other.data_, size_ := other.size_ }, { data_ := v.data_, size_ := v.size_ })

/-- Loop of the private member `CopyElements`: `n` more iterations from `index`. -/
def CopyElementsLoop {α : Type} (v rhs : Vector α) : Nat → Nat → Exec α Unit
  | 0, _ => pure ()
  | n + 1, index => do
    let src ← rhs.index index
    let dst ← v.index index
    copy_assign src dst
    CopyElementsLoop v rhs n (index + 1)

/-- The private member `CopyElements(rhs, count)`. -/
def CopyElements {α : Type} (v rhs : Vector α) (count : Nat) : Exec α Unit :=
  CopyElementsLoop v rhs count 0

/-- The private member `CopyExistingElements(rhs)`. -/
def CopyExistingElements {α : Type} [Elem α] (v rhs : Vector α) : Exec α (Vector α) := do
  if rhs.size_ < v.size_ then
    v.CopyElements rhs rhs.size_
    destroy_n (v.data_.GetAddress + rhs.size_) (size_t_sub v.size_ rhs.size_)
  else
    v.CopyElements rhs v.size_
    uninitialized_copy_n (rhs.data_.GetAddress + v.size_) (size_t_sub rhs.size_ v.size_)
      (v.data_.GetAddress + v.size_)
  pure { v with size_ := rhs.size_ }

/-- The copy assignment `operator=(const Vector& rhs)`. The flag `same` is the
outcome of the address comparison `this == &rhs`; when it holds, `rhs` is this
very object. -/
def copyAssign {α : Type} [Elem α] (v rhs : Vector α) (same : Bool) : Exec α (Vector α) :=
  if same then pure v
  else if rhs.size_ > v.data_.Capacity then do
    let rhs_copy ← copyCtor rhs
    let (v, rhs_copy) := v.Swap rhs_copy
    rhs_copy.destroy
    pure v
  else
    v.CopyExistingElements rhs

/-- The move assignment `operator=(Vector&& rhs)` from another object: the
assigned vector and what is left of `rhs`. -/
def moveAssign {α : Type} (v rhs : Vector α) : Exec α (Vector α × Vector α) := do
  let (data, rest) ← v.data_.moveAssign rhs.data_
  pure ({ data_ := data, size_ := rhs.size_ }, { data_ := rest, size_ := 0 })

/-- The member `Resize(size_t new_size)`. -/
def Resize {α : Type} [Elem α] (v : Vector α) (new_size : Nat) : Exec α (Vector α) :=
  if new_size = v.size_ then pure v
  else do
    let v ← (if new_size < v.size_ then do
        destroy_n (v.data_.GetAddress + new_size) (size_t_sub v.size_ new_size)
        pure v
      else do
        let v ← v.Reserve new_size
        uninitialized_value_construct_n (v.data_.GetAddress + v.size_)
          (size_t_sub new_size v.size_)
        pure v)
    pure { v with size_ := new_size }

/-- The member `EmplaceBack(Args&&... args)`: the address of the new element
(the reference returned) and the vector afterwards. -/
def EmplaceBack {α : Type} [Elem α] (v : Vector α) (args : CtorArgs α) :
    Exec α (Nat × Vector α) := do
  let v ← (if v.size_ = v.Capacity then do
      let new_data ← RawMemory.withCapacity (if v.size_ = 0 then 1 else v.size_ * 2)
      let p ← new_data.add v.size_
      construct_from p args
      let (v, new_data) ← v.ConstructElements new_data
      new_data.destroy
      pure v
    else do
      let p ← v.data_.add v.size_
      construct_from p args
      pure v)
  let r ← v.data_.index v.size_
  pure (r, { v with size_ := v.size_ + 1 })

/-- The member `PushBack(const T& value)`. -/
def PushBack {α : Type} [Elem α] (v : Vector α) (value : α) : Exec α (Vector α) := do
  let (_, v) ← v.EmplaceBack (.copy value)
  pure v

/-- The member `PushBack(T&& value)`. -/
def PushBackMove {α : Type} [Elem α] (v : Vector α) (value : α) : Exec α (Vector α) := do
  let (_, v) ← v.EmplaceBack (.make value)
  pure v

/-- The member `PopBack()`. -/
def PopBack {α : Type} (v : Vector α) : Exec α (Vector α) := do
  let size := size_t_dec v.size_
  destroy_at (v.data_.GetAddress + size)
  pure { v with size_ := size }

/-- The private member `EmplaceInFullVector(pos, args...)`. -/
def EmplaceInFullVector {α : Type} [Elem α] (v : Vector α) (pos : Nat) (args : CtorArgs α) :
    Exec α (Vector α) := do
  let new_data ← RawMemory.withCapacity (if v.size_ = 0 then 1 else v.size_ * 2)
  let pos_index := size_t_sub pos v.begin
  let p ← new_data.index pos_index
  construct_from p args
  Exec.tryCatchRethrow
    (CopyOrMoveElements v.data_.GetAddress new_data.GetAddress pos_index)
    (destroy_n (new_data.GetAddress + pos_index) 1)
  Exec.tryCatchRethrow
    (CopyOrMoveElements (v.data_.GetAddress + pos_index)
      (new_data.GetAddress + pos_index + 1) (size_t_sub v.size_ pos_index))
    (destroy_n new_data.GetAddress (pos_index + 1))
  destroy_n v.data_.GetAddress v.size_
  let (data, old) := v.data_.Swap new_data
  old.destroy
  pure { v with data_ := data }

/-- The member `Emplace(pos, args...)`: the iterator returned and the vector afterwards. -/
def Emplace {α : Type} [Elem α] (v : Vector α) (pos : Nat) (args : CtorArgs α) :
    Exec α (Nat × Vector α) := do
  let pos_index := size_t_sub pos v.begin
  let v ← (if v.size_ = v.Capacity then
      v.EmplaceInFullVector pos args
    else if v.size_ = 0 then do
      construct_from v.data_.GetAddress args
      pure v
    else do
      let value ← operator_new 1
      construct_from value args
      let last ← v.data_.index (v.size_ - 1)
      move_construct last v.end_
      let _ ← move_backward (v.begin + pos_index) (v.end_ - 1) v.end_
      let slot ← v.data_.index pos_index
      move_assign value slot
      destroy_at value
      operator_delete value
      pure v)
  pure (v.begin + pos_index, { v with size_ := v.size_ + 1 })

/-- The member `Insert(pos, const T& value)`. -/
def Insert {α : Type} [Elem α] (v : Vector α) (pos : Nat) (value : α) :
    Exec α (Nat × Vector α) :=
  v.Emplace pos (.copy value)

/-- The member `Insert(pos, T&& value)`. -/
def InsertMove {α : Type} [Elem α] (v : Vector α) (pos : Nat) (value : α) :
    Exec α (Nat × Vector α) :=
  v.Emplace pos (.make value)

/-- The member `Erase(pos)`: the iterator returned and the vector afterwards. -/
def Erase {α : Type} [Elem α] (v : Vector α) (pos : Nat) : Exec α (Nat × Vector α) := do
  let pos_index := size_t_sub pos v.begin
  let _ ← move_range (v.begin + pos_index + 1) v.end_ (v.begin + pos_index)
  destroy_n (v.end_ - 1) 1
  pure (v.begin + pos_index, { v with size_ := size_t_dec v.size_ })

/-! ## The abstraction the properties are stated with -/

/-- The representation relation: in memory `m` the vector `v` is in a valid state and
its elements are, in order, the list `s`. That is: `size_` is the length of
`s`, it does not exceed the capacity, and of the `capacity_` cells of the
block at `buffer_` the first `size_` hold live objects with the values of
`s` while the others are raw storage. -/
def Holds {α : Type} (v : Vector α) (m : Memory α) (s : List α) : Prop :=
  v.size_ = s.length ∧ s.length ≤ v.data_.capacity_ ∧
    ∀ i, i < v.data_.capacity_ → m[v.data_.buffer_ + i]? = some s[i]?

instance {α : Type} [DecidableEq α] (v : Vector α) (m : Memory α) (s : List α) :
    Decidable (v.Holds m s) := by
  unfold Holds
  infer_instance

/-- The frame condition: going from `m` to `m1`, no storage was given back, and every cell that
existed in `m` outside the block of `v` is as it was. -/
def Frame {α : Type} (v : Vector α) (m m1 : Memory α) : Prop :=
  m.length ≤ m1.length ∧
    ∀ a, a < m.length → ¬ (v.data_.buffer_ ≤ a ∧ a < v.data_.buffer_ + v.data_.capacity_) →
      m1[a]? = m[a]?

/-- Two vectors own separate storage: their blocks do not overlap (a vector
without capacity has no block). -/
def Apart {α : Type} (a b : Vector α) : Prop :=
  a.data_.capacity_ = 0 ∨ b.data_.capacity_ = 0 ∨
    a.data_.buffer_ + a.data_.capacity_ ≤ b.data_.buffer_ ∨
    b.data_.buffer_ + b.data_.capacity_ ≤ a.data_.buffer_

instance {α : Type} (a b : Vector α) : Decidable (Apart a b) := by
  unfold Apart
  infer_instance

/-- Transferring the elements `s` to a new buffer with `CopyOrMoveElements`
does not throw: either the move branch is compiled, or no copy constructor
call on an element of `s` throws. -/
def TransferNoThrow {α : Type} [Elem α] (s : List α) : Prop :=
  (Elem.nothrowMove α || !Elem.copyConstructible α) = true ∨
    ∀ x, x ∈ s → Elem.copyThrows x = false

/-- Copy-constructing each element of `s` does not throw. -/
def CopyNoThrow {α : Type} [Elem α] (s : List α) : Prop :=
  ∀ x, x ∈ s → Elem.copyThrows x = false

end Vector

/-! ## Callers -/

/-- A caller's mutation of a vector; positions are given as indices. -/
inductive Mutation (α : Type) where
  | append (args : CtorArgs α)
  | insert (index : Nat) (args : CtorArgs α)
  | erase (index : Nat)
  | resize (n : Nat)
  | write (index : Nat) (x : α)

/-- The call that performs a mutation. -/
def Mutation.run {α : Type} [Elem α] (v : Vector α) : Mutation α → Exec α (Vector α)
  | .append args => do
    let (_, v1) ← v.EmplaceBack args
    pure v1
  | .insert index args => do
    let (_, v1) ← v.Emplace (v.begin + index) args
    pure v1
  | .erase index => do
    let (_, v1) ← v.Erase (v.begin + index)
    pure v1
  | .resize n => v.Resize n
  | .write index x => do
    v.write index x
    pure v

/-- The mutation is called within its contract on a vector holding `s`, and no
constructor involved throws. -/
def Mutation.InContract {α : Type} [Elem α] (s : List α) : Mutation α → Prop
  | .append args => args.throws = false ∧ Vector.TransferNoThrow s
  | .insert index args => index ≤ s.length ∧ args.throws = false ∧ Vector.TransferNoThrow s
  | .erase index => index < s.length
  | .resize _ => Vector.TransferNoThrow s
  | .write index _ => index < s.length

/-- The element sequence a mutation is meant to produce from `s`. -/
def Mutation.result {α : Type} [Elem α] (s : List α) : Mutation α → List α
  | .append args => s ++ [args.value]
  | .insert index args => s.take index ++ args.value :: s.drop index
  | .erase index => s.eraseIdx index
  | .resize n => s.take n ++ List.replicate (n - s.length) Elem.dflt
  | .write index x => s.set index x

/-- The relation `Mutated v m s v1 m1 s1`: starting from the vector `v` holding `s` in
memory `m`, a caller performed finitely many mutations, each within its
contract and each returning normally, and ended with the vector `v1` in
memory `m1`; `s1` is the element sequence the mutations are meant to produce. -/
inductive Mutated {α : Type} [Elem α] :
    Vector α → Memory α → List α → Vector α → Memory α → List α → Prop where
  | done (v : Vector α) (m : Memory α) (s : List α) : Mutated v m s v m s
  | step {v v1 v2 : Vector α} {m m1 m2 : Memory α} {s s2 : List α} (op : Mutation α)
      (hc : op.InContract s) (hrun : op.run v m = .ok v1 m1)
      (rest : Mutated v1 m1 (op.result s) v2 m2 s2) : Mutated v m s v2 m2 s2

/-- The vector `{10, 20, 30}` as a caller builds it: three `PushBack` calls on a
default-constructed `Vector<int>`. -/
def threeInts : Exec Int (Vector Int) := do
  let v ← (Vector.empty : Vector Int).PushBack 10
  let v ← v.PushBack 20
  v.PushBack 30

/-- The memory three `PushBack` calls leave behind when they start on the empty
memory: two released blocks, then the block of capacity 4 holding `10, 20, 30`. -/
def threeIntsMemory : Memory Int :=
  [none, none, none, none, none, none, some 10, some 20, some 30, none]

/-- The vector object after those three calls: size 3, capacity 4, block at address 6. -/
def threeIntsVector : Vector Int := ⟨⟨6, 4⟩, 3⟩

/-- The vector `{"a", "b", "c"}` of strings, built the same way. -/
def threeStrings : Exec String (Vector String) := do
  let v ← (Vector.empty : Vector String).PushBack "a"
  let v ← v.PushBack "b"
  v.PushBack "c"

/-- The memory those three calls leave behind when they start on the empty memory. -/
def threeStringsMemory : Memory String :=
  [none, none, none, none, none, none, some "a", some "b", some "c", none]

/-- The vector object after those three calls: size 3, capacity 4, block at address 6. -/
def threeStringsVector : Vector String := ⟨⟨6, 4⟩, 3⟩

/-- An element type whose copy constructor can throw and whose move constructor
is not `noexcept`, so that `CopyOrMoveElements` copies: copying an `armed`
object throws. A moved-from object is reset. -/
structure Fragile where
  val : Int
  armed : Bool
  deriving DecidableEq, Repr

instance : Elem Fragile where
  dflt := ⟨0, false⟩
  movedFrom := fun _ => ⟨0, false⟩
  copyThrows := fun x => x.armed
  nothrowMove := false
  copyConstructible := true

/-- Five objects, the third of which throws when copied, as a caller puts them
into a vector without triggering a transfer: `Reserve(5)`, then five
`PushBack` calls with rvalues. -/
def fiveFragile : Exec Fragile (Vector Fragile) := do
  let v ← (Vector.empty : Vector Fragile).Reserve 5
  let v ← v.PushBackMove ⟨1, false⟩
  let v ← v.PushBackMove ⟨2, false⟩
  let v ← v.PushBackMove ⟨3, true⟩
  let v ← v.PushBackMove ⟨4, false⟩
  v.PushBackMove ⟨5, false⟩

/-- The elements of `fiveFragile`. -/
def fiveFragileElements : List Fragile :=
  [⟨1, false⟩, ⟨2, false⟩, ⟨3, true⟩, ⟨4, false⟩, ⟨5, false⟩]

/-- The memory `fiveFragile` leaves behind when it starts on the empty memory. -/
def fiveFragileMemory : Memory Fragile :=
  [none, some ⟨1, false⟩, some ⟨2, false⟩, some ⟨3, true⟩, some ⟨4, false⟩, some ⟨5, false⟩]

/-- The vector object `fiveFragile` returns: size 5, capacity 5, block at address 1. -/
def fiveFragileVector : Vector Fragile := ⟨⟨1, 5⟩, 5⟩

/-- The computation `x` passes every assertion it reaches, in every memory, and every
value it returns satisfies `Q`. Exceptions and undefined behaviour are not
excluded. -/
def Exec.Ensures {α β : Type} (x : Exec α β) (Q : β → Prop) : Prop :=
  ∀ m, x m ≠ .fault .assertion ∧ ∀ b m1, x m = .ok b m1 → Q b

/-! ## Allocation by byte count

The definitions above hand out `n` cells whenever `n` objects are asked for.
That is what `operator new(n * sizeof(T))` does as long as the product fits a
`size_t` and the request is satisfied, which is the case for the blocks a
vector asks for on its own account (as many objects as another vector holds,
or twice its own size). Where the caller chooses the number, in `Vector(size)`,
`Reserve(new_capacity)` and `Resize(new_size)`, the product can wrap and the
request can fail; the definitions below carry both. -/

/-- What the header leaves to the platform when it calls
`operator new(n * sizeof(T))`: the size of an object in bytes, and the largest
request, in bytes, that the allocation function satisfies at the time of the call. -/
structure Allocator where
  sizeofT : Nat
  available : Nat
  sizeofT_pos : 0 < sizeofT

namespace Allocator

/-- The allocation function `operator new(bytes)`. A request beyond what is
available ends in `std::bad_alloc`. Otherwise the block has `bytes` bytes,
room for `bytes / sizeof(T)` objects; as before one unused cell precedes it. -/
def operator_new {α : Type} (A : Allocator) (bytes : Nat) : Exec α Nat := fun m =>
  if A.available < bytes then .thrown m
  else .ok (m.length + 1) (m ++ List.replicate (bytes / A.sizeofT + 1) none)

/-- The static member `Allocate(n)`: the argument `n * sizeof(T)` is a product of
two `size_t` values and wraps around at `2^64`. -/
def Allocate {α : Type} (A : Allocator) (n : Nat) : Exec α Nat :=
  if n ≠ 0 then A.operator_new (n * A.sizeofT % 2 ^ 64) else pure 0

/-- The constructor `RawMemory(size_t capacity)`: the capacity recorded is the
argument, whatever the size of the block obtained. -/
def withCapacity {α : Type} (A : Allocator) (capacity : Nat) : Exec α (RawMemory α) := do
  let buffer ← A.Allocate capacity
  pure { buffer_ := buffer, capacity_ := capacity }

/-- The constructor `Vector(size_t size)`. -/
def sized {α : Type} [Elem α] (A : Allocator) (size : Nat) : Exec α (Vector α) := do
  let data ← A.withCapacity size
  uninitialized_value_construct_n data.GetAddress size
  pure { data_ := data, size_ := size }

/-- The member `Reserve(size_t new_capacity)`. -/
def Reserve {α : Type} [Elem α] (A : Allocator) (v : Vector α) (new_capacity : Nat) :
    Exec α (Vector α) :=
  if new_capacity ≤ v.data_.Capacity then pure v
  else do
    let new_data ← A.withCapacity new_capacity
    let (v, new_data) ← v.ConstructElements new_data
    new_data.destroy
    pure v

/-- The member `Resize(size_t new_size)`. -/
def Resize {α : Type} [Elem α] (A : Allocator) (v : Vector α) (new_size : Nat) :
    Exec α (Vector α) :=
  if new_size = v.size_ then pure v
  else do
    let v ← (if new_size < v.size_ then do
        destroy_n (v.data_.GetAddress + new_size) (size_t_sub v.size_ new_size)
        pure v
      else do
        let v ← A.Reserve v new_size
        uninitialized_value_construct_n (v.data_.GetAddress + v.size_)
          (size_t_sub new_size v.size_)
        pure v)
    pure { v with size_ := new_size }

end Allocator

/-- The platform of the examples with `Fragile` elements: 16 bytes each, and requests
of up to `2^40` bytes are satisfied. -/
def fragileAllocator : Allocator := ⟨16, 2 ^ 40, by decide⟩

end AdvancedVector

namespace AdvancedVector

set_option linter.unusedTactic false
set_option linter.unreachableTactic false

section
variable {α β γ : Type}

/-! ## The execution monad -/

@[simp] theorem Exec.pure_apply (b : β) (m : Memory α) : (pure b : Exec α β) m = .ok b m := rfl

theorem Exec.bind_apply (x : Exec α β) (f : β → Exec α γ) (m : Memory α) :
    (x >>= f) m = match x m with
      | .ok b m1 => f b m1
      | .thrown m1 => .thrown m1
      | .fault e => .fault e := rfl

theorem Exec.bind_ok {x : Exec α β} {f : β → Exec α γ} {m m1 : Memory α} {b : β}
    (h : x m = .ok b m1) : (x >>= f) m = f b m1 := by
  rw [Exec.bind_apply, h]

theorem Exec.assert_ok {c : Bool} (h : c = true) (m : Memory α) :
    Exec.assert c m = .ok () m := by
  simp [Exec.assert, h]

theorem Exec.tryCatchRethrow_ok {body : Exec α β} {handler : Exec α Unit} {m m1 : Memory α}
    {b : β} (h : body m = .ok b m1) : Exec.tryCatchRethrow body handler m = .ok b m1 := by
  simp only [Exec.tryCatchRethrow, h]

/-! ## Cells and the primitive object operations -/

theorem live_lt {m : Memory α} {p : Nat} {c : Option α} (h : m[p]? = some c) : p < m.length := by
  obtain ⟨h1, _⟩ := List.getElem?_eq_some_iff.mp h
  exact h1

/-- Reading a cell of an updated memory. -/
theorem cell_set (m : Memory α) (p a : Nat) (c : Option α) (h : p < m.length) :
    (m.set p c)[a]? = if a = p then some c else m[a]? := by
  rw [List.getElem?_set]
  by_cases hap : p = a
  · subst hap; simp [h]
  · rw [if_neg hap, if_neg (fun h => hap h.symm)]

/-- A fresh block of `c` raw cells appended to `m`. -/
theorem fresh_block (m : Memory α) (c : Nat) (a : Nat) :
    (m ++ List.replicate (c + 1) none)[a]? =
      if a < m.length then m[a]?
      else if a < m.length + (c + 1) then some none else none := by
  rw [List.getElem?_append, List.getElem?_replicate]
  split_ifs <;> first | rfl | omega

/-- A fresh block of `c` raw cells appended to `m`, one cell of it then constructed. -/
theorem fresh_block_cell (m : Memory α) (c p : Nat) (x : α) (hp : p < m.length + (c + 1)) (a : Nat) :
    ((m ++ List.replicate (c + 1) none).set p (some x))[a]? =
      if a = p then some (some x)
      else if a < m.length then m[a]?
      else if a < m.length + (c + 1) then some none else none := by
  rw [cell_set _ _ _ _ (by simpa using hp), List.getElem?_append, List.getElem?_replicate]
  split_ifs <;> first | rfl | omega

theorem load_ok {m : Memory α} {p : Nat} {x : α} (h : m[p]? = some (some x)) :
    load p m = .ok x m := by
  simp [load, h]

theorem store_ok {m : Memory α} {p : Nat} {y : α} (x : α) (h : m[p]? = some (some y)) :
    store p x m = .ok () (m.set p (some x)) := by
  simp [store, h]

theorem construct_at_ok {m : Memory α} {p : Nat} (x : α) (h : p < m.length) :
    construct_at p x m = .ok () (m.set p (some x)) := by
  simp [construct_at, h]

theorem destroy_at_ok {m : Memory α} {p : Nat} {y : α} (h : m[p]? = some (some y)) :
    destroy_at p m = .ok () (m.set p none) := by
  simp [destroy_at, h]

theorem construct_from_ok [Elem α] {m : Memory α} {p : Nat} {args : CtorArgs α}
    (ht : args.throws = false) (h : p < m.length) :
    construct_from p args m = .ok () (m.set p (some args.value)) := by
  simp only [construct_from, ht, Bool.false_eq_true, if_false]
  exact construct_at_ok _ h

theorem move_construct_ok [Elem α] {m : Memory α} {src dst : Nat} {x : α}
    (hx : m[src]? = some (some x)) (hd : dst < m.length) :
    move_construct src dst m =
      .ok () ((m.set src (some (Elem.movedFrom x))).set dst (some x)) := by
  simp only [move_construct]
  rw [Exec.bind_ok (load_ok hx), Exec.bind_ok (store_ok _ hx)]
  exact construct_at_ok _ (by simpa using hd)

theorem move_assign_ok [Elem α] {m : Memory α} {src dst : Nat} {x y : α}
    (hx : m[src]? = some (some x)) (hy : m[dst]? = some (some y)) :
    move_assign src dst m =
      .ok () ((m.set dst (some x)).set src (some (Elem.movedFrom x))) := by
  have hs : (m.set dst (some x))[src]? = some (some (if src = dst then x else x)) := by
    rw [cell_set _ _ _ _ (live_lt hy)]
    split_ifs <;> simp [hx]
  simp only [move_assign]
  rw [Exec.bind_ok (load_ok hx), Exec.bind_ok (store_ok _ hy)]
  exact store_ok _ hs

theorem operator_new_ok (n : Nat) (m : Memory α) :
    operator_new n m = .ok (m.length + 1) (m ++ List.replicate (n + 1) none) := rfl

theorem size_t_sub_add (b p : Nat) : size_t_sub (b + p) b = p := by
  simp only [size_t_sub]
  rw [if_pos (by omega)]; omega

theorem size_t_sub_le {a b : Nat} (h : b ≤ a) : size_t_sub a b = a - b := by
  simp only [size_t_sub]
  rw [if_pos h]

theorem size_t_dec_pos {n : Nat} (h : 0 < n) : size_t_dec n = n - 1 := by
  simp only [size_t_dec]
  rw [if_neg (by omega)]

/-! ## The standard-library algorithms -/

theorem destroy_n_spec (n : Nat) : ∀ (first : Nat) (m : Memory α),
    (∀ i, i < n → ∃ x, m[first + i]? = some (some x)) →
    ∃ m1, destroy_n first n m = .ok () m1 ∧ m1.length = m.length ∧
      ∀ a, m1[a]? = if first ≤ a ∧ a < first + n then some none else m[a]? := by
  induction n with
  | zero =>
    intro first m _
    refine ⟨m, rfl, rfl, fun a => ?_⟩
    rw [if_neg (by omega)]
  | succ n ih =>
    intro first m h
    obtain ⟨x, hx⟩ := h 0 (by omega)
    have hx : m[first]? = some (some x) := by simpa using hx
    have hlt : first < m.length := live_lt hx
    obtain ⟨m1, hrun, hlen, hcells⟩ := ih (first + 1) (m.set first none) (by
      intro i hi
      obtain ⟨y, hy⟩ := h (i + 1) (by omega)
      refine ⟨y, ?_⟩
      rw [cell_set _ _ _ _ hlt, if_neg (by omega), ← hy]
      congr 1; omega)
    refine ⟨m1, ?_, by simpa using hlen, fun a => ?_⟩
    · simp only [destroy_n]
      rw [Exec.bind_ok (destroy_at_ok hx)]; exact hrun
    · rw [hcells a, cell_set _ _ _ _ hlt]
      split_ifs <;> first | rfl | omega

theorem uninitialized_value_construct_n_spec [Elem α] (n : Nat) : ∀ (first : Nat) (m : Memory α),
    first + n ≤ m.length →
    ∃ m1, uninitialized_value_construct_n first n m = .ok () m1 ∧ m1.length = m.length ∧
      ∀ a, m1[a]? = if first ≤ a ∧ a < first + n then some (some Elem.dflt) else m[a]? := by
  induction n with
  | zero =>
    intro first m _
    refine ⟨m, rfl, rfl, fun a => ?_⟩
    rw [if_neg (by omega)]
  | succ n ih =>
    intro first m h
    have hlt : first < m.length := by omega
    obtain ⟨m1, hrun, hlen, hcells⟩ := ih (first + 1) (m.set first (some Elem.dflt)) (by
      simp; omega)
    refine ⟨m1, ?_, by simpa using hlen, fun a => ?_⟩
    · simp only [uninitialized_value_construct_n]
      rw [Exec.bind_ok (construct_at_ok _ hlt)]; exact hrun
    · rw [hcells a, cell_set _ _ _ _ hlt]
      split_ifs <;> first | rfl | omega

theorem uninitialized_copy_loop_spec [Elem α] (d_first : Nat) (n : Nat) :
    ∀ (src cur : Nat) (m : Memory α),
    (∀ i, i < n → ∃ x, m[src + i]? = some (some x) ∧ Elem.copyThrows x = false) →
    (0 < n → cur + n ≤ m.length) → (0 < n → src + n ≤ cur ∨ cur + n ≤ src) →
    ∃ m1, uninitialized_copy_loop d_first n src cur m = .ok () m1 ∧ m1.length = m.length ∧
      ∀ a, m1[a]? = if cur ≤ a ∧ a < cur + n then m[src + (a - cur)]? else m[a]? := by
  induction n with
  | zero =>
    intro src cur m _ _ _
    refine ⟨m, rfl, rfl, fun a => ?_⟩
    rw [if_neg (by omega)]
  | succ n ih =>
    intro src cur m h hlen hdis
    have hdis := hdis (by omega)
    have hlen := hlen (by omega)
    obtain ⟨x, hx, hnt⟩ := h 0 (by omega)
    have hx : m[src]? = some (some x) := by simpa using hx
    have hlt : cur < m.length := by omega
    obtain ⟨m1, hrun, hlen1, hcells⟩ := ih (src + 1) (cur + 1) (m.set cur (some x)) (by
      intro i hi
      obtain ⟨y, hy, hyt⟩ := h (i + 1) (by omega)
      refine ⟨y, ?_, hyt⟩
      rw [cell_set _ _ _ _ hlt, if_neg (by omega), ← hy]
      congr 1; omega) (fun _ => by simp; omega) (fun _ => by omega)
    refine ⟨m1, ?_, by simpa using hlen1, fun a => ?_⟩
    · simp only [uninitialized_copy_loop]
      rw [Exec.bind_ok (load_ok hx)]
      simp only [hnt, Bool.false_eq_true, if_false]
      rw [Exec.bind_ok (construct_at_ok _ hlt)]; exact hrun
    · rw [hcells a, cell_set _ _ _ _ hlt, cell_set _ _ _ _ hlt]
      by_cases h1 : a = cur
      · subst h1
        rw [if_neg (by omega), if_pos rfl, if_pos (by omega)]
        simp [hx]
      · by_cases h2 : cur + 1 ≤ a ∧ a < cur + 1 + n
        · rw [if_pos h2, if_neg (by omega), if_pos (by omega)]
          congr 1; omega
        · rw [if_neg h2, if_neg h1, if_neg (by omega)]

theorem uninitialized_move_n_spec [Elem α] (n : Nat) :
    ∀ (src dst : Nat) (m : Memory α),
    (∀ i, i < n → ∃ x, m[src + i]? = some (some x)) →
    (0 < n → dst + n ≤ m.length) → (0 < n → src + n ≤ dst ∨ dst + n ≤ src) →
    ∃ m1, uninitialized_move_n src n dst m = .ok () m1 ∧ m1.length = m.length ∧
      ∀ a, m1[a]? =
        if dst ≤ a ∧ a < dst + n then m[src + (a - dst)]?
        else if src ≤ a ∧ a < src + n then (m[a]?).map (Option.map Elem.movedFrom)
        else m[a]? := by
  induction n with
  | zero =>
    intro src dst m _ _ _
    refine ⟨m, rfl, rfl, fun a => ?_⟩
    rw [if_neg (by omega), if_neg (by omega)]
  | succ n ih =>
    intro src dst m h hlen hdis
    have hdis := hdis (by omega)
    have hlen := hlen (by omega)
    obtain ⟨x, hx⟩ := h 0 (by omega)
    have hx : m[src]? = some (some x) := by simpa using hx
    have hsl : src < m.length := live_lt hx
    have hlt : dst < m.length := by omega
    have hstep : move_construct src dst m =
        .ok () ((m.set src (some (Elem.movedFrom x))).set dst (some x)) := by
      simp only [move_construct]
      rw [Exec.bind_ok (load_ok hx), Exec.bind_ok (store_ok _ hx)]
      exact construct_at_ok _ (by simpa using hlt)
    have hl2 : dst < (m.set src (some (Elem.movedFrom x))).length := by simpa using hlt
    obtain ⟨m1, hrun, hlen1, hcells⟩ := ih (src + 1) (dst + 1)
      ((m.set src (some (Elem.movedFrom x))).set dst (some x)) (by
      intro i hi
      obtain ⟨y, hy⟩ := h (i + 1) (by omega)
      refine ⟨y, ?_⟩
      rw [cell_set _ _ _ _ hl2, if_neg (by omega), cell_set _ _ _ _ hsl, if_neg (by omega), ← hy]
      congr 1; omega) (fun _ => by simp; omega) (fun _ => by omega)
    refine ⟨m1, ?_, by simpa using hlen1, fun a => ?_⟩
    · simp only [uninitialized_move_n]
      rw [Exec.bind_ok hstep]; exact hrun
    · rw [hcells a]
      simp only [cell_set _ _ _ _ hl2, cell_set _ _ _ _ hsl]
      split_ifs <;>
        first
        | rfl
        | omega
        | (congr 1; omega)
        | (subst_vars; simp [hx]; done)
        | (subst_vars; rw [← hx]; congr 1; omega)

theorem move_backward_loop_spec [Elem α] (n : Nat) : ∀ (f : Nat) (m : Memory α),
    (∀ a, f ≤ a → a ≤ f + n → ∃ x, m[a]? = some (some x)) →
    ∃ m1, move_backward_loop n (f + n) (f + n + 1) m = .ok () m1 ∧ m1.length = m.length ∧
      ∀ a, m1[a]? =
        if f < a ∧ a ≤ f + n then m[a - 1]?
        else if a = f ∧ 0 < n then (m[a]?).map (Option.map Elem.movedFrom)
        else m[a]? := by
  induction n with
  | zero =>
    intro f m _
    refine ⟨m, rfl, rfl, fun a => ?_⟩
    rw [if_neg (by omega), if_neg (by omega)]
  | succ n ih =>
    intro f m h
    obtain ⟨x, hx⟩ := h (f + n) (by omega) (by omega)
    obtain ⟨y, hy⟩ := h (f + n + 1) (by omega) (by omega)
    have hl1 : f + n + 1 < m.length := live_lt hy
    have hl2 : f + n < (m.set (f + n + 1) (some x)).length := by simp; omega
    obtain ⟨m1, hrun, hlen1, hcells⟩ := ih f
      ((m.set (f + n + 1) (some x)).set (f + n) (some (Elem.movedFrom x))) (by
      intro a ha1 ha2
      rw [cell_set _ _ _ _ hl2, cell_set _ _ _ _ hl1]
      by_cases h1 : a = f + n
      · rw [if_pos h1]; exact ⟨_, rfl⟩
      · rw [if_neg h1, if_neg (by omega)]
        exact h a ha1 (by omega))
    refine ⟨m1, ?_, by simpa using hlen1, fun a => ?_⟩
    · simp only [move_backward_loop]
      have e1 : f + (n + 1) - 1 = f + n := by omega
      have e2 : f + (n + 1) + 1 - 1 = f + n + 1 := by omega
      rw [e1, e2, Exec.bind_ok (move_assign_ok hx hy)]; exact hrun
    · rw [hcells a]
      simp only [cell_set _ _ _ _ hl2, cell_set _ _ _ _ hl1]
      split_ifs <;>
        first
        | rfl
        | omega
        | (congr 1; omega)
        | (subst_vars; simp [hx]; done)
        | (subst_vars; rw [← hx]; congr 1; omega)

theorem move_loop_spec [Elem α] (n : Nat) : ∀ (d : Nat) (m : Memory α),
    (∀ a, d ≤ a → a ≤ d + n → ∃ x, m[a]? = some (some x)) →
    ∃ m1, move_loop n (d + 1) d m = .ok () m1 ∧ m1.length = m.length ∧
      ∀ a, m1[a]? =
        if d ≤ a ∧ a < d + n then m[a + 1]?
        else if a = d + n ∧ 0 < n then (m[a]?).map (Option.map Elem.movedFrom)
        else m[a]? := by
  induction n with
  | zero =>
    intro d m _
    refine ⟨m, rfl, rfl, fun a => ?_⟩
    rw [if_neg (by omega), if_neg (by omega)]
  | succ n ih =>
    intro d m h
    obtain ⟨x, hx⟩ := h (d + 1) (by omega) (by omega)
    obtain ⟨y, hy⟩ := h d (by omega) (by omega)
    have hl1 : d < m.length := live_lt hy
    have hl2 : d + 1 < (m.set d (some x)).length := by
      have := live_lt hx
      simpa using this
    obtain ⟨m1, hrun, hlen1, hcells⟩ := ih (d + 1)
      ((m.set d (some x)).set (d + 1) (some (Elem.movedFrom x))) (by
      intro a ha1 ha2
      rw [cell_set _ _ _ _ hl2, cell_set _ _ _ _ hl1]
      by_cases h1 : a = d + 1
      · rw [if_pos h1]; exact ⟨_, rfl⟩
      · rw [if_neg h1, if_neg (by omega)]
        exact h a (by omega) (by omega))
    refine ⟨m1, ?_, by simpa using hlen1, fun a => ?_⟩
    · simp only [move_loop]
      rw [Exec.bind_ok (move_assign_ok hx hy)]; exact hrun
    · rw [hcells a]
      simp only [cell_set _ _ _ _ hl2, cell_set _ _ _ _ hl1]
      split_ifs <;>
        first
        | rfl
        | omega
        | (congr 1; omega)
        | (subst_vars; simp [hx]; done)
        | (subst_vars; rw [← hx]; congr 1; omega)

/-! ## Element sequences -/

theorem exists_getElem? (s : List α) {i : Nat} (hi : i < s.length) : ∃ x, s[i]? = some x :=
  ⟨s[i], List.getElem?_eq_getElem hi⟩

theorem getElem?_snoc (s : List α) (x : α) (i : Nat) :
    (s ++ [x])[i]? = if i < s.length then s[i]? else if i = s.length then some x else none := by
  rw [List.getElem?_append]
  split_ifs with h1 h2
  · rfl
  · subst h2; simp
  · have : i - s.length ≠ 0 := by omega
    rw [List.getElem?_cons, if_neg this]; rfl

theorem getElem?_insertAt (s : List α) (p : Nat) (hp : p ≤ s.length) (x : α) (i : Nat) :
    (s.take p ++ x :: s.drop p)[i]? =
      if i < p then s[i]? else if i = p then some x else s[i - 1]? := by
  have hl : (s.take p).length = p := by simp [hp]
  rw [List.getElem?_append, hl]
  split_ifs with h1 h2
  · rw [List.getElem?_take, if_pos h1]
  · subst h2; simp
  · rw [List.getElem?_cons, if_neg (by omega), List.getElem?_drop]
    congr 1; omega

theorem getElem?_append_replicate (s : List α) (k : Nat) (x : α) (i : Nat) :
    (s ++ List.replicate k x)[i]? =
      if i < s.length then s[i]? else if i < s.length + k then some x else none := by
  rw [List.getElem?_append, List.getElem?_replicate]
  split_ifs <;> first | rfl | omega

theorem eraseIdx_insertAt (s : List α) (p : Nat) (hp : p ≤ s.length) (x : α) :
    (s.take p ++ x :: s.drop p).eraseIdx p = s := by
  apply List.ext_getElem?
  intro i
  rw [List.getElem?_eraseIdx, getElem?_insertAt s p hp, getElem?_insertAt s p hp]
  by_cases h : i < p
  · rw [if_pos h, if_pos h]
  · rw [if_neg h, if_neg (by omega), if_neg (by omega)]
    rfl

/-! ## `RawMemory<T>` -/

theorem withCapacity_ok {c : Nat} (hc : c ≠ 0) (m : Memory α) :
    RawMemory.withCapacity c m =
      .ok { buffer_ := m.length + 1, capacity_ := c } (m ++ List.replicate (c + 1) none) := by
  simp only [RawMemory.withCapacity, RawMemory.Allocate, if_pos hc]
  rfl

theorem withCapacity_zero (m : Memory α) :
    RawMemory.withCapacity 0 m = .ok { buffer_ := 0, capacity_ := 0 } m := rfl

theorem RawMemory.add_ok (d : RawMemory α) {k : Nat} (h : k ≤ d.capacity_) (m : Memory α) :
    d.add k m = .ok (d.buffer_ + k) m := by
  simp only [RawMemory.add]
  rw [Exec.bind_ok (Exec.assert_ok (by simpa using h) m)]; rfl

theorem RawMemory.rawIndex_ok (d : RawMemory α) {k : Nat} (h : k < d.capacity_) (m : Memory α) :
    d.index k m = .ok (d.buffer_ + k) m := by
  simp only [RawMemory.index]
  rw [Exec.bind_ok (Exec.assert_ok (by simpa using h) m)]; rfl

/-! ## The representation relation -/

/-- Cells of a block read through the representation relation. -/
theorem Vector.Holds.cell {v : Vector α} {m : Memory α} {s : List α} (h : v.Holds m s)
    {i : Nat} (hi : i < v.data_.capacity_) : m[v.data_.buffer_ + i]? = some s[i]? :=
  h.2.2 i hi

theorem Vector.Holds.live {v : Vector α} {m : Memory α} {s : List α} (h : v.Holds m s)
    {i : Nat} (hi : i < s.length) : m[v.data_.buffer_ + i]? = some (some s[i]) := by
  rw [h.cell (by have := h.2.1; omega), List.getElem?_eq_getElem hi]

theorem Vector.Holds.block_lt {v : Vector α} {m : Memory α} {s : List α} (h : v.Holds m s)
    {i : Nat} (hi : i < v.data_.capacity_) : v.data_.buffer_ + i < m.length :=
  live_lt (h.cell hi)

theorem Vector.Holds.block_end {v : Vector α} {m : Memory α} {s : List α} (h : v.Holds m s) :
    v.data_.capacity_ = 0 ∨ v.data_.buffer_ + v.data_.capacity_ ≤ m.length := by
  by_cases h0 : v.data_.capacity_ = 0
  · exact Or.inl h0
  · have := h.block_lt (i := v.data_.capacity_ - 1) (by omega)
    exact Or.inr (by omega)

/-- A vector's representation only depends on the cells of its block. -/
theorem Vector.Holds.of_cells {v : Vector α} {m m1 : Memory α} {s : List α} (h : v.Holds m s)
    (hm : ∀ i, i < v.data_.capacity_ → m1[v.data_.buffer_ + i]? = m[v.data_.buffer_ + i]?) :
    v.Holds m1 s :=
  ⟨h.1, h.2.1, fun i hi => by rw [hm i hi, h.cell hi]⟩

theorem Vector.Holds.of_unchanged {v : Vector α} {m m1 : Memory α} {s : List α} (h : v.Holds m s)
    (hm : ∀ a, a < m.length → m1[a]? = m[a]?) : v.Holds m1 s :=
  h.of_cells (fun _ hi => hm _ (h.block_lt hi))

/-- What another vector holds is untouched by a change confined to the block of `a`. -/
theorem Vector.Holds.of_frame {a b : Vector α} {m m1 : Memory α} {s : List α}
    (h : b.Holds m s) (hf : Vector.Frame a m m1) (hab : Vector.Apart a b) : b.Holds m1 s := by
  refine h.of_cells (fun i hi => ?_)
  have hlt := h.block_lt hi
  refine hf.2 _ hlt ?_
  rcases hab with h0 | h0 | h0 | h0 <;> omega

theorem Vector.TransferNoThrow.of_copy [Elem α] {s : List α} (h : Vector.CopyNoThrow s) :
    Vector.TransferNoThrow s := Or.inr h

theorem Vector.TransferNoThrow.left [Elem α] {s t : List α}
    (h : Vector.TransferNoThrow (s ++ t)) : Vector.TransferNoThrow s := by
  rcases h with h | h
  · exact Or.inl h
  · exact Or.inr (fun x hx => h x (List.mem_append_left _ hx))

theorem Vector.Holds.transfer_src [Elem α] {v : Vector α} {m : Memory α} {s : List α}
    (h : v.Holds m s) (ht : Vector.TransferNoThrow s) (m2 : Memory α)
    (hm2 : ∀ i, i < s.length → m2[v.data_.buffer_ + i]? = m[v.data_.buffer_ + i]?) :
    ∀ i, i < v.size_ → ∃ x, m2[v.data_.buffer_ + i]? = some (some x) ∧
      ((Elem.nothrowMove α || !Elem.copyConstructible α) = false → Elem.copyThrows x = false) := by
  intro i hi
  have hi' : i < s.length := by have := h.1; omega
  refine ⟨s[i], ?_, fun hc => ?_⟩
  · rw [hm2 i hi', h.live hi']
  · rcases ht with ht | ht
    · rw [hc] at ht; exact absurd ht (by decide)
    · exact ht _ (List.getElem_mem hi')

theorem Vector.vectorIndex_ok (v : Vector α) {i : Nat} (hi : i < v.size_)
    (hc : v.size_ ≤ v.data_.capacity_) (m : Memory α) :
    v.index i m = .ok (v.data_.buffer_ + i) m := by
  simp only [Vector.index]
  rw [Exec.bind_ok (Exec.assert_ok (by simpa using hi) m)]
  exact RawMemory.rawIndex_ok _ (by omega) m

theorem read_spec {v : Vector α} {m : Memory α} {s : List α} (h : v.Holds m s)
    {i : Nat} {x : α} (hx : s[i]? = some x) : v.read i m = .ok x m := by
  have hi : i < s.length := by
    obtain ⟨h1, _⟩ := List.getElem?_eq_some_iff.mp hx
    exact h1
  simp only [Vector.read]
  rw [Exec.bind_ok (Vector.vectorIndex_ok v (by have := h.1; omega) (by have := h.1; have := h.2.1; omega) m)]
  exact load_ok (by rw [h.cell (by have := h.2.1; omega), hx])

theorem write_spec {v : Vector α} {m : Memory α} {s : List α} (h : v.Holds m s)
    {i : Nat} (hi : i < s.length) (x : α) :
    v.write i x m = .ok () (m.set (v.data_.buffer_ + i) (some x)) ∧
      v.Holds (m.set (v.data_.buffer_ + i) (some x)) (s.set i x) ∧
      Vector.Frame v m (m.set (v.data_.buffer_ + i) (some x)) := by
  obtain ⟨hsz, hcap, hcells⟩ := h
  have h : v.Holds m s := ⟨hsz, hcap, hcells⟩
  obtain ⟨y, hy⟩ := exists_getElem? s hi
  have hlive : m[v.data_.buffer_ + i]? = some (some y) := by rw [hcells i (by omega), hy]
  have hlt := live_lt hlive
  refine ⟨?_, ⟨?_, ?_, ?_⟩, ?_⟩
  · simp only [Vector.write]
    rw [Exec.bind_ok (Vector.vectorIndex_ok v (by omega) (by omega) m)]
    exact store_ok _ hlive
  · simp [hsz]
  · simp; omega
  · intro j hj
    rw [cell_set _ _ _ _ hlt, List.getElem?_set]
    by_cases hA : j = i
    · subst hA
      rw [if_pos rfl, if_pos rfl, if_pos hi]
    · rw [if_neg (by omega), if_neg (by omega), hcells j hj]
  · refine ⟨by simp, fun a ha hout => ?_⟩
    rw [cell_set _ _ _ _ hlt, if_neg (by omega)]

/-! ## Growth: `ConstructElements`, `EmplaceBack`, `Reserve`, `Resize` -/

theorem CopyOrMoveElements_spec [Elem α] (n src dst : Nat) (m : Memory α)
    (hsrc : ∀ i, i < n → ∃ x, m[src + i]? = some (some x) ∧
      ((Elem.nothrowMove α || !Elem.copyConstructible α) = false → Elem.copyThrows x = false))
    (hdst : dst + n ≤ m.length) (hdis : 0 < n → src + n ≤ dst ∨ dst + n ≤ src) :
    ∃ (g : α → α) (m1 : Memory α),
      Vector.CopyOrMoveElements src dst n m = .ok () m1 ∧ m1.length = m.length ∧
      ∀ a, m1[a]? =
        if dst ≤ a ∧ a < dst + n then m[src + (a - dst)]?
        else if src ≤ a ∧ a < src + n then (m[a]?).map (Option.map g)
        else m[a]? := by
  by_cases hc : (Elem.nothrowMove α || !Elem.copyConstructible α) = true
  · obtain ⟨m1, h1, h2, h3⟩ := uninitialized_move_n_spec n src dst m
      (fun i hi => by obtain ⟨x, hx, _⟩ := hsrc i hi; exact ⟨x, hx⟩) (fun _ => hdst) hdis
    refine ⟨Elem.movedFrom, m1, ?_, h2, h3⟩
    simp only [Vector.CopyOrMoveElements, if_pos hc]; exact h1
  · have hc' : (Elem.nothrowMove α || !Elem.copyConstructible α) = false := by
      simpa using hc
    obtain ⟨m1, h1, h2, h3⟩ := uninitialized_copy_loop_spec dst n src dst m
      (fun i hi => by obtain ⟨x, hx, ht⟩ := hsrc i hi; exact ⟨x, hx, ht hc'⟩) (fun _ => hdst) hdis
    refine ⟨id, m1, ?_, h2, fun a => ?_⟩
    · simp only [Vector.CopyOrMoveElements, if_neg hc]; exact h1
    · rw [h3 a]
      split_ifs <;> simp

theorem ConstructElements_spec [Elem α] (v : Vector α) (new_data : RawMemory α) (m : Memory α)
    (hsrc : ∀ i, i < v.size_ → ∃ x, m[v.data_.buffer_ + i]? = some (some x) ∧
      ((Elem.nothrowMove α || !Elem.copyConstructible α) = false → Elem.copyThrows x = false))
    (hdst : new_data.buffer_ + v.size_ ≤ m.length)
    (hdis : 0 < v.size_ → v.data_.buffer_ + v.size_ ≤ new_data.buffer_ ∨
      new_data.buffer_ + v.size_ ≤ v.data_.buffer_) :
    ∃ m1, v.ConstructElements new_data m =
        .ok ({ data_ := new_data, size_ := v.size_ }, v.data_) m1 ∧ m1.length = m.length ∧
      ∀ a, m1[a]? =
        if new_data.buffer_ ≤ a ∧ a < new_data.buffer_ + v.size_ then
          m[v.data_.buffer_ + (a - new_data.buffer_)]?
        else if v.data_.buffer_ ≤ a ∧ a < v.data_.buffer_ + v.size_ then some none
        else m[a]? := by
  obtain ⟨g, m1, h1, hl1, hc1⟩ :=
    CopyOrMoveElements_spec v.size_ v.data_.buffer_ new_data.buffer_ m hsrc hdst hdis
  obtain ⟨m2, h2, hl2, hc2⟩ := destroy_n_spec v.size_ v.data_.buffer_ m1 (by
    intro i hi
    obtain ⟨x, hx, _⟩ := hsrc i hi
    refine ⟨g x, ?_⟩
    have := hdis (by omega)
    rw [hc1, if_neg (by omega), if_pos (by omega), hx]; rfl)
  refine ⟨m2, ?_, by omega, fun a => ?_⟩
  · simp only [Vector.ConstructElements, RawMemory.GetAddress]
    rw [Exec.bind_ok h1, Exec.bind_ok h2]
    rfl
  · rw [hc2 a, hc1 a]
    have hdis' : v.size_ = 0 ∨ v.data_.buffer_ + v.size_ ≤ new_data.buffer_ ∨
        new_data.buffer_ + v.size_ ≤ v.data_.buffer_ := by
      by_cases h0 : v.size_ = 0
      · exact Or.inl h0
      · exact Or.inr (hdis (by omega))
    split_ifs <;> first | rfl | omega

theorem EmplaceBack_spec [Elem α] (v : Vector α) (m : Memory α) (s : List α) (args : CtorArgs α)
    (h : v.Holds m s) (hargs : args.throws = false)
    (ht : s.length = v.data_.capacity_ → Vector.TransferNoThrow s) :
    ∃ v1 m1, v.EmplaceBack args m = .ok (v1.data_.buffer_ + s.length, v1) m1 ∧
      v1.Holds m1 (s ++ [args.value]) ∧
      v1.data_.capacity_ =
        (if s.length = v.data_.capacity_ then (if s.length = 0 then 1 else s.length * 2)
         else v.data_.capacity_) ∧
      (s.length ≠ v.data_.capacity_ → v1.data_ = v.data_) ∧
      (s.length = v.data_.capacity_ → m.length < v1.data_.buffer_) ∧
      Vector.Frame v m m1 := by
  obtain ⟨hsz, hcap, hcells⟩ := h
  have h : v.Holds m s := ⟨hsz, hcap, hcells⟩
  have hnone : ∀ i, s.length ≤ i → s[i]? = none := fun i hi => List.getElem?_eq_none hi
  by_cases hfull : s.length = v.data_.capacity_
  · -- growth
    have hc0 : (if v.size_ = 0 then 1 else v.size_ * 2) ≠ 0 := by split_ifs <;> omega
    generalize hcdef : (if v.size_ = 0 then 1 else v.size_ * 2) = c at hc0
    have hcs : v.size_ < c := by rw [← hcdef]; split_ifs <;> omega
    have hp : m.length + 1 + v.size_ < m.length + (c + 1) := by omega
    obtain ⟨m2, hm2def⟩ : ∃ m2 : Memory α, m2 =
      (m ++ List.replicate (c + 1) none).set (m.length + 1 + v.size_) (some args.value) :=
      ⟨_, rfl⟩
    have hm2len : m2.length = m.length + (c + 1) := by simp [hm2def]
    have hblock : ∀ i, i < s.length → v.data_.buffer_ + i < m.length := fun i hi =>
      h.block_lt (by omega)
    have hend := h.block_end
    have hm2 := fresh_block_cell m c _ args.value hp
    rw [← hm2def] at hm2
    obtain ⟨m3, h3, hl3, hc3⟩ := ConstructElements_spec v
      { buffer_ := m.length + 1, capacity_ := c } m2
      (h.transfer_src (ht hfull) m2 (fun i hi => by
        have := hblock i hi
        rw [hm2, if_neg (by omega), if_pos this]))
      (by simp only []; omega) (by
        intro h0
        left
        simp only []
        omega)
    simp only [] at hc3
    refine ⟨{ data_ := { buffer_ := m.length + 1, capacity_ := c }, size_ := v.size_ + 1 }, m3,
      ?_, ⟨?_, ?_, ?_⟩, ?_, ?_, ?_, ?_⟩
    · simp only [Vector.EmplaceBack, Vector.Capacity, RawMemory.Capacity]
      rw [if_pos (by omega), hcdef]
      rw [Exec.bind_ok (f := fun v => _)]
      rotate_left
      · rw [Exec.bind_ok (withCapacity_ok hc0 m)]
        rw [Exec.bind_ok (RawMemory.add_ok _ (by simp only []; omega) _)]
        rw [Exec.bind_ok (construct_from_ok hargs (by simpa using hp))]
        rw [← hm2def, Exec.bind_ok h3]
        rfl
      · rw [Exec.bind_ok (RawMemory.rawIndex_ok _ (by simp only []; omega) _)]
        simp only [Exec.pure_apply, hsz]
    · simp [hsz]
    · simp only [List.length_append, List.length_singleton]; omega
    · intro i hi
      simp only [] at hi ⊢
      simp only [hc3, hm2, getElem?_snoc]
      split_ifs <;>
        first
        | rfl
        | omega
        | (rw [← hcells _ (by omega)]; congr 1; omega)
        | (subst_vars; simp; done)
    · simp only [if_pos hfull]; rw [← hcdef, hsz]
    · intro hne; exact absurd hfull hne
    · intro _; simp only []; omega
    · refine ⟨by omega, fun a ha hout => ?_⟩
      simp only [hc3, hm2]
      split_ifs <;> first | rfl | omega
  · -- room left
    have hlt : v.size_ < v.data_.capacity_ := by omega
    have hp : v.data_.buffer_ + v.size_ < m.length := h.block_lt hlt
    refine ⟨{ data_ := v.data_, size_ := v.size_ + 1 },
      m.set (v.data_.buffer_ + v.size_) (some args.value), ?_, ⟨?_, ?_, ?_⟩, ?_, ?_, ?_, ?_⟩
    · simp only [Vector.EmplaceBack, Vector.Capacity, RawMemory.Capacity]
      rw [if_neg (by omega)]
      rw [Exec.bind_ok (f := fun v => _)]
      rotate_left
      · rw [Exec.bind_ok (RawMemory.add_ok _ (by omega) _)]
        rw [Exec.bind_ok (construct_from_ok hargs hp)]
        rfl
      · rw [Exec.bind_ok (RawMemory.rawIndex_ok _ hlt _)]
        simp only [Exec.pure_apply, hsz]
    · simp [hsz]
    · simp only [List.length_append, List.length_singleton]; omega
    · intro i hi
      simp only [] at hi ⊢
      rw [cell_set _ _ _ _ hp, getElem?_snoc, hcells i hi]
      split_ifs <;>
        first
        | rfl
        | omega
        | (subst_vars; simp; done)
        | (rw [hnone i (by omega)]; done)
    · rw [if_neg hfull]
    · intro _; rfl
    · intro he; exact absurd he hfull
    · refine ⟨by simp, fun a ha hout => ?_⟩
      rw [cell_set _ _ _ _ hp, if_neg (by omega)]

theorem Reserve_noop [Elem α] (v : Vector α) (m : Memory α) (n : Nat)
    (hn : n ≤ v.data_.capacity_) : v.Reserve n m = .ok v m := by
  simp only [Vector.Reserve, RawMemory.Capacity]
  rw [if_pos hn]; rfl

theorem Reserve_grow_spec [Elem α] (v : Vector α) (m : Memory α) (s : List α) (n : Nat)
    (h : v.Holds m s) (hn : v.data_.capacity_ < n) (ht : Vector.TransferNoThrow s) :
    ∃ m1, v.Reserve n m =
        .ok { data_ := { buffer_ := m.length + 1, capacity_ := n }, size_ := v.size_ } m1 ∧
      Vector.Holds { data_ := { buffer_ := m.length + 1, capacity_ := n }, size_ := v.size_ }
        m1 s ∧
      m1.length = m.length + (n + 1) ∧
      (∀ i, i < v.data_.capacity_ → m1[v.data_.buffer_ + i]? = some none) ∧
      Vector.Frame v m m1 := by
  obtain ⟨hsz, hcap, hcells⟩ := h
  have h : v.Holds m s := ⟨hsz, hcap, hcells⟩
  have hnone : ∀ i, s.length ≤ i → s[i]? = none := fun i hi => List.getElem?_eq_none hi
  have hend := h.block_end
  have hblk : ∀ i, i < v.data_.capacity_ → v.data_.buffer_ + i < m.length := fun i hi =>
    h.block_lt hi
  have hn0 : n ≠ 0 := by omega
  have hm1 := fresh_block m n
  obtain ⟨m2, h2, hl2, hc2⟩ := ConstructElements_spec v
    { buffer_ := m.length + 1, capacity_ := n } (m ++ List.replicate (n + 1) none)
    (h.transfer_src ht _ (fun i hi => by
      have := hblk i (by omega)
      rw [hm1, if_pos this]))
    (by simp only [List.length_append, List.length_replicate]; omega)
    (fun _ => Or.inl (by simp only []; omega))
  simp only [] at hc2
  refine ⟨m2, ?_, ⟨hsz, by simp only []; omega, ?_⟩, ?_, ?_, ?_⟩
  · simp only [Vector.Reserve, RawMemory.Capacity]
    rw [if_neg (by omega), Exec.bind_ok (withCapacity_ok hn0 m), Exec.bind_ok h2]
    rfl
  · intro i hi
    simp only [] at hi ⊢
    rw [hc2]
    by_cases hA : i < v.size_
    · have e : v.data_.buffer_ + (m.length + 1 + i - (m.length + 1)) = v.data_.buffer_ + i := by
        omega
      have := hblk i (by omega)
      rw [if_pos (by omega), e, hm1, if_pos this, hcells i (by omega)]
    · rw [if_neg (by omega), if_neg (by omega), hm1, if_neg (by omega), if_pos (by omega),
        hnone _ (by omega)]
  · rw [hl2, List.length_append, List.length_replicate]
  · intro i hi
    have := hblk i hi
    rw [hc2, if_neg (by omega)]
    by_cases hA : i < v.size_
    · rw [if_pos (by omega)]
    · rw [if_neg (by omega), hm1, if_pos this, hcells i hi, hnone _ (by omega)]
  · refine ⟨by rw [hl2, List.length_append]; omega, fun a ha hout => ?_⟩
    rw [hc2, if_neg (by omega), if_neg (by omega), hm1, if_pos ha]

theorem Reserve_spec [Elem α] (v : Vector α) (m : Memory α) (s : List α) (n : Nat)
    (h : v.Holds m s) (ht : v.data_.capacity_ < n → Vector.TransferNoThrow s) :
    ∃ v1 m1, v.Reserve n m = .ok v1 m1 ∧ v1.Holds m1 s ∧
      v1.data_.capacity_ = max v.data_.capacity_ n ∧
      (n ≤ v.data_.capacity_ → v1 = v ∧ m1 = m) ∧
      (v.data_.capacity_ < n → m.length < v1.data_.buffer_) ∧
      Vector.Frame v m m1 := by
  by_cases hn : n ≤ v.data_.capacity_
  · refine ⟨v, m, Reserve_noop v m n hn, h, by omega, fun _ => ⟨rfl, rfl⟩,
      fun hc => by omega, ⟨le_refl _, fun _ _ _ => rfl⟩⟩
  · obtain ⟨m1, hrun, hh, _, _, hf⟩ := Reserve_grow_spec v m s n h (by omega) (ht (by omega))
    refine ⟨_, m1, hrun, hh, ?_, fun hc => absurd hc hn, fun _ => ?_, hf⟩
    · simp only []; omega
    · simp only []; omega

theorem Resize_spec [Elem α] (v : Vector α) (m : Memory α) (s : List α) (n : Nat)
    (h : v.Holds m s) (ht : v.data_.capacity_ < n → Vector.TransferNoThrow s) :
    ∃ v1 m1, v.Resize n m = .ok v1 m1 ∧
      v1.Holds m1 (s.take n ++ List.replicate (n - s.length) Elem.dflt) ∧
      v1.data_.capacity_ = max v.data_.capacity_ n ∧
      (n ≤ v.data_.capacity_ → v1.data_ = v.data_) ∧
      (v.data_.capacity_ < n → m.length < v1.data_.buffer_) ∧
      Vector.Frame v m m1 := by
  obtain ⟨hsz, hcap, hcells⟩ := h
  have h : v.Holds m s := ⟨hsz, hcap, hcells⟩
  have hnone : ∀ i, s.length ≤ i → s[i]? = none := fun i hi => List.getElem?_eq_none hi
  have hblk : ∀ i, i < v.data_.capacity_ → v.data_.buffer_ + i < m.length := fun i hi =>
    h.block_lt hi
  rcases Nat.lt_trichotomy n v.size_ with hlt | heq | hgt
  · -- shrinking
    obtain ⟨m1, h1, hl1, hc1⟩ := destroy_n_spec (v.size_ - n) (v.data_.buffer_ + n) m (by
      intro i hi
      obtain ⟨z, hz⟩ := exists_getElem? s (i := n + i) (by omega)
      have e : v.data_.buffer_ + n + i = v.data_.buffer_ + (n + i) := by omega
      rw [e, hcells _ (by omega), hz]
      exact ⟨_, rfl⟩)
    have e0 : n - s.length = 0 := by omega
    refine ⟨{ data_ := v.data_, size_ := n }, m1, ?_, ⟨?_, ?_, ?_⟩, ?_, fun _ => rfl,
      fun hc => by omega, ?_⟩
    · simp only [Vector.Resize, RawMemory.GetAddress]
      rw [if_neg (by omega), if_pos hlt, size_t_sub_le (by omega)]
      rw [Exec.bind_ok (f := fun v => _)]
      rotate_left
      · rw [Exec.bind_ok h1]; rfl
      · rfl
    · simp only [List.length_append, List.length_take, List.length_replicate]; omega
    · simp only [List.length_append, List.length_take, List.length_replicate]; omega
    · intro i hi
      simp only [] at hi ⊢
      rw [hc1, e0, List.replicate_zero, List.append_nil, List.getElem?_take, hcells i hi]
      by_cases hA : i < n
      · rw [if_neg (by omega), if_pos hA]
      · rw [if_neg hA]
        by_cases hB : i < v.size_
        · rw [if_pos (by omega)]
        · rw [if_neg (by omega), hnone _ (by omega)]
    · simp only []; omega
    · refine ⟨by omega, fun a ha hout => ?_⟩
      rw [hc1, if_neg (by omega)]
  · -- same size
    subst heq
    have e0 : v.size_ - s.length = 0 := by omega
    refine ⟨v, m, ?_, ?_, by omega, fun _ => rfl, fun hc => by omega, ⟨le_refl _, fun _ _ _ => rfl⟩⟩
    · simp only [Vector.Resize, if_true]
      rfl
    · rw [e0, List.replicate_zero, List.append_nil, List.take_of_length_le (by omega)]
      exact h
  · -- growing
    obtain ⟨v1, m1, h1, hh1, hcap1, hsame1, hnew1, hf1⟩ := Reserve_spec v m s n h ht
    obtain ⟨hsz1, hcapv1, hcells1⟩ := hh1
    obtain ⟨m2, h2, hl2, hc2⟩ := uninitialized_value_construct_n_spec (n - v1.size_)
      (v1.data_.buffer_ + v1.size_) m1 (by
        have := live_lt (hcells1 (n - 1) (by omega))
        omega)
    refine ⟨{ data_ := v1.data_, size_ := n }, m2, ?_, ⟨?_, ?_, ?_⟩, hcap1, ?_, hnew1, ?_⟩
    · simp only [Vector.Resize, RawMemory.GetAddress]
      rw [if_neg (by omega), if_neg (by omega)]
      rw [Exec.bind_ok (f := fun v => _)]
      rotate_left
      · rw [Exec.bind_ok h1, size_t_sub_le (by omega), Exec.bind_ok h2]; rfl
      · rfl
    · simp only [List.length_append, List.length_take, List.length_replicate]; omega
    · simp only [List.length_append, List.length_take, List.length_replicate]; omega
    · intro i hi
      simp only [] at hi ⊢
      rw [hc2, List.take_of_length_le (by omega), getElem?_append_replicate, hcells1 i hi]
      by_cases hA : i < s.length
      · rw [if_neg (by omega), if_pos hA]
      · rw [if_neg hA]
        by_cases hB : i < n
        · rw [if_pos (by omega), if_pos (by omega)]
        · rw [if_neg (by omega), if_neg (by omega), hnone _ (by omega)]
    · intro hc
      show v1.data_ = v.data_
      rw [(hsame1 hc).1]
    · refine ⟨by have := hf1.1; omega, fun a ha hout => ?_⟩
      rw [hc2, ← hf1.2 a ha hout]
      by_cases hc : n ≤ v.data_.capacity_
      · obtain ⟨hv, hm⟩ := hsame1 hc
        subst hv hm
        rw [if_neg (by omega)]
      · have := hnew1 (by omega)
        rw [if_neg (by omega)]

/-! ## `Emplace` and `Erase` -/

theorem EmplaceInFullVector_spec [Elem α] (v : Vector α) (m : Memory α) (s : List α)
    (args : CtorArgs α) (p : Nat)
    (h : v.Holds m s) (hfull : s.length = v.data_.capacity_) (hp : p ≤ s.length)
    (hargs : args.throws = false) (ht : Vector.TransferNoThrow s) :
    ∃ m1, v.EmplaceInFullVector (v.begin + p) args m =
        .ok { data_ := { buffer_ := m.length + 1,
                         capacity_ := if s.length = 0 then 1 else s.length * 2 },
              size_ := v.size_ } m1 ∧
      (∀ i, i < (if s.length = 0 then 1 else s.length * 2) →
        m1[m.length + 1 + i]? = some (s.take p ++ args.value :: s.drop p)[i]?) ∧
      Vector.Frame v m m1 := by
  obtain ⟨hsz, hcap, hcells⟩ := h
  have h : v.Holds m s := ⟨hsz, hcap, hcells⟩
  have hnone : ∀ i, s.length ≤ i → s[i]? = none := fun i hi => List.getElem?_eq_none hi
  have hend := h.block_end
  rw [← hsz]
  have hc0 : (if v.size_ = 0 then 1 else v.size_ * 2) ≠ 0 := by split_ifs <;> omega
  generalize hcdef : (if v.size_ = 0 then 1 else v.size_ * 2) = c at hc0
  have hcs : v.size_ < c := by rw [← hcdef]; split_ifs <;> omega
  have hpl : m.length + 1 + p < m.length + (c + 1) := by omega
  obtain ⟨m2, hm2def⟩ : ∃ m2 : Memory α, m2 =
    (m ++ List.replicate (c + 1) none).set (m.length + 1 + p) (some args.value) := ⟨_, rfl⟩
  have hm2len : m2.length = m.length + (c + 1) := by simp [hm2def]
  have hm2 := fresh_block_cell m c _ args.value hpl
  rw [← hm2def] at hm2
  have hsrc := h.transfer_src ht
  -- the elements before the position
  obtain ⟨g1, m3, h3, hl3, hc3⟩ := CopyOrMoveElements_spec p v.data_.buffer_ (m.length + 1) m2
    (fun i hi => hsrc m2 (fun j hj => by
      have := h.block_lt (i := j) (by omega)
      rw [hm2, if_neg (by omega), if_pos this]) i (by omega))
    (by omega) (fun _ => Or.inl (by omega))
  -- the elements from the position on
  obtain ⟨g2, m4, h4, hl4, hc4⟩ := CopyOrMoveElements_spec (v.size_ - p) (v.data_.buffer_ + p)
    (m.length + 1 + p + 1) m3
    (fun i hi => by
      obtain ⟨x, hx, hxt⟩ := hsrc m2 (fun j hj => by
        have := h.block_lt (i := j) (by omega)
        rw [hm2, if_neg (by omega), if_pos this]) (p + i) (by omega)
      refine ⟨x, ?_, hxt⟩
      rw [hc3, if_neg (by omega), if_neg (by omega), ← hx]
      congr 1; omega)
    (by omega) (fun _ => Or.inl (by omega))
  obtain ⟨m5, h5, hl5, hc5⟩ := destroy_n_spec v.size_ v.data_.buffer_ m4 (by
    intro i hi
    have hlive := h.live (i := i) (by omega)
    have hb := h.block_lt (i := i) (by omega)
    rw [hc4, if_neg (by omega)]
    by_cases hip : i < p
    · rw [if_neg (by omega), hc3, if_neg (by omega), if_pos (by omega), hm2,
        if_neg (by omega), if_pos hb, hlive]
      exact ⟨_, rfl⟩
    · rw [if_pos (by omega), hc3, if_neg (by omega), if_neg (by omega), hm2,
        if_neg (by omega), if_pos hb, hlive]
      exact ⟨_, rfl⟩)
  refine ⟨m5, ?_, ?_, ?_⟩
  · simp only [Vector.EmplaceInFullVector, Vector.begin, RawMemory.GetAddress, size_t_sub_add,
      hcdef]
    rw [Exec.bind_ok (withCapacity_ok hc0 m)]
    rw [Exec.bind_ok (RawMemory.rawIndex_ok _ (by simp only []; omega) _)]
    rw [Exec.bind_ok (construct_from_ok hargs (by simpa using hpl))]
    rw [← hm2def, Exec.bind_ok (Exec.tryCatchRethrow_ok h3)]
    rw [size_t_sub_le (by omega), Exec.bind_ok (Exec.tryCatchRethrow_ok h4)]
    rw [Exec.bind_ok h5]
    rfl
  · intro i hi
    rw [getElem?_insertAt s p hp, hc5, if_neg (by omega), hc4]
    by_cases hA : i < p
    · have e : v.data_.buffer_ + (m.length + 1 + i - (m.length + 1)) = v.data_.buffer_ + i := by
        omega
      have hb := h.block_lt (i := i) (by omega)
      rw [if_neg (by omega), if_neg (by omega), hc3, if_pos (by omega), hm2, e,
        if_neg (by omega), if_pos hb, hcells i (by omega), if_pos hA]
    · by_cases hB : i = p
      · subst hB
        rw [if_neg (by omega), if_neg (by omega), hc3, if_neg (by omega), if_neg (by omega),
          hm2, if_pos rfl, if_neg hA, if_pos rfl]
      · by_cases hC : i ≤ v.size_
        · have e : v.data_.buffer_ + p + (m.length + 1 + i - (m.length + 1 + p + 1)) =
              v.data_.buffer_ + (i - 1) := by omega
          have hb := h.block_lt (i := i - 1) (by omega)
          rw [if_pos (by omega), hc3, e, if_neg (by omega), if_neg (by omega), hm2,
            if_neg (by omega), if_pos hb, hcells _ (by omega), if_neg hA, if_neg hB]
        · rw [if_neg (by omega), if_neg (by omega), hc3, if_neg (by omega), if_neg (by omega),
            hm2, if_neg (by omega), if_neg (by omega), if_pos (by omega), if_neg hA, if_neg hB,
            hnone _ (by omega)]
  · refine ⟨by omega, fun a ha hout => ?_⟩
    rw [hc5, if_neg (by omega), hc4, if_neg (by omega), if_neg (by omega), hc3,
      if_neg (by omega), if_neg (by omega), hm2, if_neg (by omega), if_pos ha]

theorem Emplace_inplace_spec [Elem α] (v : Vector α) (m : Memory α) (s : List α)
    (args : CtorArgs α) (p : Nat)
    (h : v.Holds m s) (hroom : s.length < v.data_.capacity_) (hp : p < s.length)
    (hargs : args.throws = false) :
    ∃ m1, v.Emplace (v.begin + p) args m =
        .ok (v.data_.buffer_ + p, { data_ := v.data_, size_ := v.size_ + 1 }) m1 ∧
      (∀ i, i < v.data_.capacity_ →
        m1[v.data_.buffer_ + i]? = some (s.take p ++ args.value :: s.drop p)[i]?) ∧
      Vector.Frame v m m1 := by
  obtain ⟨hsz, hcap, hcells⟩ := h
  have h : v.Holds m s := ⟨hsz, hcap, hcells⟩
  have hnone : ∀ i, s.length ≤ i → s[i]? = none := fun i hi => List.getElem?_eq_none hi
  have hend := h.block_end
  have hblk : ∀ i, i < v.data_.capacity_ → v.data_.buffer_ + i < m.length := fun i hi =>
    h.block_lt hi
  -- the temporary `value`
  have hvl : m.length + 1 < m.length + (1 + 1) := by omega
  obtain ⟨m2, hm2def⟩ : ∃ m2 : Memory α, m2 =
    (m ++ List.replicate (1 + 1) none).set (m.length + 1) (some args.value) := ⟨_, rfl⟩
  have hm2len : m2.length = m.length + 2 := by simp [hm2def]
  have hm2 := fresh_block_cell m 1 _ args.value hvl
  rw [← hm2def] at hm2
  have hm2blk : ∀ i, i < v.data_.capacity_ → m2[v.data_.buffer_ + i]? = some s[i]? := by
    intro i hi
    have := hblk i hi
    rw [hm2, if_neg (by omega), if_pos this, hcells i hi]
  -- the last element moves into the raw cell behind it
  obtain ⟨xl, hxl⟩ := exists_getElem? s (i := v.size_ - 1) (by omega)
  have hlast : m2[v.data_.buffer_ + (v.size_ - 1)]? = some (some xl) := by
    rw [hm2blk _ (by omega), hxl]
  obtain ⟨m3, hm3def⟩ : ∃ m3 : Memory α, m3 =
    (m2.set (v.data_.buffer_ + (v.size_ - 1)) (some (Elem.movedFrom xl))).set
      (v.data_.buffer_ + v.size_) (some xl) := ⟨_, rfl⟩
  have hm3len : m3.length = m.length + 2 := by
    rw [hm3def, List.length_set, List.length_set, hm2len]
  have hm3 : ∀ a, m3[a]? =
      if a = v.data_.buffer_ + v.size_ then some (some xl)
      else if a = v.data_.buffer_ + (v.size_ - 1) then
        some (some (Elem.movedFrom xl))
      else m2[a]? := by
    intro a
    have := hblk (v.size_ - 1) (by omega)
    have := hblk v.size_ (by omega)
    rw [hm3def, cell_set _ _ _ _ (by rw [List.length_set]; omega), cell_set _ _ _ _ (by omega)]
  -- the elements from the position on shift one cell towards the end
  obtain ⟨m4, h4, hl4, hc4⟩ := move_backward_loop_spec (v.size_ - 1 - p) (v.data_.buffer_ + p) m3
    (by
      intro a ha1 ha2
      rw [hm3, if_neg (by omega)]
      by_cases hl : a = v.data_.buffer_ + (v.size_ - 1)
      · rw [if_pos hl]; exact ⟨_, rfl⟩
      · have e : a = v.data_.buffer_ + (a - v.data_.buffer_) := by omega
        obtain ⟨z, hz⟩ := exists_getElem? s (i := a - v.data_.buffer_) (by omega)
        rw [if_neg hl, e, hm2blk _ (by omega), hz]
        exact ⟨_, rfl⟩)
  have hval4 : m4[m.length + 1]? = some (some args.value) := by
    rw [hc4, if_neg (by omega), if_neg (by omega), hm3, if_neg (by omega), if_neg (by omega),
      hm2, if_pos rfl]
  obtain ⟨y, hy⟩ : ∃ y, m4[v.data_.buffer_ + p]? = some (some y) := by
    rw [hc4, if_neg (by omega)]
    by_cases hn : 0 < v.size_ - 1 - p
    · obtain ⟨z, hz⟩ := exists_getElem? s hp
      rw [if_pos ⟨rfl, hn⟩, hm3, if_neg (by omega), if_neg (by omega), hm2blk _ (by omega), hz]
      exact ⟨_, rfl⟩
    · rw [if_neg (by omega), hm3, if_neg (by omega), if_pos (by omega)]
      exact ⟨_, rfl⟩
  obtain ⟨m5, hm5def⟩ : ∃ m5 : Memory α, m5 =
    (m4.set (v.data_.buffer_ + p) (some args.value)).set (m.length + 1)
      (some (Elem.movedFrom args.value)) := ⟨_, rfl⟩
  have hm5 : ∀ a, m5[a]? =
      if a = m.length + 1 then some (some (Elem.movedFrom args.value))
      else if a = v.data_.buffer_ + p then some (some args.value)
      else m4[a]? := by
    intro a
    have := hblk p (by omega)
    rw [hm5def, cell_set _ _ _ _ (by rw [List.length_set]; omega), cell_set _ _ _ _ (by omega)]
  have hm5len : m5.length = m.length + 2 := by
    rw [hm5def, List.length_set, List.length_set, hl4, hm3len]
  have hval5 : m5[m.length + 1]? = some (some (Elem.movedFrom args.value)) := by
    rw [hm5, if_pos rfl]
  refine ⟨m5.set (m.length + 1) none, ?_, ?_, ?_⟩
  · simp only [Vector.Emplace, Vector.Capacity, RawMemory.Capacity, Vector.begin, Vector.end_,
      RawMemory.GetAddress, size_t_sub_add]
    rw [if_neg (by omega), if_neg (by omega)]
    rw [Exec.bind_ok (f := fun v => _)]
    rotate_left
    · rw [Exec.bind_ok (operator_new_ok 1 m)]
      rw [Exec.bind_ok (construct_from_ok hargs (by simp))]
      rw [← hm2def, Exec.bind_ok (RawMemory.rawIndex_ok _ (by omega) _)]
      rw [Exec.bind_ok (move_construct_ok hlast (by have := hblk v.size_ (by omega); omega))]
      rw [← hm3def]
      have e1 : v.data_.buffer_ + v.size_ - 1 - (v.data_.buffer_ + p) = v.size_ - 1 - p := by
        omega
      have e2 : v.data_.buffer_ + v.size_ - 1 = v.data_.buffer_ + p + (v.size_ - 1 - p) := by
        omega
      have e3 : v.data_.buffer_ + v.size_ = v.data_.buffer_ + p + (v.size_ - 1 - p) + 1 := by
        omega
      have hmb : move_backward (v.data_.buffer_ + p) (v.data_.buffer_ + v.size_ - 1)
          (v.data_.buffer_ + v.size_) m3 =
          .ok (v.data_.buffer_ + v.size_ - (v.size_ - 1 - p)) m4 := by
        simp only [move_backward]
        rw [if_neg (by omega), e1]
        rw [Exec.bind_ok (f := fun _ => _)
          (show move_backward_loop (v.size_ - 1 - p) (v.data_.buffer_ + v.size_ - 1)
            (v.data_.buffer_ + v.size_) m3 = .ok () m4 by
              rw [e2, e3]; exact h4)]
        rfl
      rw [Exec.bind_ok hmb]
      rw [Exec.bind_ok (RawMemory.rawIndex_ok _ (by omega) _)]
      rw [Exec.bind_ok (move_assign_ok hval4 hy), ← hm5def]
      rw [Exec.bind_ok (destroy_at_ok hval5)]
      rfl
    · rfl
  · intro i hi
    have hbi := hblk i hi
    rw [cell_set _ _ _ _ (by omega), if_neg (by omega), hm5, if_neg (by omega),
      getElem?_insertAt s p (by omega)]
    by_cases hB : i = p
    · subst hB
      rw [if_pos rfl, if_neg (by omega), if_pos rfl]
    · rw [if_neg (by omega), hc4]
      by_cases hC : p < i ∧ i ≤ v.size_ - 1
      · have e : v.data_.buffer_ + i - 1 = v.data_.buffer_ + (i - 1) := by omega
        rw [if_pos (by omega), hm3, if_neg (by omega), if_neg (by omega), e,
          hm2blk _ (by omega), if_neg (by omega), if_neg hB]
      · rw [if_neg (by omega), if_neg (by omega), hm3]
        by_cases hD : i = v.size_
        · subst hD
          rw [if_pos rfl, if_neg (by omega), if_neg hB, hxl]
        · rw [if_neg (by omega), if_neg (by omega), hm2blk i hi]
          by_cases hE : i < p
          · rw [if_pos hE]
          · rw [if_neg hE, if_neg hB, hnone _ (by omega), hnone _ (by omega)]
  · refine ⟨by rw [List.length_set]; omega, fun a ha hout => ?_⟩
    rw [cell_set _ _ _ _ (by omega), if_neg (by omega), hm5, if_neg (by omega),
      if_neg (by omega), hc4, if_neg (by omega), if_neg (by omega), hm3, if_neg (by omega),
      if_neg (by omega), hm2, if_neg (by omega), if_pos ha]

/-- The position after the last element, room left, vector not empty: `Emplace`
hands `std::move_backward` a range whose end precedes its start. -/
theorem Emplace_end_inplace_fault [Elem α] (v : Vector α) (m : Memory α) (s : List α)
    (args : CtorArgs α)
    (h : v.Holds m s) (hroom : s.length < v.data_.capacity_) (hne : 0 < s.length)
    (hargs : args.throws = false) :
    v.Emplace v.end_ args m = .fault .undefined := by
  obtain ⟨hsz, hcap, hcells⟩ := h
  have h : v.Holds m s := ⟨hsz, hcap, hcells⟩
  have hblk : ∀ i, i < v.data_.capacity_ → v.data_.buffer_ + i < m.length := fun i hi =>
    h.block_lt hi
  have hvl : m.length + 1 < m.length + (1 + 1) := by omega
  have hm2 := fresh_block_cell m 1 _ args.value hvl
  obtain ⟨xl, hxl⟩ := exists_getElem? s (i := v.size_ - 1) (by omega)
  have hlast : ((m ++ List.replicate (1 + 1) none).set (m.length + 1)
      (some args.value))[v.data_.buffer_ + (v.size_ - 1)]? = some (some xl) := by
    have := hblk (v.size_ - 1) (by omega)
    rw [hm2, if_neg (by omega), if_pos this, hcells _ (by omega), hxl]
  simp only [Vector.Emplace, Vector.Capacity, RawMemory.Capacity, Vector.begin, Vector.end_,
    RawMemory.GetAddress, size_t_sub_add]
  rw [if_neg (by omega), if_neg (by omega)]
  rw [Exec.bind_apply]
  rw [Exec.bind_ok (operator_new_ok 1 m)]
  rw [Exec.bind_ok (construct_from_ok hargs (by simp))]
  rw [Exec.bind_ok (RawMemory.rawIndex_ok _ (by omega) _)]
  rw [Exec.bind_ok (move_construct_ok hlast (by
    have := hblk v.size_ (by omega)
    rw [List.length_set, List.length_append]; omega))]
  rw [Exec.bind_apply]
  simp only [move_backward]
  rw [if_pos (by omega)]
  rfl

theorem Emplace_spec [Elem α] (v : Vector α) (m : Memory α) (s : List α)
    (args : CtorArgs α) (p : Nat)
    (h : v.Holds m s) (hp : p ≤ s.length)
    (hin : p < s.length ∨ s.length = v.data_.capacity_ ∨ s.length = 0)
    (hargs : args.throws = false)
    (ht : s.length = v.data_.capacity_ → Vector.TransferNoThrow s) :
    ∃ v1 m1, v.Emplace (v.begin + p) args m = .ok (v1.begin + p, v1) m1 ∧
      v1.Holds m1 (s.take p ++ args.value :: s.drop p) ∧
      v1.data_.capacity_ =
        (if s.length = v.data_.capacity_ then (if s.length = 0 then 1 else s.length * 2)
         else v.data_.capacity_) ∧
      (s.length ≠ v.data_.capacity_ → v1.data_ = v.data_) ∧
      (s.length = v.data_.capacity_ → m.length < v1.data_.buffer_) ∧
      Vector.Frame v m m1 := by
  have hlen : (s.take p ++ args.value :: s.drop p).length = s.length + 1 := by
    simp only [List.length_append, List.length_take, List.length_cons, List.length_drop]
    omega
  obtain ⟨hsz, hcap, hcells⟩ := h
  have h : v.Holds m s := ⟨hsz, hcap, hcells⟩
  by_cases hfull : s.length = v.data_.capacity_
  · obtain ⟨m1, hrun, hc1, hf1⟩ := EmplaceInFullVector_spec v m s args p h hfull hp hargs (ht hfull)
    refine ⟨{ data_ := { buffer_ := m.length + 1,
                         capacity_ := if s.length = 0 then 1 else s.length * 2 },
              size_ := v.size_ + 1 }, m1, ?_, ⟨?_, ?_, hc1⟩, ?_, ?_, ?_, hf1⟩
    · simp only [Vector.Emplace, Vector.Capacity, RawMemory.Capacity]
      rw [if_pos (by omega), Exec.bind_ok hrun]
      simp only [Vector.begin, RawMemory.GetAddress, size_t_sub_add]
      rfl
    · rw [hlen, hsz]
    · rw [hlen]; simp only []; split_ifs <;> omega
    · rw [if_pos hfull]
    · intro hne; exact absurd hfull hne
    · intro _; simp only []; omega
  · by_cases h0 : s.length = 0
    · -- the first element of a vector that has room
      have hp0 : p = 0 := by omega
      subst hp0
      have hb := h.block_lt (i := 0) (by omega)
      have hs : s = [] := List.length_eq_zero.mp h0
      subst hs
      refine ⟨{ data_ := v.data_, size_ := v.size_ + 1 },
        m.set v.data_.buffer_ (some args.value), ?_, ⟨?_, ?_, ?_⟩, ?_, ?_, ?_, ?_⟩
      · simp only [Vector.Emplace, Vector.Capacity, RawMemory.Capacity, Vector.begin,
          RawMemory.GetAddress, size_t_sub_add]
        rw [if_neg (by simp at hsz; omega), if_pos (by simpa using hsz)]
        rw [Exec.bind_ok (f := fun v => _)]
        rotate_left
        · rw [Exec.bind_ok (construct_from_ok hargs (by simpa using hb))]
          rfl
        · rfl
      · simp [hsz]
      · simp at hcap ⊢; omega
      · intro i hi
        simp only [] at hi ⊢
        have hci := hcells i hi
        rw [cell_set _ _ _ _ (by simpa using hb)]
        by_cases hi0 : i = 0
        · subst hi0; simp
        · rw [if_neg (by omega), hci]
          simp only [List.getElem?_nil, List.take_nil, List.drop_nil, List.nil_append]
          rw [List.getElem?_cons, if_neg hi0]
          simp
      · rw [if_neg hfull]
      · intro _; rfl
      · intro he; exact absurd he hfull
      · refine ⟨by simp, fun a ha hout => ?_⟩
        rw [cell_set _ _ _ _ (by simpa using hb), if_neg (by omega)]
    · have hpl : p < s.length := by omega
      obtain ⟨m1, hrun, hc1, hf1⟩ := Emplace_inplace_spec v m s args p h (by omega) hpl hargs
      refine ⟨{ data_ := v.data_, size_ := v.size_ + 1 }, m1, hrun, ⟨?_, ?_, hc1⟩, ?_, ?_, ?_, hf1⟩
      · rw [hlen, hsz]
      · rw [hlen]; show s.length + 1 ≤ v.data_.capacity_; omega
      · rw [if_neg hfull]
      · intro _; rfl
      · intro he; exact absurd he hfull

theorem Erase_spec [Elem α] (v : Vector α) (m : Memory α) (s : List α) (p : Nat)
    (h : v.Holds m s) (hp : p < s.length) :
    ∃ m1, v.Erase (v.begin + p) m =
        .ok (v.data_.buffer_ + p, { data_ := v.data_, size_ := v.size_ - 1 }) m1 ∧
      Vector.Holds { data_ := v.data_, size_ := v.size_ - 1 } m1 (s.eraseIdx p) ∧
      m1.length = m.length ∧ Vector.Frame v m m1 := by
  obtain ⟨hsz, hcap, hcells⟩ := h
  have h : v.Holds m s := ⟨hsz, hcap, hcells⟩
  have hnone : ∀ i, s.length ≤ i → s[i]? = none := fun i hi => List.getElem?_eq_none hi
  have hblk : ∀ i, i < v.data_.capacity_ → v.data_.buffer_ + i < m.length := fun i hi =>
    h.block_lt hi
  obtain ⟨m1, h1, hl1, hc1⟩ := move_loop_spec (v.size_ - (p + 1)) (v.data_.buffer_ + p) m (by
    intro a ha1 ha2
    obtain ⟨z, hz⟩ := exists_getElem? s (i := a - v.data_.buffer_) (by omega)
    have e : a = v.data_.buffer_ + (a - v.data_.buffer_) := by omega
    rw [e, hcells _ (by omega), hz]
    exact ⟨_, rfl⟩)
  obtain ⟨xl, hxl⟩ := exists_getElem? s (i := v.size_ - 1) (by omega)
  obtain ⟨y, hy⟩ : ∃ y, m1[v.data_.buffer_ + v.size_ - 1]? = some (some y) := by
    have e : v.data_.buffer_ + v.size_ - 1 = v.data_.buffer_ + (v.size_ - 1) := by omega
    rw [hc1, if_neg (by omega), e, hcells _ (by omega), hxl]
    by_cases hn : 0 < v.size_ - (p + 1)
    · rw [if_pos ⟨by omega, hn⟩]; exact ⟨_, rfl⟩
    · rw [if_neg (by omega)]; exact ⟨_, rfl⟩
  have hlt1 : v.data_.buffer_ + v.size_ - 1 < m1.length := live_lt hy
  refine ⟨m1.set (v.data_.buffer_ + v.size_ - 1) none, ?_, ⟨?_, ?_, ?_⟩, ?_, ?_⟩
  · simp only [Vector.Erase, Vector.begin, Vector.end_, RawMemory.GetAddress, size_t_sub_add]
    have hmr : move_range (v.data_.buffer_ + p + 1) (v.data_.buffer_ + v.size_)
        (v.data_.buffer_ + p) m =
        .ok (v.data_.buffer_ + p + (v.data_.buffer_ + v.size_ - (v.data_.buffer_ + p + 1))) m1 := by
      have e1 : v.data_.buffer_ + v.size_ - (v.data_.buffer_ + p + 1) = v.size_ - (p + 1) := by
        omega
      simp only [move_range]
      rw [if_neg (by omega), e1, Exec.bind_ok h1]
      rfl
    rw [Exec.bind_ok hmr]
    have hd : destroy_n (v.data_.buffer_ + v.size_ - 1) 1 m1 =
        .ok () (m1.set (v.data_.buffer_ + v.size_ - 1) none) := by
      simp only [destroy_n]
      rw [Exec.bind_ok (destroy_at_ok hy)]
      rfl
    rw [Exec.bind_ok hd, size_t_dec_pos (by omega)]
    rfl
  · simp only [List.length_eraseIdx, hsz]
    rw [if_pos hp]
  · simp only [List.length_eraseIdx]
    rw [if_pos hp]; omega
  · intro i hi
    simp only [] at hi ⊢
    have hbi := hblk i hi
    rw [cell_set _ _ _ _ hlt1, List.getElem?_eraseIdx]
    by_cases hA : i = v.size_ - 1
    · rw [if_pos (by omega), if_neg (by omega), hnone _ (by omega)]
    · rw [if_neg (by omega), hc1]
      by_cases hB : p ≤ i ∧ i < v.size_ - 1
      · have e : v.data_.buffer_ + i + 1 = v.data_.buffer_ + (i + 1) := by omega
        rw [if_pos (by omega), e, hcells _ (by omega), if_neg (by omega)]
      · rw [if_neg (by omega), if_neg (by omega), hcells i hi]
        by_cases hC : i < p
        · rw [if_pos hC]
        · rw [if_neg hC, hnone _ (by omega), hnone _ (by omega)]
  · rw [List.length_set, hl1]
  · refine ⟨by rw [List.length_set, hl1], fun a ha hout => ?_⟩
    rw [cell_set _ _ _ _ hlt1, if_neg (by omega), hc1, if_neg (by omega), if_neg (by omega)]

/-- Inserting and then erasing at the iterator returned restores the element
sequence, wherever `Emplace` is defined: at an index before the end, or at any
index of a full or an empty vector. -/
theorem insert_then_erase_spec [Elem α] (v : Vector α) (m : Memory α) (s : List α)
    (args : CtorArgs α) (p : Nat)
    (h : v.Holds m s) (hp : p ≤ s.length)
    (hin : p < s.length ∨ s.length = v.data_.capacity_ ∨ s.length = 0)
    (hargs : args.throws = false) (ht : Vector.TransferNoThrow s) :
    ∃ pos v1 m1 pos2 v2 m2, v.Emplace (v.begin + p) args m = .ok (pos, v1) m1 ∧
      v1.Erase pos m1 = .ok (pos2, v2) m2 ∧
      v2.Holds m2 s ∧ v2.Size = v.Size ∧ v.Capacity ≤ v2.Capacity := by
  obtain ⟨v1, m1, hr1, hh1, hcap1, _, _, _⟩ := Emplace_spec v m s args p h hp hin hargs (fun _ => ht)
  have hlen : (s.take p ++ args.value :: s.drop p).length = s.length + 1 := by
    simp only [List.length_append, List.length_take, List.length_cons, List.length_drop]
    omega
  obtain ⟨m2, hr2, hh2, _, _⟩ := Erase_spec v1 m1 _ p hh1 (by omega)
  rw [eraseIdx_insertAt s p hp] at hh2
  refine ⟨_, v1, m1, _, _, m2, hr1, hr2, hh2, ?_, ?_⟩
  · have h1 := hh1.1
    have h0 := h.1
    simp only [Vector.Size]; omega
  · have hc := h.2.1
    simp only [Vector.Capacity, RawMemory.Capacity]
    rw [hcap1]
    split_ifs <;> omega

/-! ## Copy construction and copy assignment -/

theorem copyCtor_spec [Elem α] (other : Vector α) (m : Memory α) (s : List α)
    (h : other.Holds m s) (ht : Vector.CopyNoThrow s) :
    ∃ v1 m1, other.copyCtor m = .ok v1 m1 ∧ v1.Holds m1 s ∧
      v1.data_.capacity_ = s.length ∧
      (s.length = 0 ∨ m.length < v1.data_.buffer_) ∧
      m.length ≤ m1.length ∧ (∀ a, a < m.length → m1[a]? = m[a]?) := by
  obtain ⟨hsz, hcap, hcells⟩ := h
  have h : other.Holds m s := ⟨hsz, hcap, hcells⟩
  have hnone : ∀ i, s.length ≤ i → s[i]? = none := fun i hi => List.getElem?_eq_none hi
  have hblk : ∀ i, i < other.data_.capacity_ → other.data_.buffer_ + i < m.length :=
    fun i hi => h.block_lt hi
  by_cases h0 : other.size_ = 0
  · refine ⟨{ data_ := { buffer_ := 0, capacity_ := 0 }, size_ := 0 }, m, ?_, ⟨?_, ?_, ?_⟩,
      ?_, Or.inl (by omega), le_refl _, fun _ _ => rfl⟩
    · simp only [Vector.copyCtor, h0]
      rfl
    · simp only []; omega
    · simp only []; omega
    · intro i hi; simp only [] at hi; omega
    · simp only []; omega
  · have hm1 := fresh_block m other.size_
    obtain ⟨m2, h2, hl2, hc2⟩ := uninitialized_copy_loop_spec (m.length + 1) other.size_
      other.data_.buffer_ (m.length + 1) (m ++ List.replicate (other.size_ + 1) none)
      (by
        intro i hi
        obtain ⟨z, hz⟩ := exists_getElem? s (i := i) (by omega)
        have := hblk i (by omega)
        refine ⟨z, ?_, ht z (List.getElem?_mem hz)⟩
        rw [hm1, if_pos this, hcells i (by omega), hz])
      (fun _ => by simp only [List.length_append, List.length_replicate]; omega)
      (fun _ => Or.inl (by have := hblk (other.size_ - 1) (by omega); omega))
    refine ⟨{ data_ := { buffer_ := m.length + 1, capacity_ := other.size_ },
              size_ := other.size_ }, m2, ?_, ⟨hsz, ?_, ?_⟩, ?_, Or.inr ?_, ?_, ?_⟩
    · simp only [Vector.copyCtor, RawMemory.GetAddress, uninitialized_copy_n]
      rw [Exec.bind_ok (withCapacity_ok h0 m), Exec.bind_ok h2]
      rfl
    · simp only []; omega
    · intro i hi
      simp only [] at hi ⊢
      have e : other.data_.buffer_ + (m.length + 1 + i - (m.length + 1)) =
          other.data_.buffer_ + i := by omega
      have := hblk i (by omega)
      rw [hc2, if_pos (by omega), e, hm1, if_pos this, hcells i (by omega)]
    · simp only []; omega
    · simp only []; omega
    · rw [hl2, List.length_append]; omega
    · intro a ha
      rw [hc2, if_neg (by omega), hm1, if_pos ha]

theorem CopyElementsLoop_spec (v rhs : Vector α) (n : Nat) : ∀ (index : Nat) (m : Memory α),
    index + n ≤ v.size_ → v.size_ ≤ v.data_.capacity_ →
    index + n ≤ rhs.size_ → rhs.size_ ≤ rhs.data_.capacity_ →
    (∀ i, i < index + n → ∃ x, m[rhs.data_.buffer_ + i]? = some (some x)) →
    (∀ i, i < index + n → ∃ y, m[v.data_.buffer_ + i]? = some (some y)) →
    (0 < n → rhs.data_.buffer_ + rhs.data_.capacity_ ≤ v.data_.buffer_ ∨
      v.data_.buffer_ + v.data_.capacity_ ≤ rhs.data_.buffer_) →
    ∃ m1, Vector.CopyElementsLoop v rhs n index m = .ok () m1 ∧ m1.length = m.length ∧
      ∀ a, m1[a]? =
        if v.data_.buffer_ + index ≤ a ∧ a < v.data_.buffer_ + index + n then
          m[rhs.data_.buffer_ + (a - v.data_.buffer_)]?
        else m[a]? := by
  induction n with
  | zero =>
    intro index m _ _ _ _ _ _ _
    refine ⟨m, rfl, rfl, fun a => ?_⟩
    rw [if_neg (by omega)]
  | succ n ih =>
    intro index m hv hvc hr hrc hsrc hdst hdis
    have hdis := hdis (by omega)
    obtain ⟨x, hx⟩ := hsrc index (by omega)
    obtain ⟨y, hy⟩ := hdst index (by omega)
    have hlt := live_lt hy
    obtain ⟨m1, hrun, hlen1, hcells⟩ := ih (index + 1)
      (m.set (v.data_.buffer_ + index) (some x)) (by omega) hvc (by omega) hrc
      (by
        intro i hi
        obtain ⟨z, hz⟩ := hsrc i (by omega)
        refine ⟨z, ?_⟩
        rw [cell_set _ _ _ _ hlt, if_neg (by omega), hz])
      (by
        intro i hi
        rw [cell_set _ _ _ _ hlt]
        by_cases hA : i = index
        · subst hA; rw [if_pos rfl]; exact ⟨_, rfl⟩
        · rw [if_neg (by omega)]; exact hdst i (by omega))
      (fun _ => hdis)
    refine ⟨m1, ?_, by rw [hlen1, List.length_set], fun a => ?_⟩
    · simp only [Vector.CopyElementsLoop]
      rw [Exec.bind_ok (Vector.vectorIndex_ok rhs (by omega) hrc m)]
      rw [Exec.bind_ok (Vector.vectorIndex_ok v (by omega) hvc m)]
      have hca : copy_assign (rhs.data_.buffer_ + index) (v.data_.buffer_ + index) m =
          .ok () (m.set (v.data_.buffer_ + index) (some x)) := by
        simp only [copy_assign]
        rw [Exec.bind_ok (load_ok hx)]
        exact store_ok _ hy
      rw [Exec.bind_ok hca]
      exact hrun
    · rw [hcells a]
      by_cases hA : a = v.data_.buffer_ + index
      · subst hA
        have e : rhs.data_.buffer_ + (v.data_.buffer_ + index - v.data_.buffer_) =
            rhs.data_.buffer_ + index := by omega
        rw [if_neg (by omega), cell_set _ _ _ _ hlt, if_pos rfl, if_pos (by omega), e, hx]
      · by_cases hB : v.data_.buffer_ + (index + 1) ≤ a ∧ a < v.data_.buffer_ + (index + 1) + n
        · rw [if_pos hB, if_pos (by omega), cell_set _ _ _ _ hlt, if_neg (by omega)]
        · rw [if_neg hB, if_neg (by omega), cell_set _ _ _ _ hlt, if_neg hA]

theorem destroy_ok (v : Vector α) (m : Memory α) (s : List α) (h : v.Holds m s) :
    ∃ m1, v.destroy m = .ok () m1 ∧ m1.length = m.length ∧
      ∀ a, m1[a]? =
        if v.data_.buffer_ ≤ a ∧ a < v.data_.buffer_ + v.size_ then some none else m[a]? := by
  obtain ⟨m1, h1, hl1, hc1⟩ := destroy_n_spec v.size_ v.data_.buffer_ m (by
    intro i hi
    obtain ⟨z, hz⟩ := exists_getElem? s (i := i) (by have := h.1; omega)
    rw [h.cell (by have := h.1; have := h.2.1; omega), hz]
    exact ⟨_, rfl⟩)
  refine ⟨m1, ?_, hl1, hc1⟩
  simp only [Vector.destroy, RawMemory.GetAddress]
  rw [Exec.bind_ok h1]
  rfl

theorem copyAssign_self [Elem α] (v rhs : Vector α) (m : Memory α) :
    v.copyAssign rhs true m = .ok v m := rfl

theorem copyAssign_spec [Elem α] (a b : Vector α) (m : Memory α) (sa sb : List α)
    (ha : a.Holds m sa) (hb : b.Holds m sb) (hab : Vector.Apart a b)
    (ht : Vector.CopyNoThrow sb) :
    ∃ a1 m1, a.copyAssign b false m = .ok a1 m1 ∧ a1.Holds m1 sb ∧
      a1.data_.capacity_ = (if a.data_.capacity_ < sb.length then sb.length
        else a.data_.capacity_) ∧
      (sb.length ≤ a.data_.capacity_ → a1.data_ = a.data_) ∧
      (a.data_.capacity_ < sb.length → m.length < a1.data_.buffer_) ∧
      Vector.Frame a m m1 := by
  obtain ⟨hsza, hcapa, hcellsa⟩ := ha
  have ha : a.Holds m sa := ⟨hsza, hcapa, hcellsa⟩
  obtain ⟨hszb, hcapb, hcellsb⟩ := hb
  have hb : b.Holds m sb := ⟨hszb, hcapb, hcellsb⟩
  have hnoneb : ∀ i, sb.length ≤ i → sb[i]? = none := fun i hi => List.getElem?_eq_none hi
  have hnonea : ∀ i, sa.length ≤ i → sa[i]? = none := fun i hi => List.getElem?_eq_none hi
  have hblka : ∀ i, i < a.data_.capacity_ → a.data_.buffer_ + i < m.length :=
    fun i hi => ha.block_lt hi
  have hblkb : ∀ i, i < b.data_.capacity_ → b.data_.buffer_ + i < m.length :=
    fun i hi => hb.block_lt hi
  have henda := ha.block_end
  by_cases hbig : a.data_.capacity_ < sb.length
  · -- copy and swap
    obtain ⟨v1, m1, h1, hh1, hcap1, hnew1, hlen1, hpre1⟩ := copyCtor_spec b m sb hb ht
    obtain ⟨m2, h2, hl2, hc2⟩ := destroy_ok a m1 sa (ha.of_unchanged hpre1)
    have hnew : m.length < v1.data_.buffer_ := by
      rcases hnew1 with h0 | h0
      · omega
      · exact h0
    refine ⟨v1, m2, ?_, ?_, ?_, fun hc => by omega, fun _ => hnew, ?_⟩
    · simp only [Vector.copyAssign, Bool.false_eq_true, if_false, RawMemory.Capacity]
      rw [if_pos (by omega), Exec.bind_ok h1]
      simp only [Vector.Swap]
      rw [Exec.bind_ok (f := fun _ => _) h2]
      rfl
    · refine hh1.of_cells (fun i hi => ?_)
      rw [hc2, if_neg (by omega)]
    · rw [if_pos hbig, hcap1]
    · refine ⟨by omega, fun x hx hout => ?_⟩
      rw [hc2, if_neg (by omega), hpre1 x hx]
  · -- the capacity at hand is reused
    have hsmall : sb.length ≤ a.data_.capacity_ := by omega
    have hdisj : 0 < sb.length → b.data_.buffer_ + b.data_.capacity_ ≤ a.data_.buffer_ ∨
        a.data_.buffer_ + a.data_.capacity_ ≤ b.data_.buffer_ := by
      intro hpos
      rcases hab with h0 | h0 | h0 | h0
      · omega
      · omega
      · exact Or.inr h0
      · exact Or.inl h0
    by_cases hlt : b.size_ < a.size_
    · obtain ⟨m1, h1, hl1, hc1⟩ := CopyElementsLoop_spec a b b.size_ 0 m (by omega) (by omega)
        (by omega) (by omega)
        (by
          intro i hi
          obtain ⟨z, hz⟩ := exists_getElem? sb (i := i) (by omega)
          rw [hcellsb i (by omega), hz]; exact ⟨_, rfl⟩)
        (by
          intro i hi
          obtain ⟨z, hz⟩ := exists_getElem? sa (i := i) (by omega)
          rw [hcellsa i (by omega), hz]; exact ⟨_, rfl⟩)
        (fun hpos => hdisj (by omega))
      obtain ⟨m2, h2, hl2, hc2⟩ := destroy_n_spec (a.size_ - b.size_)
        (a.data_.buffer_ + b.size_) m1 (by
          intro i hi
          obtain ⟨z, hz⟩ := exists_getElem? sa (i := b.size_ + i) (by omega)
          have e : a.data_.buffer_ + b.size_ + i = a.data_.buffer_ + (b.size_ + i) := by omega
          rw [hc1, if_neg (by omega), e, hcellsa _ (by omega), hz]
          exact ⟨_, rfl⟩)
      refine ⟨{ data_ := a.data_, size_ := b.size_ }, m2, ?_, ⟨hszb, hsmall, ?_⟩, ?_,
        fun _ => rfl, fun hc => by omega, ?_⟩
      · simp only [Vector.copyAssign, Bool.false_eq_true, if_false, RawMemory.Capacity]
        rw [if_neg (by omega)]
        simp only [Vector.CopyExistingElements, if_pos hlt, Vector.CopyElements,
          RawMemory.GetAddress]
        rw [Exec.bind_ok h1, size_t_sub_le (by omega), Exec.bind_ok h2]
        rfl
      · intro i hi
        simp only [] at hi ⊢
        rw [hc2]
        by_cases hA : i < b.size_
        · have e : b.data_.buffer_ + (a.data_.buffer_ + i - a.data_.buffer_) =
              b.data_.buffer_ + i := by omega
          rw [if_neg (by omega), hc1, if_pos (by omega), e, hcellsb i (by omega)]
        · by_cases hB : i < a.size_
          · rw [if_pos (by omega), hnoneb _ (by omega)]
          · rw [if_neg (by omega), hc1, if_neg (by omega), hcellsa i hi, hnonea _ (by omega),
              hnoneb _ (by omega)]
      · rw [if_neg hbig]
      · refine ⟨by omega, fun x hx hout => ?_⟩
        rw [hc2, if_neg (by omega), hc1, if_neg (by omega)]
    · obtain ⟨m1, h1, hl1, hc1⟩ := CopyElementsLoop_spec a b a.size_ 0 m (by omega) (by omega)
        (by omega) (by omega)
        (by
          intro i hi
          obtain ⟨z, hz⟩ := exists_getElem? sb (i := i) (by omega)
          rw [hcellsb i (by omega), hz]; exact ⟨_, rfl⟩)
        (by
          intro i hi
          obtain ⟨z, hz⟩ := exists_getElem? sa (i := i) (by omega)
          rw [hcellsa i (by omega), hz]; exact ⟨_, rfl⟩)
        (fun hpos => hdisj (by omega))
      obtain ⟨m2, h2, hl2, hc2⟩ := uninitialized_copy_loop_spec (a.data_.buffer_ + a.size_)
        (b.size_ - a.size_) (b.data_.buffer_ + a.size_) (a.data_.buffer_ + a.size_) m1
        (by
          intro i hi
          obtain ⟨z, hz⟩ := exists_getElem? sb (i := a.size_ + i) (by omega)
          have e : b.data_.buffer_ + a.size_ + i = b.data_.buffer_ + (a.size_ + i) := by omega
          have hd := hdisj (by omega)
          refine ⟨z, ?_, ht z (List.getElem?_mem hz)⟩
          rw [hc1, if_neg (by omega), e, hcellsb _ (by omega), hz])
        (fun hpos => by
          have := hblka (b.size_ - 1) (by omega)
          omega)
        (fun hpos => by
          have := hdisj (by omega)
          omega)
      refine ⟨{ data_ := a.data_, size_ := b.size_ }, m2, ?_, ⟨hszb, hsmall, ?_⟩, ?_,
        fun _ => rfl, fun hc => by omega, ?_⟩
      · simp only [Vector.copyAssign, Bool.false_eq_true, if_false, RawMemory.Capacity]
        rw [if_neg (by omega)]
        simp only [Vector.CopyExistingElements, if_neg hlt, Vector.CopyElements,
          RawMemory.GetAddress, uninitialized_copy_n]
        rw [Exec.bind_ok h1, size_t_sub_le (by omega), Exec.bind_ok h2]
        rfl
      · intro i hi
        simp only [] at hi ⊢
        rw [hc2]
        by_cases hA : i < a.size_
        · have e : b.data_.buffer_ + (a.data_.buffer_ + i - a.data_.buffer_) =
              b.data_.buffer_ + i := by omega
          rw [if_neg (by omega), hc1, if_pos (by omega), e, hcellsb i (by omega)]
        · by_cases hB : i < b.size_
          · have e : b.data_.buffer_ + a.size_ + (a.data_.buffer_ + i -
                (a.data_.buffer_ + a.size_)) = b.data_.buffer_ + i := by omega
            have hd := hdisj (by omega)
            rw [if_pos (by omega), e, hc1, if_neg (by omega), hcellsb i (by omega)]
          · rw [if_neg (by omega), hc1, if_neg (by omega), hcellsa i hi, hnonea _ (by omega),
              hnoneb _ (by omega)]
      · rw [if_neg hbig]
      · refine ⟨by omega, fun x hx hout => ?_⟩
        rw [hc2, if_neg (by omega), hc1, if_neg (by omega)]

/-! ## Sequences of appends and the doubling policy -/

/-- One mutation, within its contract and returning normally, on a vector in a
valid state: the vector holds the intended result, cells outside its old block
are untouched, and its block is the old one or lies in fresh storage. -/
theorem Mutation.step_spec [Elem α] (op : Mutation α) (v v1 : Vector α) (m m1 : Memory α)
    (s : List α) (h : v.Holds m s) (hc : op.InContract s) (hrun : op.run v m = .ok v1 m1) :
    v1.Holds m1 (op.result s) ∧ Vector.Frame v m m1 ∧
      (v1.data_ = v.data_ ∨ m.length < v1.data_.buffer_) := by
  cases op with
  | append args =>
    obtain ⟨hargs, ht⟩ := hc
    obtain ⟨w, mw, hr, hh, _, hsame, hnew, hf⟩ := EmplaceBack_spec v m s args h hargs (fun _ => ht)
    simp only [Mutation.run] at hrun
    rw [Exec.bind_ok hr] at hrun
    simp only [Exec.pure_apply] at hrun
    injection hrun with hv hm
    subst hv hm
    refine ⟨hh, hf, ?_⟩
    by_cases hfull : s.length = v.data_.capacity_
    · exact Or.inr (hnew hfull)
    · exact Or.inl (hsame hfull)
  | insert index args =>
    obtain ⟨hp, hargs, ht⟩ := hc
    by_cases hin : index < s.length ∨ s.length = v.data_.capacity_ ∨ s.length = 0
    · obtain ⟨w, mw, hr, hh, _, hsame, hnew, hf⟩ :=
        Emplace_spec v m s args index h hp hin hargs (fun _ => ht)
      simp only [Mutation.run] at hrun
      rw [Exec.bind_ok hr] at hrun
      simp only [Exec.pure_apply] at hrun
      injection hrun with hv hm
      subst hv hm
      refine ⟨hh, hf, ?_⟩
      by_cases hfull : s.length = v.data_.capacity_
      · exact Or.inr (hnew hfull)
      · exact Or.inl (hsame hfull)
    · -- the call does not return: nothing to show
      have hcap := h.2.1
      have hsz := h.1
      have he : v.begin + index = v.end_ := by
        simp only [Vector.begin, Vector.end_]; omega
      have hfault := Emplace_end_inplace_fault v m s args h (by omega) (by omega) hargs
      simp only [Mutation.run] at hrun
      rw [he, Exec.bind_apply, hfault] at hrun
      exact Outcome.noConfusion hrun
  | erase index =>
    obtain ⟨mw, hr, hh, _, hf⟩ := Erase_spec v m s index h hc
    simp only [Mutation.run] at hrun
    rw [Exec.bind_ok hr] at hrun
    simp only [Exec.pure_apply] at hrun
    injection hrun with hv hm
    subst hv hm
    exact ⟨hh, hf, Or.inl rfl⟩
  | resize n =>
    obtain ⟨w, mw, hr, hh, _, hsame, hnew, hf⟩ := Resize_spec v m s n h (fun _ => hc)
    simp only [Mutation.run] at hrun
    rw [hr] at hrun
    injection hrun with hv hm
    subst hv hm
    refine ⟨hh, hf, ?_⟩
    by_cases hn : n ≤ v.data_.capacity_
    · exact Or.inl (hsame hn)
    · exact Or.inr (hnew (by omega))
  | write index x =>
    obtain ⟨hr, hh, hf⟩ := write_spec h hc x
    simp only [Mutation.run] at hrun
    rw [Exec.bind_ok hr] at hrun
    simp only [Exec.pure_apply] at hrun
    injection hrun with hv hm
    subst hv hm
    exact ⟨hh, hf, Or.inl rfl⟩

theorem Mutated.preserves [Elem α] {v v1 : Vector α} {m m1 : Memory α} {s s1 : List α}
    (hmut : Mutated v m s v1 m1 s1) :
    ∀ (c : Vector α) (sc : List α), c.Holds m sc → v.Holds m s → Vector.Apart v c →
      c.Holds m1 sc ∧ v1.Holds m1 s1 ∧ Vector.Apart v1 c := by
  induction hmut with
  | done v m s => intro c sc hc hv hap; exact ⟨hc, hv, hap⟩
  | step op hcon hrun _ ih =>
    intro c sc hc hv hap
    obtain ⟨hh, hf, hloc⟩ := Mutation.step_spec op _ _ _ _ _ hv hcon hrun
    refine ih c sc (hc.of_frame hf hap) hh ?_
    rcases hloc with hloc | hloc
    · simp only [Vector.Apart, hloc]
      exact hap
    · have hend := hc.block_end
      rcases hend with h0 | h0
      · exact Or.inr (Or.inl h0)
      · exact Or.inr (Or.inr (Or.inr (by omega)))

/-! ## Concrete vectors -/

theorem PushBack_run {α : Type} [Elem α] {v v1 : Vector α} {m m1 : Memory α} {x : α} {r : Nat}
    (h : v.EmplaceBack (.copy x) m = .ok (r, v1) m1) : v.PushBack x m = .ok v1 m1 := by
  simp only [Vector.PushBack]
  rw [Exec.bind_ok h]
  rfl

theorem threeInts_run : threeInts [] = .ok threeIntsVector threeIntsMemory := by
  have h1 : (Vector.empty : Vector Int).PushBack 10 [] = .ok ⟨⟨1, 1⟩, 1⟩ [none, some 10] := rfl
  have h2 : (⟨⟨1, 1⟩, 1⟩ : Vector Int).PushBack 20 [none, some 10] =
      .ok ⟨⟨3, 2⟩, 2⟩ [none, none, none, some 10, some 20] := rfl
  have h3 : (⟨⟨3, 2⟩, 2⟩ : Vector Int).PushBack 30 [none, none, none, some 10, some 20] =
      .ok threeIntsVector threeIntsMemory := rfl
  simp only [threeInts]
  rw [Exec.bind_ok h1, Exec.bind_ok h2, h3]

theorem threeInts_holds : threeIntsVector.Holds threeIntsMemory [10, 20, 30] := by
  decide

theorem threeStrings_run : threeStrings [] = .ok threeStringsVector threeStringsMemory := by
  have h1 : (Vector.empty : Vector String).PushBack "a" [] =
      .ok ⟨⟨1, 1⟩, 1⟩ [none, some "a"] := rfl
  have h2 : (⟨⟨1, 1⟩, 1⟩ : Vector String).PushBack "b" [none, some "a"] =
      .ok ⟨⟨3, 2⟩, 2⟩ [none, none, none, some "a", some "b"] := rfl
  have h3 : (⟨⟨3, 2⟩, 2⟩ : Vector String).PushBack "c" [none, none, none, some "a", some "b"] =
      .ok threeStringsVector threeStringsMemory := rfl
  simp only [threeStrings]
  rw [Exec.bind_ok h1, Exec.bind_ok h2, h3]

theorem intTransferNoThrow (s : List Int) : Vector.TransferNoThrow s := Or.inl rfl

theorem intCopyNoThrow (s : List Int) : Vector.CopyNoThrow s := fun _ _ => rfl

/-! ## Exceptions during construction and growth -/

theorem Exec.bind_thrown {x : Exec α β} {f : β → Exec α γ} {m m1 : Memory α}
    (h : x m = .thrown m1) : (x >>= f) m = .thrown m1 := by
  rw [Exec.bind_apply, h]

theorem Exec.bind_fault {x : Exec α β} {f : β → Exec α γ} {m : Memory α} {e : Fault}
    (h : x m = .fault e) : (x >>= f) m = .fault e := by
  rw [Exec.bind_apply, h]

/-- Destroying a cell that holds no object is undefined behaviour: a run that
does not fault never destroys a cell twice without constructing in between. -/
theorem destroy_at_raw_fault {m : Memory α} {p : Nat} (h : m[p]? = some none ∨ m[p]? = none) :
    destroy_at p m = .fault .undefined := by
  rcases h with h | h <;> simp [destroy_at, h]

/-- The loop of `std::uninitialized_copy_n` when the copy constructor throws at
the `k`-th next element: the memory `mid` at the throw has the `k` copies made
by these iterations; the objects built since `d_first` are destroyed by one
`destroy_n` over exactly those cells; the exception leaves. -/
theorem uninitialized_copy_loop_throw [Elem α] (d_first : Nat) (k : Nat) :
    ∀ (n src cur : Nat) (m : Memory α) (x : α), k < n → d_first ≤ cur →
    (∀ i, i < k → ∃ y, m[src + i]? = some (some y) ∧ Elem.copyThrows y = false) →
    m[src + k]? = some (some x) → Elem.copyThrows x = true →
    (∀ a, d_first ≤ a → a < cur → ∃ y, m[a]? = some (some y)) →
    (0 < k → cur + k ≤ m.length) →
    (src + (k + 1) ≤ d_first ∨ cur + k ≤ src) →
    ∃ mid m1, uninitialized_copy_loop d_first n src cur m = .thrown m1 ∧
      (∀ a, mid[a]? = if cur ≤ a ∧ a < cur + k then m[src + (a - cur)]? else m[a]?) ∧
      destroy_n d_first (cur + k - d_first) mid = .ok () m1 ∧
      m1.length = m.length ∧
      ∀ a, m1[a]? = if d_first ≤ a ∧ a < cur + k then some none else m[a]? := by
  induction k with
  | zero =>
    intro n src cur m x hn hd _ hx hxt hlive _ _
    obtain ⟨n, rfl⟩ : ∃ n1, n = n1 + 1 := ⟨n - 1, by omega⟩
    have hx : m[src]? = some (some x) := by simpa using hx
    obtain ⟨m1, h1, hl1, hc1⟩ := destroy_n_spec (cur - d_first) d_first m (by
      intro i hi
      exact hlive (d_first + i) (by omega) (by omega))
    refine ⟨m, m1, ?_, fun a => by rw [if_neg (by omega)], by simpa using h1, hl1, fun a => ?_⟩
    · simp only [uninitialized_copy_loop]
      rw [Exec.bind_ok (load_ok hx)]
      simp only [hxt, if_true]
      rw [Exec.bind_ok h1]
      rfl
    · rw [hc1]
      split_ifs <;> first | rfl | omega
  | succ k ih =>
    intro n src cur m x hn hd hsrc hx hxt hlive hlen hdis
    obtain ⟨n, rfl⟩ : ∃ n1, n = n1 + 1 := ⟨n - 1, by omega⟩
    have hlen := hlen (by omega)
    obtain ⟨y, hy, hyt⟩ := hsrc 0 (by omega)
    have hy : m[src]? = some (some y) := by simpa using hy
    have hlt : cur < m.length := by omega
    have hsl : src < m.length := live_lt hy
    obtain ⟨mid, m1, hrun, hmid, hdes, hl1, hc1⟩ := ih n (src + 1) (cur + 1)
      (m.set cur (some y)) x (by omega) (by omega)
      (by
        intro i hi
        obtain ⟨z, hz, hzt⟩ := hsrc (i + 1) (by omega)
        refine ⟨z, ?_, hzt⟩
        rw [cell_set _ _ _ _ hlt, if_neg (by omega), ← hz]
        congr 1; omega)
      (by
        rw [cell_set _ _ _ _ hlt, if_neg (by omega), ← hx]
        congr 1; omega)
      hxt
      (by
        intro a ha1 ha2
        rw [cell_set _ _ _ _ hlt]
        by_cases hac : a = cur
        · rw [if_pos hac]; exact ⟨_, rfl⟩
        · rw [if_neg hac]; exact hlive a ha1 (by omega))
      (fun _ => by rw [List.length_set]; omega)
      (by omega)
    have e : cur + 1 + k - d_first = cur + (k + 1) - d_first := by omega
    refine ⟨mid, m1, ?_, fun a => ?_, by rw [← e]; exact hdes,
      by rw [hl1, List.length_set], fun a => ?_⟩
    · simp only [uninitialized_copy_loop]
      rw [Exec.bind_ok (load_ok hy)]
      simp only [hyt, Bool.false_eq_true, if_false]
      rw [Exec.bind_ok (construct_at_ok _ hlt)]
      exact hrun
    · rw [hmid a, cell_set _ _ _ _ hlt, cell_set _ _ _ _ hlt]
      by_cases h1 : a = cur
      · subst h1
        rw [if_neg (by omega), if_pos rfl, if_pos (by omega)]
        simp [hy]
      · by_cases h2 : cur + 1 ≤ a ∧ a < cur + 1 + k
        · rw [if_pos h2, if_neg (by omega), if_pos (by omega)]
          congr 1; omega
        · rw [if_neg h2, if_neg h1, if_neg (by omega)]
    · rw [hc1 a, cell_set _ _ _ _ hlt]
      by_cases h1 : d_first ≤ a ∧ a < cur + 1 + k
      · rw [if_pos h1, if_pos (by omega)]
      · rw [if_neg h1, if_neg (by omega), if_neg (by omega)]

theorem copyCtor_throw_spec [Elem α] (other : Vector α) (m : Memory α) (s : List α)
    (k : Nat) (x : α)
    (h : other.Holds m s) (hx : s[k]? = some x) (hxt : Elem.copyThrows x = true)
    (hpre : ∀ i y, i < k → s[i]? = some y → Elem.copyThrows y = false) :
    ∃ mid m1, other.copyCtor m = .thrown m1 ∧
      (∀ a, mid[a]? = if m.length + 1 ≤ a ∧ a < m.length + 1 + k then
          some s[a - (m.length + 1)]?
        else (m ++ List.replicate (s.length + 1) none)[a]?) ∧
      destroy_n (m.length + 1) k mid = .ok () m1 ∧
      m1.length = m.length + (s.length + 1) ∧
      (∀ a, a < m.length → m1[a]? = m[a]?) ∧
      (∀ a, m.length ≤ a → a < m1.length → m1[a]? = some none) := by
  obtain ⟨hsz, hcap, hcells⟩ := h
  have h : other.Holds m s := ⟨hsz, hcap, hcells⟩
  have hk : k < s.length := by
    obtain ⟨h1, _⟩ := List.getElem?_eq_some_iff.mp hx
    exact h1
  have hblk : ∀ i, i < other.data_.capacity_ → other.data_.buffer_ + i < m.length :=
    fun i hi => h.block_lt hi
  have hm1 := fresh_block m other.size_
  have h0 : other.size_ ≠ 0 := by omega
  obtain ⟨mid, m1, hrun, hmid, hdes, hl1, hc1⟩ := uninitialized_copy_loop_throw (m.length + 1) k
    other.size_ other.data_.buffer_ (m.length + 1) (m ++ List.replicate (other.size_ + 1) none) x
    (by omega) (le_refl _)
    (by
      intro i hi
      obtain ⟨z, hz⟩ := exists_getElem? s (i := i) (by omega)
      have := hblk i (by omega)
      refine ⟨z, ?_, hpre i z hi hz⟩
      rw [hm1, if_pos this, hcells i (by omega), hz])
    (by
      have := hblk k (by omega)
      rw [hm1, if_pos this, hcells k (by omega), hx])
    hxt
    (fun a ha1 ha2 => by omega)
    (fun _ => by simp only [List.length_append, List.length_replicate]; omega)
    (Or.inl (by have := hblk k (by omega); omega))
  have e : m.length + 1 + k - (m.length + 1) = k := by omega
  rw [e] at hdes
  rw [hsz] at hmid hl1 hc1 hm1 hrun
  refine ⟨mid, m1, ?_, fun a => ?_, hdes, ?_, fun a ha => ?_, fun a ha1 ha2 => ?_⟩
  · simp only [Vector.copyCtor, RawMemory.GetAddress, uninitialized_copy_n]
    rw [Exec.bind_ok (withCapacity_ok h0 m), hsz]
    exact Exec.bind_thrown hrun
  · rw [hmid a]
    by_cases hA : m.length + 1 ≤ a ∧ a < m.length + 1 + k
    · have hb := hblk (a - (m.length + 1)) (by omega)
      rw [if_pos hA, if_pos hA, hm1, if_pos hb, hcells _ (by omega)]
    · rw [if_neg hA, if_neg hA]
  · rw [hl1, List.length_append, List.length_replicate]
  · rw [hc1, if_neg (by omega), hm1, if_pos ha]
  · rw [hl1, List.length_append, List.length_replicate] at ha2
    rw [hc1]
    by_cases hA : m.length + 1 ≤ a ∧ a < m.length + 1 + k
    · rw [if_pos hA]
    · rw [if_neg hA, hm1, if_neg (by omega), if_pos (by omega)]

theorem fiveFragile_run : fiveFragile [] = .ok fiveFragileVector fiveFragileMemory := by
  have h0 : (Vector.empty : Vector Fragile).Reserve 5 [] =
      .ok ⟨⟨1, 5⟩, 0⟩ [none, none, none, none, none, none] := rfl
  have h1 : (⟨⟨1, 5⟩, 0⟩ : Vector Fragile).PushBackMove ⟨1, false⟩
      [none, none, none, none, none, none] =
      .ok ⟨⟨1, 5⟩, 1⟩ [none, some ⟨1, false⟩, none, none, none, none] := rfl
  have h2 : (⟨⟨1, 5⟩, 1⟩ : Vector Fragile).PushBackMove ⟨2, false⟩
      [none, some ⟨1, false⟩, none, none, none, none] =
      .ok ⟨⟨1, 5⟩, 2⟩ [none, some ⟨1, false⟩, some ⟨2, false⟩, none, none, none] := rfl
  have h3 : (⟨⟨1, 5⟩, 2⟩ : Vector Fragile).PushBackMove ⟨3, true⟩
      [none, some ⟨1, false⟩, some ⟨2, false⟩, none, none, none] =
      .ok ⟨⟨1, 5⟩, 3⟩
        [none, some ⟨1, false⟩, some ⟨2, false⟩, some ⟨3, true⟩, none, none] := rfl
  have h4 : (⟨⟨1, 5⟩, 3⟩ : Vector Fragile).PushBackMove ⟨4, false⟩
      [none, some ⟨1, false⟩, some ⟨2, false⟩, some ⟨3, true⟩, none, none] =
      .ok ⟨⟨1, 5⟩, 4⟩
        [none, some ⟨1, false⟩, some ⟨2, false⟩, some ⟨3, true⟩, some ⟨4, false⟩, none] := rfl
  have h5 : (⟨⟨1, 5⟩, 4⟩ : Vector Fragile).PushBackMove ⟨5, false⟩
      [none, some ⟨1, false⟩, some ⟨2, false⟩, some ⟨3, true⟩, some ⟨4, false⟩, none] =
      .ok fiveFragileVector fiveFragileMemory := rfl
  simp only [fiveFragile]
  rw [Exec.bind_ok h0, Exec.bind_ok h1, Exec.bind_ok h2, Exec.bind_ok h3, Exec.bind_ok h4, h5]

theorem fiveFragile_holds : fiveFragileVector.Holds fiveFragileMemory fiveFragileElements := by
  decide

theorem Exec.tryCatchRethrow_thrown {body : Exec α β} {handler : Exec α Unit}
    {m m1 m2 : Memory α} (h : body m = .thrown m1) (hh : handler m1 = .ok () m2) :
    Exec.tryCatchRethrow body handler m = .thrown m2 := by
  simp only [Exec.tryCatchRethrow, h, hh]

/-- The copy branch of `CopyOrMoveElements` when nothing throws: the source is left as it was. -/
theorem CopyOrMoveElements_copy_spec [Elem α] (n src dst : Nat) (m : Memory α)
    (hc : (Elem.nothrowMove α || !Elem.copyConstructible α) = false)
    (hsrc : ∀ i, i < n → ∃ x, m[src + i]? = some (some x) ∧ Elem.copyThrows x = false)
    (hdst : 0 < n → dst + n ≤ m.length) (hdis : 0 < n → src + n ≤ dst ∨ dst + n ≤ src) :
    ∃ m1, Vector.CopyOrMoveElements src dst n m = .ok () m1 ∧ m1.length = m.length ∧
      ∀ a, m1[a]? = if dst ≤ a ∧ a < dst + n then m[src + (a - dst)]? else m[a]? := by
  obtain ⟨m1, h1, h2, h3⟩ := uninitialized_copy_loop_spec dst n src dst m hsrc hdst hdis
  refine ⟨m1, ?_, h2, h3⟩
  simp only [Vector.CopyOrMoveElements, hc, Bool.false_eq_true, if_false]
  exact h1

/-- The copy branch of `CopyOrMoveElements` when the copy constructor throws at the element `k`. -/
theorem CopyOrMoveElements_throw [Elem α] (n src dst k : Nat) (m : Memory α) (x : α)
    (hc : (Elem.nothrowMove α || !Elem.copyConstructible α) = false) (hk : k < n)
    (hsrc : ∀ i, i < k → ∃ y, m[src + i]? = some (some y) ∧ Elem.copyThrows y = false)
    (hx : m[src + k]? = some (some x)) (hxt : Elem.copyThrows x = true)
    (hdst : 0 < k → dst + k ≤ m.length) (hdis : src + (k + 1) ≤ dst ∨ dst + k ≤ src) :
    ∃ mid m1, Vector.CopyOrMoveElements src dst n m = .thrown m1 ∧
      (∀ a, mid[a]? = if dst ≤ a ∧ a < dst + k then m[src + (a - dst)]? else m[a]?) ∧
      destroy_n dst k mid = .ok () m1 ∧ m1.length = m.length ∧
      ∀ a, m1[a]? = if dst ≤ a ∧ a < dst + k then some none else m[a]? := by
  obtain ⟨mid, m1, hrun, hmid, hdes, hl1, hc1⟩ := uninitialized_copy_loop_throw dst k n src dst m x
    hk (le_refl _) hsrc hx hxt (fun a h1 h2 => by omega) hdst hdis
  have e : dst + k - dst = k := by omega
  rw [e] at hdes
  refine ⟨mid, m1, ?_, hmid, hdes, hl1, hc1⟩
  simp only [Vector.CopyOrMoveElements, hc, Bool.false_eq_true, if_false]
  exact hrun

theorem Reserve_throw_spec [Elem α] (v : Vector α) (m : Memory α) (s : List α) (n k : Nat)
    (x : α) (h : v.Holds m s) (hn : v.data_.capacity_ < n)
    (hc : (Elem.nothrowMove α || !Elem.copyConstructible α) = false)
    (hx : s[k]? = some x) (hxt : Elem.copyThrows x = true)
    (hpre : ∀ i y, i < k → s[i]? = some y → Elem.copyThrows y = false) :
    ∃ mid m1, v.Reserve n m = .thrown m1 ∧
      (∀ a, mid[a]? = if m.length + 1 ≤ a ∧ a < m.length + 1 + k then
          some s[a - (m.length + 1)]?
        else (m ++ List.replicate (n + 1) none)[a]?) ∧
      destroy_n (m.length + 1) k mid = .ok () m1 ∧
      m1.length = m.length + (n + 1) ∧
      (∀ a, a < m.length → m1[a]? = m[a]?) ∧
      (∀ a, m.length ≤ a → a < m1.length → m1[a]? = some none) := by
  obtain ⟨hsz, hcap, hcells⟩ := h
  have h : v.Holds m s := ⟨hsz, hcap, hcells⟩
  have hk : k < s.length := by
    obtain ⟨h1, _⟩ := List.getElem?_eq_some_iff.mp hx
    exact h1
  have hblk : ∀ i, i < v.data_.capacity_ → v.data_.buffer_ + i < m.length :=
    fun i hi => h.block_lt hi
  have hm1 := fresh_block m n
  have hn0 : n ≠ 0 := by omega
  obtain ⟨mid, m1, hrun, hmid, hdes, hl1, hc1⟩ := CopyOrMoveElements_throw v.size_
    v.data_.buffer_ (m.length + 1) k (m ++ List.replicate (n + 1) none) x hc (by omega)
    (by
      intro i hi
      obtain ⟨z, hz⟩ := exists_getElem? s (i := i) (by omega)
      have := hblk i (by omega)
      refine ⟨z, ?_, hpre i z hi hz⟩
      rw [hm1, if_pos this, hcells i (by omega), hz])
    (by
      have := hblk k (by omega)
      rw [hm1, if_pos this, hcells k (by omega), hx])
    hxt
    (fun _ => by simp only [List.length_append, List.length_replicate]; omega)
    (Or.inl (by have := hblk k (by omega); omega))
  refine ⟨mid, m1, ?_, fun a => ?_, hdes, ?_, fun a ha => ?_, fun a ha1 ha2 => ?_⟩
  · simp only [Vector.Reserve, RawMemory.Capacity]
    rw [if_neg (by omega), Exec.bind_ok (withCapacity_ok hn0 m)]
    refine Exec.bind_thrown ?_
    simp only [Vector.ConstructElements, RawMemory.GetAddress]
    exact Exec.bind_thrown hrun
  · rw [hmid a]
    by_cases hA : m.length + 1 ≤ a ∧ a < m.length + 1 + k
    · have hb := hblk (a - (m.length + 1)) (by omega)
      rw [if_pos hA, if_pos hA, hm1, if_pos hb, hcells _ (by omega)]
    · rw [if_neg hA, if_neg hA]
  · rw [hl1, List.length_append, List.length_replicate]
  · rw [hc1, if_neg (by omega), hm1, if_pos ha]
  · rw [hl1, List.length_append, List.length_replicate] at ha2
    rw [hc1]
    by_cases hA : m.length + 1 ≤ a ∧ a < m.length + 1 + k
    · rw [if_pos hA]
    · rw [if_neg hA, hm1, if_neg (by omega), if_pos (by omega)]

theorem fragile_prefix_ok : ∀ i y, i < 2 → fiveFragileElements[i]? = some y →
    Elem.copyThrows y = false := by
  intro i y hi hy
  interval_cases i
  · simp [fiveFragileElements] at hy; subst hy; rfl
  · simp [fiveFragileElements] at hy; subst hy; rfl

/-- The call `EmplaceBack` on a full vector whose elements are transferred by copy,
when the copy constructor throws at the element `k`: the exception leaves,
the copies made so far are destroyed, the vector is untouched, but the new
element, constructed in the new buffer before the transfer, is still live
there. -/
theorem EmplaceBack_throw_spec [Elem α] (v : Vector α) (m : Memory α) (s : List α)
    (args : CtorArgs α) (k : Nat) (x : α)
    (h : v.Holds m s) (hfull : s.length = v.data_.capacity_)
    (hc : (Elem.nothrowMove α || !Elem.copyConstructible α) = false)
    (hargs : args.throws = false)
    (hx : s[k]? = some x) (hxt : Elem.copyThrows x = true)
    (hpre : ∀ i y, i < k → s[i]? = some y → Elem.copyThrows y = false) :
    ∃ m1, v.EmplaceBack args m = .thrown m1 ∧
      m1[m.length + 1 + s.length]? = some (some args.value) ∧
      m1.length = m.length + (s.length * 2 + 1) ∧
      (∀ a, a < m.length → m1[a]? = m[a]?) ∧
      (∀ a, m.length ≤ a → a < m1.length → a ≠ m.length + 1 + s.length →
        m1[a]? = some none) := by
  obtain ⟨hsz, hcap, hcells⟩ := h
  have h : v.Holds m s := ⟨hsz, hcap, hcells⟩
  have hk : k < s.length := by
    obtain ⟨h1, _⟩ := List.getElem?_eq_some_iff.mp hx
    exact h1
  have hblk : ∀ i, i < v.data_.capacity_ → v.data_.buffer_ + i < m.length :=
    fun i hi => h.block_lt hi
  have hcdef : (if v.size_ = 0 then 1 else v.size_ * 2) = s.length * 2 := by
    rw [if_neg (by omega), hsz]
  have hc0 : s.length * 2 ≠ 0 := by omega
  have hp : m.length + 1 + v.size_ < m.length + (s.length * 2 + 1) := by omega
  obtain ⟨m2, hm2def⟩ : ∃ m2 : Memory α, m2 =
    (m ++ List.replicate (s.length * 2 + 1) none).set (m.length + 1 + v.size_)
      (some args.value) := ⟨_, rfl⟩
  have hm2len : m2.length = m.length + (s.length * 2 + 1) := by simp [hm2def]
  have hm2 := fresh_block_cell m (s.length * 2) _ args.value hp
  rw [← hm2def] at hm2
  obtain ⟨mid, m3, hrun, _, _, hl3, hc3⟩ := CopyOrMoveElements_throw v.size_
    v.data_.buffer_ (m.length + 1) k m2 x hc (by omega)
    (by
      intro i hi
      obtain ⟨z, hz⟩ := exists_getElem? s (i := i) (by omega)
      have := hblk i (by omega)
      refine ⟨z, ?_, hpre i z hi hz⟩
      rw [hm2, if_neg (by omega), if_pos this, hcells i (by omega), hz])
    (by
      have := hblk k (by omega)
      rw [hm2, if_neg (by omega), if_pos this, hcells k (by omega), hx])
    hxt (fun _ => by omega)
    (Or.inl (by have := hblk k (by omega); omega))
  refine ⟨m3, ?_, ?_, by omega, fun a ha => ?_, fun a ha1 ha2 hne => ?_⟩
  · simp only [Vector.EmplaceBack, Vector.Capacity, RawMemory.Capacity]
    rw [if_pos (by omega), hcdef]
    refine Exec.bind_thrown ?_
    rw [Exec.bind_ok (withCapacity_ok hc0 m)]
    rw [Exec.bind_ok (RawMemory.add_ok _ (by simp only []; omega) _)]
    rw [Exec.bind_ok (construct_from_ok hargs (by simpa using hp))]
    rw [← hm2def]
    refine Exec.bind_thrown ?_
    simp only [Vector.ConstructElements, RawMemory.GetAddress]
    exact Exec.bind_thrown hrun
  · rw [hc3, if_neg (by omega), hm2, if_pos (by omega)]
  · rw [hc3, if_neg (by omega), hm2, if_neg (by omega), if_pos ha]
  · rw [hc3]
    by_cases hA : m.length + 1 ≤ a ∧ a < m.length + 1 + k
    · rw [if_pos hA]
    · rw [if_neg hA, hm2, if_neg (by omega), if_neg (by omega), if_pos (by omega)]

theorem destroy_one {m : Memory α} {p : Nat} {y : α} (h : m[p]? = some (some y)) :
    destroy_n p 1 m = .ok () (m.set p none) := by
  simp only [destroy_n]
  rw [Exec.bind_ok (destroy_at_ok h)]
  rfl

/-- The call `Emplace` on a full vector whose elements are transferred by copy,
when the copy constructor throws at the element `k`. -/
theorem Emplace_full_throw_spec [Elem α] (v : Vector α) (m : Memory α) (s : List α)
    (args : CtorArgs α) (p k : Nat) (x : α)
    (h : v.Holds m s) (hfull : s.length = v.data_.capacity_) (hp : p ≤ s.length)
    (hc : (Elem.nothrowMove α || !Elem.copyConstructible α) = false)
    (hargs : args.throws = false)
    (hx : s[k]? = some x) (hxt : Elem.copyThrows x = true)
    (hpre : ∀ i y, i < k → s[i]? = some y → Elem.copyThrows y = false) :
    ∃ mid m3 m1, v.Emplace (v.begin + p) args m = .thrown m1 ∧
      -- the memory at the throw: the new element, and the copies made so far
      mid[m.length + 1 + p]? = some (some args.value) ∧
      (∀ i, i < k → mid[m.length + 1 + (if i < p then i else i + 1)]? = some s[i]?) ∧
      -- the rollback: the algorithm destroys the copies of the range it was
      -- working on, the handler destroys the rest
      (k < p → destroy_n (m.length + 1) k mid = .ok () m3 ∧
        destroy_n (m.length + 1 + p) 1 m3 = .ok () m1) ∧
      (p ≤ k → destroy_n (m.length + 1 + p + 1) (k - p) mid = .ok () m3 ∧
        destroy_n (m.length + 1) (p + 1) m3 = .ok () m1) ∧
      m1.length = m.length + (s.length * 2 + 1) ∧
      (∀ a, a < m.length → m1[a]? = m[a]?) ∧
      (∀ a, m.length ≤ a → a < m1.length → m1[a]? = some none) := by
  obtain ⟨hsz, hcap, hcells⟩ := h
  have h : v.Holds m s := ⟨hsz, hcap, hcells⟩
  have hk : k < s.length := by
    obtain ⟨h1, _⟩ := List.getElem?_eq_some_iff.mp hx
    exact h1
  have hblk : ∀ i, i < v.data_.capacity_ → v.data_.buffer_ + i < m.length :=
    fun i hi => h.block_lt hi
  have hcdef : (if v.size_ = 0 then 1 else v.size_ * 2) = s.length * 2 := by
    rw [if_neg (by omega), hsz]
  have hc0 : s.length * 2 ≠ 0 := by omega
  have hpl : m.length + 1 + p < m.length + (s.length * 2 + 1) := by omega
  obtain ⟨m2, hm2def⟩ : ∃ m2 : Memory α, m2 =
    (m ++ List.replicate (s.length * 2 + 1) none).set (m.length + 1 + p)
      (some args.value) := ⟨_, rfl⟩
  have hm2len : m2.length = m.length + (s.length * 2 + 1) := by simp [hm2def]
  have hm2 := fresh_block_cell m (s.length * 2) _ args.value hpl
  rw [← hm2def] at hm2
  have hm2old : ∀ i, i < s.length → ∃ z, s[i]? = some z ∧
      m2[v.data_.buffer_ + i]? = some (some z) := by
    intro i hi
    obtain ⟨z, hz⟩ := exists_getElem? s hi
    have := hblk i (by omega)
    refine ⟨z, hz, ?_⟩
    rw [hm2, if_neg (by omega), if_pos this, hcells i (by omega), hz]
  have hunfold : ∀ m1, v.EmplaceInFullVector (v.data_.buffer_ + p) args m = .thrown m1 →
      v.Emplace (v.begin + p) args m = .thrown m1 := by
    intro m1 hrun
    simp only [Vector.Emplace, Vector.Capacity, RawMemory.Capacity, Vector.begin,
      RawMemory.GetAddress]
    rw [if_pos (by omega)]
    exact Exec.bind_thrown hrun
  by_cases hkp : k < p
  · -- the throw happens before the position
    obtain ⟨mid, m3, hrun, hmid, hdes, hl3, hc3⟩ := CopyOrMoveElements_throw p
      v.data_.buffer_ (m.length + 1) k m2 x hc hkp
      (by
        intro i hi
        obtain ⟨z, hz, hzm⟩ := hm2old i (by omega)
        exact ⟨z, hzm, hpre i z hi hz⟩)
      (by
        obtain ⟨z, hz, hzm⟩ := hm2old k hk
        rw [hzm, ← hz, hx])
      hxt (fun _ => by omega)
      (Or.inl (by have := hblk k (by omega); omega))
    have hnew3 : m3[m.length + 1 + p]? = some (some args.value) := by
      rw [hc3, if_neg (by omega), hm2, if_pos rfl]
    have hlt3 : m.length + 1 + p < m3.length := live_lt hnew3
    refine ⟨mid, m3, m3.set (m.length + 1 + p) none, hunfold _ ?_, ?_, ?_,
      fun _ => ⟨hdes, destroy_one hnew3⟩, fun hpk => by omega, ?_, fun a ha => ?_,
      fun a ha1 ha2 => ?_⟩
    · simp only [Vector.EmplaceInFullVector, Vector.begin, RawMemory.GetAddress, size_t_sub_add,
        hcdef]
      rw [Exec.bind_ok (withCapacity_ok hc0 m)]
      rw [Exec.bind_ok (RawMemory.rawIndex_ok _ (by simp only []; omega) _)]
      rw [Exec.bind_ok (construct_from_ok hargs (by simpa using hpl))]
      rw [← hm2def]
      exact Exec.bind_thrown (Exec.tryCatchRethrow_thrown hrun (destroy_one hnew3))
    · rw [hmid, if_neg (by omega), hm2, if_pos rfl]
    · intro i hi
      obtain ⟨z, hz, hzm⟩ := hm2old i (by omega)
      have e : v.data_.buffer_ + (m.length + 1 + i - (m.length + 1)) = v.data_.buffer_ + i := by
        omega
      rw [if_pos (by omega), hmid, if_pos (by omega), e, hzm, hz]
    · rw [List.length_set]; omega
    · rw [cell_set _ _ _ _ hlt3, if_neg (by omega), hc3, if_neg (by omega), hm2,
        if_neg (by omega), if_pos ha]
    · rw [List.length_set] at ha2
      rw [cell_set _ _ _ _ hlt3]
      by_cases hA : a = m.length + 1 + p
      · rw [if_pos hA]
      · rw [if_neg hA, hc3]
        by_cases hB : m.length + 1 ≤ a ∧ a < m.length + 1 + k
        · rw [if_pos hB]
        · rw [if_neg hB, hm2, if_neg hA, if_neg (by omega), if_pos (by omega)]
  · -- the elements before the position are copied; the throw happens after it
    obtain ⟨m3, h3, hl3, hc3⟩ := CopyOrMoveElements_copy_spec p v.data_.buffer_ (m.length + 1)
      m2 hc
      (by
        intro i hi
        obtain ⟨z, hz, hzm⟩ := hm2old i (by omega)
        exact ⟨z, hzm, hpre i z (by omega) hz⟩)
      (fun _ => by omega)
      (fun _ => Or.inl (by have := hblk (p - 1) (by omega); omega))
    have hm3old : ∀ i, i < s.length → ∃ z, s[i]? = some z ∧
        m3[v.data_.buffer_ + i]? = some (some z) := by
      intro i hi
      obtain ⟨z, hz, hzm⟩ := hm2old i hi
      have := hblk i (by omega)
      refine ⟨z, hz, ?_⟩
      rw [hc3, if_neg (by omega), hzm]
    obtain ⟨mid, m4, hrun, hmid, hdes, hl4, hc4⟩ := CopyOrMoveElements_throw (v.size_ - p)
      (v.data_.buffer_ + p) (m.length + 1 + p + 1) (k - p) m3 x hc (by omega)
      (by
        intro i hi
        obtain ⟨z, hz, hzm⟩ := hm3old (p + i) (by omega)
        have e : v.data_.buffer_ + p + i = v.data_.buffer_ + (p + i) := by omega
        rw [e]
        exact ⟨z, hzm, hpre (p + i) z (by omega) hz⟩)
      (by
        obtain ⟨z, hz, hzm⟩ := hm3old k hk
        have e : v.data_.buffer_ + p + (k - p) = v.data_.buffer_ + k := by omega
        rw [e, hzm, ← hz, hx])
      hxt (fun _ => by omega)
      (Or.inl (by have := hblk k (by omega); omega))
    have hnewcells : ∀ i, i < p + 1 → ∃ y, m4[m.length + 1 + i]? = some (some y) := by
      intro i hi
      rw [hc4, if_neg (by omega), hc3]
      by_cases hA : i < p
      · obtain ⟨z, hz, hzm⟩ := hm2old i (by omega)
        have e : v.data_.buffer_ + (m.length + 1 + i - (m.length + 1)) = v.data_.buffer_ + i := by
          omega
        rw [if_pos (by omega), e, hzm]
        exact ⟨_, rfl⟩
      · have e : i = p := by omega
        subst e
        rw [if_neg (by omega), hm2, if_pos rfl]
        exact ⟨_, rfl⟩
    obtain ⟨m5, h5, hl5, hc5⟩ := destroy_n_spec (p + 1) (m.length + 1) m4 hnewcells
    refine ⟨mid, m4, m5, hunfold _ ?_, ?_, ?_, fun hlt => absurd hlt hkp,
      fun _ => ⟨hdes, h5⟩, by omega, fun a ha => ?_, fun a ha1 ha2 => ?_⟩
    · simp only [Vector.EmplaceInFullVector, Vector.begin, RawMemory.GetAddress, size_t_sub_add,
        hcdef]
      rw [Exec.bind_ok (withCapacity_ok hc0 m)]
      rw [Exec.bind_ok (RawMemory.rawIndex_ok _ (by simp only []; omega) _)]
      rw [Exec.bind_ok (construct_from_ok hargs (by simpa using hpl))]
      rw [← hm2def, Exec.bind_ok (Exec.tryCatchRethrow_ok h3)]
      rw [size_t_sub_le (by omega)]
      exact Exec.bind_thrown (Exec.tryCatchRethrow_thrown hrun h5)
    · rw [hmid, if_neg (by omega), hc3, if_neg (by omega), hm2, if_pos rfl]
    · intro i hi
      obtain ⟨z, hz, hzm⟩ := hm2old i (by omega)
      obtain ⟨z3, hz3, hzm3⟩ := hm3old i (by omega)
      rw [hmid]
      by_cases hA : i < p
      · have e : v.data_.buffer_ + (m.length + 1 + i - (m.length + 1)) = v.data_.buffer_ + i := by
          omega
        rw [if_pos hA, if_neg (by omega), hc3, if_pos (by omega), e, hzm, hz]
      · have e : v.data_.buffer_ + p + (m.length + 1 + (i + 1) - (m.length + 1 + p + 1)) =
            v.data_.buffer_ + i := by omega
        rw [if_neg hA, if_pos (by omega), e, hzm3, hz3]
    · rw [hc5, if_neg (by omega), hc4, if_neg (by omega), hc3, if_neg (by omega), hm2,
        if_neg (by omega), if_pos ha]
    · rw [hc5]
      by_cases hA : m.length + 1 ≤ a ∧ a < m.length + 1 + (p + 1)
      · rw [if_pos hA]
      · rw [if_neg hA, hc4]
        by_cases hB : m.length + 1 + p + 1 ≤ a ∧ a < m.length + 1 + p + 1 + (k - p)
        · rw [if_pos hB]
        · rw [if_neg hB, hc3, if_neg (by omega), hm2, if_neg (by omega), if_neg (by omega),
            if_pos (by omega)]

/-! ## Assertions and postconditions, independently of the memory -/

theorem Exec.Ensures.pure {Q : β → Prop} {b : β} (h : Q b) :
    Exec.Ensures (pure b : Exec α β) Q := by
  intro m
  refine ⟨(fun hh => nomatch hh), fun b1 m1 hh => ?_⟩
  have e : (Outcome.ok b m : Outcome α β) = .ok b1 m1 := hh
  injection e with e1 _
  exact e1 ▸ h

theorem Exec.Ensures.bind {x : Exec α β} {f : β → Exec α γ} {P : β → Prop} {Q : γ → Prop}
    (hx : x.Ensures P) (hf : ∀ b, P b → (f b).Ensures Q) : Exec.Ensures (x >>= f) Q := by
  intro m
  obtain ⟨h1, h2⟩ := hx m
  rcases hxm : x m with ⟨b, m1⟩ | m1 | e
  · rw [Exec.bind_ok hxm]
    exact hf b (h2 b m1 hxm) m1
  · rw [Exec.bind_thrown hxm]
    exact ⟨(fun hh => nomatch hh), fun _ _ hh => nomatch hh⟩
  · rw [Exec.bind_fault hxm]
    refine ⟨fun hh => ?_, fun _ _ hh => nomatch hh⟩
    injection hh with hh
    exact h1 (by rw [hxm, hh])

theorem Exec.Ensures.mono {x : Exec α β} {P Q : β → Prop} (hx : x.Ensures P)
    (h : ∀ b, P b → Q b) : x.Ensures Q :=
  fun m => ⟨(hx m).1, fun b m1 hh => h b ((hx m).2 b m1 hh)⟩

/-- A step whose value is not used. -/
theorem Exec.Ensures.seq {x : Exec α β} {y : Exec α γ} {P : β → Prop} {Q : γ → Prop}
    (hx : x.Ensures P) (hy : y.Ensures Q) : Exec.Ensures (x >>= fun _ => y) Q :=
  hx.bind (fun _ _ => hy)

theorem Exec.Ensures.throw {Q : β → Prop} : Exec.Ensures (Exec.throw : Exec α β) Q :=
  fun _ => ⟨(fun hh => nomatch hh), fun _ _ hh => nomatch hh⟩

theorem Exec.Ensures.undefined {Q : β → Prop} :
    Exec.Ensures (Exec.fail .undefined : Exec α β) Q :=
  fun _ => ⟨(fun hh => nomatch hh), fun _ _ hh => nomatch hh⟩

theorem Exec.Ensures.assert {c : Bool} (h : c = true) :
    Exec.Ensures (Exec.assert c : Exec α Unit) (fun _ => True) := by
  subst h
  exact fun _ => ⟨(fun hh => nomatch hh), fun _ _ _ => trivial⟩

theorem Exec.Ensures.tryCatchRethrow {body : Exec α β} {handler : Exec α Unit}
    {P : Unit → Prop} {Q : β → Prop} (hb : body.Ensures Q) (hh : handler.Ensures P) :
    Exec.Ensures (Exec.tryCatchRethrow body handler) Q := by
  intro m
  obtain ⟨h1, h2⟩ := hb m
  simp only [Exec.tryCatchRethrow]
  rcases hbm : body m with ⟨b, m1⟩ | m1 | e
  · exact ⟨(fun hh => nomatch hh), fun b1 m2 hh => by
      injection hh with e1 e2
      exact e1 ▸ h2 b m1 hbm⟩
  · simp only []
    obtain ⟨h3, _⟩ := hh m1
    rcases hhm : handler m1 with ⟨u, m2⟩ | m2 | e
    · exact ⟨(fun hh => nomatch hh), fun _ _ hh => nomatch hh⟩
    · exact ⟨(fun hh => nomatch hh), fun _ _ hh => nomatch hh⟩
    · refine ⟨fun hh => ?_, fun _ _ hh => nomatch hh⟩
      injection hh with hh
      exact h3 (by rw [hhm, hh])
  · refine ⟨fun hh => ?_, fun _ _ hh => nomatch hh⟩
    injection hh with hh
    exact h1 (by rw [hbm, hh])

theorem load_ensures (p : Nat) : (load p : Exec α α).Ensures (fun _ => True) := by
  intro m
  simp only [load]
  split
  · exact ⟨(fun hh => nomatch hh), fun _ _ _ => trivial⟩
  · exact ⟨(fun hh => nomatch hh), fun _ _ hh => nomatch hh⟩

theorem store_ensures (p : Nat) (x : α) : (store p x : Exec α Unit).Ensures (fun _ => True) := by
  intro m
  simp only [store]
  split
  · exact ⟨(fun hh => nomatch hh), fun _ _ _ => trivial⟩
  · exact ⟨(fun hh => nomatch hh), fun _ _ hh => nomatch hh⟩

theorem construct_at_ensures (p : Nat) (x : α) :
    (construct_at p x : Exec α Unit).Ensures (fun _ => True) := by
  intro m
  simp only [construct_at]
  split
  · exact ⟨(fun hh => nomatch hh), fun _ _ _ => trivial⟩
  · exact ⟨(fun hh => nomatch hh), fun _ _ hh => nomatch hh⟩

theorem destroy_at_ensures (p : Nat) : (destroy_at p : Exec α Unit).Ensures (fun _ => True) := by
  intro m
  simp only [destroy_at]
  split
  · exact ⟨(fun hh => nomatch hh), fun _ _ _ => trivial⟩
  · exact ⟨(fun hh => nomatch hh), fun _ _ hh => nomatch hh⟩

theorem construct_from_ensures [Elem α] (p : Nat) (args : CtorArgs α) :
    (construct_from p args).Ensures (fun _ => True) := by
  simp only [construct_from]
  split
  · exact Exec.Ensures.throw
  · exact construct_at_ensures p _

theorem move_construct_ensures [Elem α] (src dst : Nat) :
    (move_construct src dst : Exec α Unit).Ensures (fun _ => True) :=
  (load_ensures src).bind (fun _ _ => (store_ensures _ _).seq (construct_at_ensures _ _))

theorem move_assign_ensures [Elem α] (src dst : Nat) :
    (move_assign src dst : Exec α Unit).Ensures (fun _ => True) :=
  (load_ensures src).bind (fun _ _ => (store_ensures _ _).seq (store_ensures _ _))

theorem copy_assign_ensures (src dst : Nat) :
    (copy_assign src dst : Exec α Unit).Ensures (fun _ => True) :=
  (load_ensures src).bind (fun _ _ => store_ensures _ _)

theorem destroy_n_ensures (n : Nat) : ∀ first : Nat,
    (destroy_n first n : Exec α Unit).Ensures (fun _ => True) := by
  induction n with
  | zero => exact fun _ => Exec.Ensures.pure trivial
  | succ n ih => exact fun first => (destroy_at_ensures first).seq (ih (first + 1))

theorem uninitialized_value_construct_n_ensures [Elem α] (n : Nat) : ∀ first : Nat,
    (uninitialized_value_construct_n first n : Exec α Unit).Ensures (fun _ => True) := by
  induction n with
  | zero => exact fun _ => Exec.Ensures.pure trivial
  | succ n ih => exact fun first => (construct_at_ensures first _).seq (ih (first + 1))

theorem uninitialized_copy_loop_ensures [Elem α] (d_first n : Nat) : ∀ src cur : Nat,
    (uninitialized_copy_loop d_first n src cur : Exec α Unit).Ensures (fun _ => True) := by
  induction n with
  | zero => exact fun _ _ => Exec.Ensures.pure trivial
  | succ n ih =>
    intro src cur
    refine (load_ensures src).bind (fun x _ => ?_)
    by_cases hx : Elem.copyThrows x = true
    · simp only [hx, if_true]
      exact (destroy_n_ensures _ _).seq Exec.Ensures.throw
    · simp only [hx, Bool.false_eq_true, if_false]
      exact (construct_at_ensures cur x).seq (ih (src + 1) (cur + 1))

theorem uninitialized_move_n_ensures [Elem α] (n : Nat) : ∀ first d_first : Nat,
    (uninitialized_move_n first n d_first : Exec α Unit).Ensures (fun _ => True) := by
  induction n with
  | zero => exact fun _ _ => Exec.Ensures.pure trivial
  | succ n ih =>
    exact fun first d_first => (move_construct_ensures first d_first).seq (ih _ _)

theorem move_backward_ensures [Elem α] (first last d_last : Nat) :
    (move_backward first last d_last : Exec α Nat).Ensures (fun _ => True) := by
  have hloop : ∀ n last d_last : Nat,
      (move_backward_loop n last d_last : Exec α Unit).Ensures (fun _ => True) := by
    intro n
    induction n with
    | zero => exact fun _ _ => Exec.Ensures.pure trivial
    | succ n ih => exact fun last d_last => (move_assign_ensures _ _).seq (ih _ _)
  simp only [move_backward]
  split
  · exact Exec.Ensures.undefined
  · exact (hloop _ _ _).seq (Exec.Ensures.pure trivial)

theorem move_range_ensures [Elem α] (first last d_first : Nat) :
    (move_range first last d_first : Exec α Nat).Ensures (fun _ => True) := by
  have hloop : ∀ n first d_first : Nat,
      (move_loop n first d_first : Exec α Unit).Ensures (fun _ => True) := by
    intro n
    induction n with
    | zero => exact fun _ _ => Exec.Ensures.pure trivial
    | succ n ih => exact fun first d_first => (move_assign_ensures _ _).seq (ih _ _)
  simp only [move_range]
  split
  · exact Exec.Ensures.undefined
  · exact (hloop _ _ _).seq (Exec.Ensures.pure trivial)

theorem CopyOrMoveElements_ensures [Elem α] (src dst count : Nat) :
    (Vector.CopyOrMoveElements src dst count : Exec α Unit).Ensures (fun _ => True) := by
  simp only [Vector.CopyOrMoveElements]
  split
  · exact uninitialized_move_n_ensures _ _ _
  · exact uninitialized_copy_loop_ensures _ _ _ _

theorem withCapacity_ensures (n : Nat) :
    (RawMemory.withCapacity n : Exec α (RawMemory α)).Ensures (fun r => r.capacity_ = n) := by
  have halloc : (RawMemory.Allocate n : Exec α Nat).Ensures (fun _ => True) := by
    simp only [RawMemory.Allocate]
    split
    · exact fun m => ⟨(fun hh => nomatch hh), fun _ _ _ => trivial⟩
    · exact Exec.Ensures.pure trivial
  exact halloc.bind (fun _ _ => Exec.Ensures.pure rfl)

theorem RawMemory.add_ensures (r : RawMemory α) (offset : Nat) (h : offset ≤ r.capacity_) :
    (r.add offset).Ensures (fun _ => True) :=
  (Exec.Ensures.assert (decide_eq_true h)).seq (Exec.Ensures.pure trivial)

theorem RawMemory.rawIndex_ensures (r : RawMemory α) (i : Nat) (h : i < r.capacity_) :
    (r.index i).Ensures (fun _ => True) :=
  (Exec.Ensures.assert (decide_eq_true h)).seq (Exec.Ensures.pure trivial)

theorem RawMemory.rawDestroy_ensures (r : RawMemory α) : r.destroy.Ensures (fun _ => True) :=
  Exec.Ensures.pure trivial

theorem Vector.vectorIndex_ensures (v : Vector α) (i : Nat) (hi : i < v.size_)
    (hv : v.size_ ≤ v.data_.capacity_) : (v.index i).Ensures (fun _ => True) :=
  (Exec.Ensures.assert (decide_eq_true hi)).seq (RawMemory.rawIndex_ensures _ _ (by omega))

theorem ConstructElements_ensures [Elem α] (v : Vector α) (new_data : RawMemory α) :
    (v.ConstructElements new_data).Ensures
      (fun r => r.1.size_ = v.size_ ∧ r.1.data_.capacity_ = new_data.capacity_) :=
  (CopyOrMoveElements_ensures _ _ _).seq
    ((destroy_n_ensures _ _).seq (Exec.Ensures.pure ⟨rfl, rfl⟩))

theorem sized_ensures [Elem α] (n : Nat) :
    (Vector.sized n : Exec α (Vector α)).Ensures
      (fun v => v.size_ = n ∧ v.data_.capacity_ = n) :=
  (withCapacity_ensures n).bind (fun _ hr =>
    (uninitialized_value_construct_n_ensures _ _).seq (Exec.Ensures.pure ⟨rfl, hr⟩))

theorem copyCtor_ensures [Elem α] (other : Vector α) :
    other.copyCtor.Ensures
      (fun v => v.size_ = other.size_ ∧ v.data_.capacity_ = other.size_) :=
  (withCapacity_ensures _).bind (fun _ hr =>
    (uninitialized_copy_loop_ensures _ _ _ _).seq (Exec.Ensures.pure ⟨rfl, hr⟩))

theorem Vector.vectorDestroy_ensures (v : Vector α) : v.destroy.Ensures (fun _ => True) :=
  (destroy_n_ensures _ _).seq (RawMemory.rawDestroy_ensures _)

theorem Reserve_ensures [Elem α] (v : Vector α) (n : Nat) (hv : v.size_ ≤ v.data_.capacity_) :
    (v.Reserve n).Ensures
      (fun v1 => v1.size_ = v.size_ ∧ v.size_ ≤ v1.data_.capacity_ ∧
        n ≤ v1.data_.capacity_) := by
  simp only [Vector.Reserve, RawMemory.Capacity]
  split
  · exact Exec.Ensures.pure ⟨rfl, hv, by assumption⟩
  · refine (withCapacity_ensures n).bind (fun r hr => ?_)
    refine (ConstructElements_ensures v r).bind (fun p hp => ?_)
    obtain ⟨v1, old⟩ := p
    have h1 : v1.size_ = v.size_ := hp.1
    have h2 : v1.data_.capacity_ = r.capacity_ := hp.2
    exact (RawMemory.rawDestroy_ensures _).seq (Exec.Ensures.pure ⟨h1, by omega, by omega⟩)

theorem Resize_ensures [Elem α] (v : Vector α) (n : Nat) (hv : v.size_ ≤ v.data_.capacity_) :
    (v.Resize n).Ensures (fun v1 => v1.size_ ≤ v1.data_.capacity_) := by
  simp only [Vector.Resize]
  split
  · exact Exec.Ensures.pure hv
  · have hinner : Exec.Ensures
        (if n < v.size_ then do
            destroy_n (v.data_.GetAddress + n) (size_t_sub v.size_ n)
            pure v
          else do
            let v ← v.Reserve n
            uninitialized_value_construct_n (v.data_.GetAddress + v.size_)
              (size_t_sub n v.size_)
            pure v : Exec α (Vector α))
        (fun v1 => n ≤ v1.data_.capacity_) := by
      split
      · exact (destroy_n_ensures _ _).seq (Exec.Ensures.pure (by omega))
      · exact (Reserve_ensures v n hv).bind (fun v1 h1 =>
          (uninitialized_value_construct_n_ensures _ _).seq (Exec.Ensures.pure h1.2.2))
    exact hinner.bind (fun v1 h1 => Exec.Ensures.pure h1)

theorem EmplaceBack_ensures [Elem α] (v : Vector α) (args : CtorArgs α)
    (hv : v.size_ ≤ v.data_.capacity_) :
    (v.EmplaceBack args).Ensures (fun r => r.2.size_ ≤ r.2.data_.capacity_) := by
  simp only [Vector.EmplaceBack, Vector.Capacity, RawMemory.Capacity]
  have hinner : Exec.Ensures
      (if v.size_ = v.data_.capacity_ then do
          let new_data ← RawMemory.withCapacity (if v.size_ = 0 then 1 else v.size_ * 2)
          let p ← new_data.add v.size_
          construct_from p args
          let (v, new_data) ← v.ConstructElements new_data
          new_data.destroy
          pure v
        else do
          let p ← v.data_.add v.size_
          construct_from p args
          pure v : Exec α (Vector α))
      (fun v1 => v1.size_ < v1.data_.capacity_) := by
    split
    · refine (withCapacity_ensures _).bind (fun r hr => ?_)
      have hr1 : v.size_ < r.capacity_ := by rw [hr]; split <;> omega
      refine (RawMemory.add_ensures r _ (by omega)).bind (fun p _ => ?_)
      refine (construct_from_ensures p args).seq ?_
      refine (ConstructElements_ensures v r).bind (fun q hq => ?_)
      obtain ⟨v1, old⟩ := q
      have h1 : v1.size_ = v.size_ := hq.1
      have h2 : v1.data_.capacity_ = r.capacity_ := hq.2
      exact (RawMemory.rawDestroy_ensures _).seq (Exec.Ensures.pure (by omega))
    · refine (RawMemory.add_ensures _ _ hv).bind (fun p _ => ?_)
      exact (construct_from_ensures p args).seq (Exec.Ensures.pure (by omega))
  refine hinner.bind (fun v1 h1 => ?_)
  exact (RawMemory.rawIndex_ensures _ _ h1).bind (fun _ _ => Exec.Ensures.pure (by
    simp only []; omega))

theorem PopBack_ensures (v : Vector α) (hv : v.size_ ≤ v.data_.capacity_) (hne : 0 < v.size_) :
    v.PopBack.Ensures (fun v1 => v1.size_ ≤ v1.data_.capacity_) := by
  simp only [Vector.PopBack]
  refine (destroy_at_ensures _).seq (Exec.Ensures.pure ?_)
  simp only [size_t_dec, if_neg (Nat.pos_iff_ne_zero.mp hne)]
  omega

/-- The member `PopBack()` contains no assertion. -/
theorem PopBack_no_assertion (v : Vector α) (m : Memory α) :
    v.PopBack m ≠ .fault .assertion := by
  have h : v.PopBack.Ensures (fun _ => True) := by
    simp only [Vector.PopBack]
    exact (destroy_at_ensures _).seq (Exec.Ensures.pure trivial)
  exact (h m).1

theorem EmplaceInFullVector_ensures [Elem α] (v : Vector α) (p : Nat) (args : CtorArgs α)
    (hp : p ≤ v.size_) :
    (v.EmplaceInFullVector (v.begin + p) args).Ensures
      (fun v1 => v1.size_ = v.size_ ∧ v.size_ < v1.data_.capacity_) := by
  simp only [Vector.EmplaceInFullVector, Vector.begin, RawMemory.GetAddress, size_t_sub_add]
  refine (withCapacity_ensures _).bind (fun r hr => ?_)
  have hr1 : v.size_ < r.capacity_ := by rw [hr]; split <;> omega
  refine (RawMemory.rawIndex_ensures r _ (by omega)).bind (fun q _ => ?_)
  refine (construct_from_ensures q args).seq ?_
  refine (Exec.Ensures.tryCatchRethrow (CopyOrMoveElements_ensures _ _ _)
    (destroy_n_ensures _ _)).seq ?_
  refine (Exec.Ensures.tryCatchRethrow (CopyOrMoveElements_ensures _ _ _)
    (destroy_n_ensures _ _)).seq ?_
  refine (destroy_n_ensures _ _).seq ?_
  exact (RawMemory.rawDestroy_ensures _).seq (Exec.Ensures.pure ⟨rfl, hr1⟩)

theorem Emplace_ensures [Elem α] (v : Vector α) (p : Nat) (args : CtorArgs α)
    (hv : v.size_ ≤ v.data_.capacity_) (hp : p ≤ v.size_) :
    (v.Emplace (v.begin + p) args).Ensures (fun r => r.2.size_ ≤ r.2.data_.capacity_) := by
  have hfullv := EmplaceInFullVector_ensures v p args hp
  simp only [Vector.Emplace, Vector.Capacity, RawMemory.Capacity]
  have hinner : Exec.Ensures
      (if v.size_ = v.data_.capacity_ then
          v.EmplaceInFullVector (v.begin + p) args
        else if v.size_ = 0 then do
          construct_from v.data_.GetAddress args
          pure v
        else do
          let value ← operator_new 1
          construct_from value args
          let last ← v.data_.index (v.size_ - 1)
          move_construct last v.end_
          let _ ← move_backward (v.begin + size_t_sub (v.begin + p) v.begin) (v.end_ - 1) v.end_
          let slot ← v.data_.index (size_t_sub (v.begin + p) v.begin)
          move_assign value slot
          destroy_at value
          operator_delete value
          pure v : Exec α (Vector α))
      (fun v1 => v1.size_ < v1.data_.capacity_) := by
    split
    · exact hfullv.mono (fun v1 h1 => by omega)
    · split
      · exact (construct_from_ensures _ args).seq (Exec.Ensures.pure (by omega))
      · have hnew : (operator_new 1 : Exec α Nat).Ensures (fun _ => True) :=
          fun m => ⟨(fun hh => nomatch hh), fun _ _ _ => trivial⟩
        refine hnew.bind (fun value _ => ?_)
        refine (construct_from_ensures value args).seq ?_
        refine (RawMemory.rawIndex_ensures _ _ (by omega)).bind (fun last _ => ?_)
        refine (move_construct_ensures _ _).seq ?_
        refine (move_backward_ensures _ _ _).seq ?_
        simp only [Vector.begin, RawMemory.GetAddress, size_t_sub_add]
        refine (RawMemory.rawIndex_ensures _ _ (by omega)).bind (fun slot _ => ?_)
        refine (move_assign_ensures _ _).seq ?_
        refine (destroy_at_ensures _).seq ?_
        exact Exec.Ensures.seq (P := fun _ => True) (Exec.Ensures.pure trivial)
          (Exec.Ensures.pure (by omega))
  exact hinner.bind (fun v1 h1 => Exec.Ensures.pure (by simp only []; omega))

theorem Erase_ensures [Elem α] (v : Vector α) (pos : Nat) (hv : v.size_ ≤ v.data_.capacity_)
    (hne : 0 < v.size_) :
    (v.Erase pos).Ensures (fun r => r.2.size_ ≤ r.2.data_.capacity_) := by
  simp only [Vector.Erase]
  refine (move_range_ensures _ _ _).seq ?_
  refine (destroy_n_ensures _ _).seq (Exec.Ensures.pure ?_)
  simp only [size_t_dec, if_neg (Nat.pos_iff_ne_zero.mp hne)]
  omega

theorem CopyElementsLoop_ensures (v rhs : Vector α) (hv : v.size_ ≤ v.data_.capacity_)
    (hr : rhs.size_ ≤ rhs.data_.capacity_) (n : Nat) : ∀ index : Nat,
    index + n ≤ v.size_ → index + n ≤ rhs.size_ →
    (v.CopyElementsLoop rhs n index).Ensures (fun _ => True) := by
  induction n with
  | zero => exact fun _ _ _ => Exec.Ensures.pure trivial
  | succ n ih =>
    intro index h1 h2
    refine (Vector.vectorIndex_ensures rhs index (by omega) hr).bind (fun src _ => ?_)
    refine (Vector.vectorIndex_ensures v index (by omega) hv).bind (fun dst _ => ?_)
    exact (copy_assign_ensures src dst).seq (ih (index + 1) (by omega) (by omega))

theorem CopyExistingElements_ensures [Elem α] (v rhs : Vector α)
    (hv : v.size_ ≤ v.data_.capacity_) (hr : rhs.size_ ≤ rhs.data_.capacity_) :
    (v.CopyExistingElements rhs).Ensures
      (fun v1 => v1.size_ = rhs.size_ ∧ v1.data_ = v.data_) := by
  simp only [Vector.CopyExistingElements, Vector.CopyElements]
  split
  · refine (CopyElementsLoop_ensures v rhs hv hr _ 0 (by omega) (by omega)).seq ?_
    refine (destroy_n_ensures _ _).seq ?_
    exact Exec.Ensures.pure ⟨rfl, rfl⟩
  · refine (CopyElementsLoop_ensures v rhs hv hr _ 0 (by omega) (by omega)).seq ?_
    refine (uninitialized_copy_loop_ensures _ _ _ _).seq ?_
    exact Exec.Ensures.pure ⟨rfl, rfl⟩

theorem copyAssign_ensures [Elem α] (v rhs : Vector α) (same : Bool)
    (hv : v.size_ ≤ v.data_.capacity_) (hr : rhs.size_ ≤ rhs.data_.capacity_) :
    (v.copyAssign rhs same).Ensures (fun v1 => v1.size_ ≤ v1.data_.capacity_) := by
  simp only [Vector.copyAssign, RawMemory.Capacity]
  split
  · exact Exec.Ensures.pure hv
  · split
    · refine (copyCtor_ensures rhs).bind (fun c hc => ?_)
      exact (Vector.vectorDestroy_ensures _).seq (Exec.Ensures.pure (by
        simp only [Vector.Swap]; omega))
    · exact (CopyExistingElements_ensures v rhs hv hr).mono (fun v1 h1 => by
        rw [h1.1, h1.2]; omega)

theorem moveAssign_ensures (v rhs : Vector α) (hr : rhs.size_ ≤ rhs.data_.capacity_) :
    (v.moveAssign rhs).Ensures
      (fun r => r.1.size_ ≤ r.1.data_.capacity_ ∧ r.2.size_ ≤ r.2.data_.capacity_) := by
  have hraw : (v.data_.moveAssign rhs.data_).Ensures
      (fun r => r.1.capacity_ = rhs.data_.capacity_ ∧ r.2.capacity_ = 0) :=
    Exec.Ensures.seq (P := fun _ => True) (Exec.Ensures.pure trivial)
      (Exec.Ensures.pure ⟨rfl, rfl⟩)
  refine hraw.bind (fun r hr1 => ?_)
  obtain ⟨d, rest⟩ := r
  have e1 : d.capacity_ = rhs.data_.capacity_ := hr1.1
  have e2 : rest.capacity_ = 0 := hr1.2
  exact Exec.Ensures.pure ⟨by show rhs.size_ ≤ d.capacity_; omega, Nat.zero_le _⟩

/-- The member `PopBack()` on a non-empty vector in a valid state: the last element is
destroyed and the size is one less. -/
theorem PopBack_spec (v : Vector α) (m : Memory α) (s : List α)
    (h : v.Holds m s) (hne : 0 < s.length) :
    ∃ m1, v.PopBack m = .ok { data_ := v.data_, size_ := v.size_ - 1 } m1 ∧
      Vector.Holds { data_ := v.data_, size_ := v.size_ - 1 } m1 s.dropLast ∧
      Vector.Frame v m m1 := by
  obtain ⟨hsz, hcap, hcells⟩ := h
  have h : v.Holds m s := ⟨hsz, hcap, hcells⟩
  obtain ⟨xl, hxl⟩ := exists_getElem? s (i := s.length - 1) (by omega)
  have hlast : m[v.data_.buffer_ + (s.length - 1)]? = some (some xl) := by
    rw [hcells _ (by omega), hxl]
  have hlt := live_lt hlast
  refine ⟨m.set (v.data_.buffer_ + (s.length - 1)) none, ?_, ⟨?_, ?_, ?_⟩, ?_, ?_⟩
  · simp only [Vector.PopBack, RawMemory.GetAddress, size_t_dec, if_neg (show v.size_ ≠ 0 by omega)]
    rw [hsz, Exec.bind_ok (destroy_at_ok hlast)]
    rfl
  · simp only [List.length_dropLast]; omega
  · simp only [List.length_dropLast]; omega
  · intro i hi
    have hi : i < v.data_.capacity_ := hi
    show (m.set (v.data_.buffer_ + (s.length - 1)) none)[v.data_.buffer_ + i]? =
      some s.dropLast[i]?
    rw [cell_set _ _ _ _ hlt, List.getElem?_dropLast]
    by_cases hA : i = s.length - 1
    · rw [if_pos (by omega), if_neg (by omega)]
    · rw [if_neg (by omega), hcells i hi]
      by_cases hB : i < s.length - 1
      · rw [if_pos hB]
      · rw [if_neg hB, List.getElem?_eq_none (by omega)]
  · rw [List.length_set]
  · intro a ha hout
    rw [cell_set _ _ _ _ hlt, if_neg (by omega)]

theorem PushBack_ensures [Elem α] (v : Vector α) (x : α) (hv : v.size_ ≤ v.data_.capacity_) :
    (v.PushBack x).Ensures (fun v1 => v1.size_ ≤ v1.data_.capacity_) := by
  refine (EmplaceBack_ensures v (.copy x) hv).bind (fun r hr => ?_)
  obtain ⟨a, v1⟩ := r
  exact Exec.Ensures.pure hr

theorem PushBackMove_ensures [Elem α] (v : Vector α) (x : α)
    (hv : v.size_ ≤ v.data_.capacity_) :
    (v.PushBackMove x).Ensures (fun v1 => v1.size_ ≤ v1.data_.capacity_) := by
  refine (EmplaceBack_ensures v (.make x) hv).bind (fun r hr => ?_)
  obtain ⟨a, v1⟩ := r
  exact Exec.Ensures.pure hr

theorem RawMemory.add_assertion (r : RawMemory α) (offset : Nat) (m : Memory α) :
    (r.add offset m = .fault .assertion ↔ ¬ offset ≤ r.capacity_) ∧
    (offset ≤ r.capacity_ → r.add offset m = .ok (r.buffer_ + offset) m) := by
  by_cases h : offset ≤ r.capacity_
  · have e : r.add offset m = .ok (r.buffer_ + offset) m := RawMemory.add_ok r h m
    exact ⟨⟨fun hh => by rw [e] at hh; exact Outcome.noConfusion hh, fun hh => absurd h hh⟩,
      fun _ => e⟩
  · have e : r.add offset m = .fault .assertion := by
      simp only [RawMemory.add]
      exact Exec.bind_fault (by simp [Exec.assert, h])
    exact ⟨⟨fun _ => h, fun _ => e⟩, fun hh => absurd hh h⟩

theorem RawMemory.rawIndex_assertion (r : RawMemory α) (i : Nat) (m : Memory α) :
    (r.index i m = .fault .assertion ↔ ¬ i < r.capacity_) ∧
    (i < r.capacity_ → r.index i m = .ok (r.buffer_ + i) m) := by
  by_cases h : i < r.capacity_
  · have e : r.index i m = .ok (r.buffer_ + i) m := RawMemory.rawIndex_ok r h m
    exact ⟨⟨fun hh => by rw [e] at hh; exact Outcome.noConfusion hh, fun hh => absurd h hh⟩,
      fun _ => e⟩
  · have e : r.index i m = .fault .assertion := by
      simp only [RawMemory.index]
      exact Exec.bind_fault (by simp [Exec.assert, h])
    exact ⟨⟨fun _ => h, fun _ => e⟩, fun hh => absurd hh h⟩

theorem vectorIndex_out_of_range (v : Vector α) (i : Nat) (m : Memory α) (h : v.size_ ≤ i) :
    v.index i m = .fault .assertion := by
  simp only [Vector.index]
  exact Exec.bind_fault (by simp [Exec.assert]; omega)

/-! ## Allocation by byte count -/

/-- When the product `n * sizeof(T)` fits a `size_t` and the request is satisfied,
`Allocate(n)` hands out a block of `n` cells. -/
theorem Allocate_fits (A : Allocator) (n : Nat) (hn : n * A.sizeofT < 2 ^ 64)
    (hfit : n * A.sizeofT ≤ A.available) :
    (A.Allocate n : Exec α Nat) = RawMemory.Allocate n := by
  funext m
  by_cases h0 : n = 0
  · simp [Allocator.Allocate, RawMemory.Allocate, h0]
  · simp only [Allocator.Allocate, RawMemory.Allocate, ne_eq, h0, not_false_eq_true, if_true,
      Allocator.operator_new, AdvancedVector.operator_new, Nat.mod_eq_of_lt hn,
      if_neg (Nat.not_lt.mpr hfit), Nat.mul_div_cancel n A.sizeofT_pos]

theorem withCapacity_fits (A : Allocator) (n : Nat) (hn : n * A.sizeofT < 2 ^ 64)
    (hfit : n * A.sizeofT ≤ A.available) :
    (A.withCapacity n : Exec α (RawMemory α)) = RawMemory.withCapacity n := by
  simp only [Allocator.withCapacity, RawMemory.withCapacity, Allocate_fits A n hn hfit]

theorem Reserve_fits [Elem α] (A : Allocator) (v : Vector α) (n : Nat)
    (hn : v.data_.capacity_ < n → n * A.sizeofT < 2 ^ 64 ∧ n * A.sizeofT ≤ A.available) :
    A.Reserve v n = v.Reserve n := by
  simp only [Allocator.Reserve, Vector.Reserve, RawMemory.Capacity]
  by_cases h : n ≤ v.data_.capacity_
  · rw [if_pos h, if_pos h]
  · rw [if_neg h, if_neg h, withCapacity_fits A n (hn (by omega)).1 (hn (by omega)).2]

/-- A request that exceeds what is available: `std::bad_alloc` leaves and the memory is as it was. -/
theorem withCapacity_bad_alloc (A : Allocator) (n : Nat) (m : Memory α) (h0 : n ≠ 0)
    (hbig : A.available < n * A.sizeofT % 2 ^ 64) :
    (A.withCapacity n : Exec α (RawMemory α)) m = .thrown m := by
  simp only [Allocator.withCapacity]
  refine Exec.bind_thrown ?_
  simp only [Allocator.Allocate, ne_eq, h0, not_false_eq_true, if_true, Allocator.operator_new,
    if_pos hbig]

theorem Reserve_bad_alloc [Elem α] (A : Allocator) (v : Vector α) (n : Nat) (m : Memory α)
    (hn : v.data_.capacity_ < n) (hbig : A.available < n * A.sizeofT % 2 ^ 64) :
    A.Reserve v n m = .thrown m := by
  simp only [Allocator.Reserve, RawMemory.Capacity]
  rw [if_neg (by omega)]
  exact Exec.bind_thrown (withCapacity_bad_alloc A n m (by omega) hbig)

/-- C2. Inserting at `end()` of a non-empty vector that has spare capacity. Three
`PushBack` calls on a default-constructed vector give three elements with
capacity 4; `Insert(end(), x)` then takes the in-place branch of `Emplace`,
which moves the last element into the raw cell behind it and calls
`std::move_backward(begin() + 3, end() - 1, end())`, a range whose end precedes
its start: undefined behaviour, not the old elements followed by `x`. This is
so for `Vector<std::string>` on `{"a", "b", "c"}` and for `Vector<int>` on
`{10, 20, 30}`. The same call on the full vector `{10, 20, 30, 40}` (the branch
`EmplaceInFullVector`) returns with the elements `{10, 20, 30, 40, 50}` in a
new block of capacity 8. -/
theorem C2_insert_at_end_below_capacity_undefined :
    (do
      let v ← threeStrings
      v.Insert v.end_ "d" : Exec String (Nat × Vector String)) [] = .fault .undefined ∧
    (do
      let v ← threeInts
      v.Insert v.end_ 40 : Exec Int (Nat × Vector Int)) [] = .fault .undefined ∧
    (do
      let v ← threeInts
      let v ← v.PushBack 40
      v.Insert v.end_ 50 : Exec Int (Nat × Vector Int)) [] =
      .ok (15, ⟨⟨11, 8⟩, 5⟩)
        [none, none, none, none, none, none, none, none, none, none, none,
         some 10, some 20, some 30, some 40, some 50, none, none, none] := by
  have h4 : threeIntsVector.PushBack 40 threeIntsMemory =
      .ok ⟨⟨6, 4⟩, 4⟩
        [none, none, none, none, none, none, some 10, some 20, some 30, some 40] := rfl
  refine ⟨?_, ?_, ?_⟩
  · rw [Exec.bind_ok threeStrings_run]
    rfl
  · rw [Exec.bind_ok threeInts_run]
    rfl
  · rw [Exec.bind_ok threeInts_run, Exec.bind_ok h4]
    rfl

/-- C3. Erasing at an index `p < Size()` of a vector in a valid state returns;
afterwards the elements are those of before without the one at index `p`
(those before `p` read as before at their index, those after it one index
lower), the size is smaller by exactly one, the capacity is the same, and the
iterator returned has index `p`: it points to the element that followed the
erased one, and it is `end()` when the last element was erased. -/
theorem C3_erase [Elem α] (v : Vector α) (m : Memory α) (s : List α) (p : Nat)
    (h : v.Holds m s) (hp : p < s.length) :
    ∃ pos v1 m1, v.Erase (v.begin + p) m = .ok (pos, v1) m1 ∧
      v1.Holds m1 (s.eraseIdx p) ∧
      (∀ i x, i < p → s[i]? = some x → v1.read i m1 = .ok x m1) ∧
      (∀ i x, p ≤ i → s[i + 1]? = some x → v1.read i m1 = .ok x m1) ∧
      v1.Size + 1 = v.Size ∧
      v1.Capacity = v.Capacity ∧
      pos = v1.begin + p ∧
      (∀ x, s[p + 1]? = some x → load pos m1 = .ok x m1) ∧
      (p + 1 = s.length → pos = v1.end_) := by
  obtain ⟨m1, hrun, hh, _, _⟩ := Erase_spec v m s p h hp
  have hsz := h.1
  refine ⟨_, _, m1, hrun, hh, ?_, ?_, ?_, rfl, rfl, ?_, ?_⟩
  · intro i x hi hx
    refine read_spec hh ?_
    rw [List.getElem?_eraseIdx, if_pos hi, hx]
  · intro i x hi hx
    refine read_spec hh ?_
    rw [List.getElem?_eraseIdx, if_neg (by omega), hx]
  · simp only [Vector.Size]; omega
  · intro x hx
    have hlt : p + 1 < s.length := by
      obtain ⟨h1, _⟩ := List.getElem?_eq_some_iff.mp hx
      exact h1
    refine load_ok ?_
    have := hh.cell (i := p) (by have := h.2.1; show p < v.data_.capacity_; omega)
    rw [List.getElem?_eraseIdx, if_neg (by omega), hx] at this
    exact this
  · intro hlast
    simp only [Vector.end_, RawMemory.GetAddress]
    omega

/-- Instance of C3: erasing index 1 of `{10, 20, 30}`. -/
theorem C3_erase_witness :
    threeIntsVector.Holds threeIntsMemory [10, 20, 30] ∧
    ∃ pos v1 m1, threeIntsVector.Erase (threeIntsVector.begin + 1) threeIntsMemory =
        .ok (pos, v1) m1 ∧
      v1.Holds m1 [10, 30] ∧ v1.Size + 1 = threeIntsVector.Size ∧
      v1.Capacity = threeIntsVector.Capacity ∧ pos = v1.begin + 1 ∧
      load pos m1 = .ok 30 m1 := by
  refine ⟨threeInts_holds, ?_⟩
  obtain ⟨pos, v1, m1, hrun, hh, _, _, hsz, hcap, hpos, hnext, _⟩ :=
    C3_erase threeIntsVector threeIntsMemory [10, 20, 30] 1 threeInts_holds (by decide)
  exact ⟨pos, v1, m1, hrun, hh, hsz, hcap, hpos, hnext 30 rfl⟩

/-- C7. Copy-constructing from a vector `C` in a valid state, no copy
constructor throwing, returns a vector `C2` with `Size() == C.Size()`,
`Capacity() == C.Size()` and `C2[i] == C[i]` for every index; `C` holds the
same elements afterwards. Whatever mutations of `C2` follow (appends, inserts,
erasures, resizes, element writes, each within its contract and returning),
`C` still holds the same elements at the same indices, with its size and
capacity fields untouched, and `C2` holds what the mutations produce. -/
theorem C7_copy_independent [Elem α] (C : Vector α) (m : Memory α) (s : List α)
    (h : C.Holds m s) (ht : Vector.CopyNoThrow s) :
    ∃ C2 m1, C.copyCtor m = .ok C2 m1 ∧
      C2.Size = C.Size ∧ C2.Capacity = C.Size ∧
      C2.Holds m1 s ∧ C.Holds m1 s ∧
      (∀ i x, s[i]? = some x → C2.read i m1 = .ok x m1 ∧ C.read i m1 = .ok x m1) ∧
      ∀ C3 m2 s3, Mutated C2 m1 s C3 m2 s3 →
        C.Holds m2 s ∧ C3.Holds m2 s3 ∧
        ∀ i x, s[i]? = some x → C.read i m2 = .ok x m2 := by
  obtain ⟨C2, m1, hrun, hh, hcap, hnew, hlen, hpre⟩ := copyCtor_spec C m s h ht
  have hC1 : C.Holds m1 s := h.of_unchanged hpre
  have hap : Vector.Apart C2 C := by
    rcases hnew with h0 | h0
    · exact Or.inl (by omega)
    · rcases h.block_end with h1 | h1
      · exact Or.inr (Or.inl h1)
      · exact Or.inr (Or.inr (Or.inr (by omega)))
  refine ⟨C2, m1, hrun, ?_, ?_, hh, hC1, fun i x hx => ⟨read_spec hh hx, read_spec hC1 hx⟩, ?_⟩
  · simp only [Vector.Size, hh.1, h.1]
  · simp only [Vector.Capacity, RawMemory.Capacity, Vector.Size, hcap, h.1]
  · intro C3 m2 s3 hmut
    obtain ⟨hc, hv, _⟩ := hmut.preserves C s hC1 hh hap
    exact ⟨hc, hv, fun i x hx => read_spec hc hx⟩

/-- Instance of C7: a copy of `{10, 20, 30}`, then an append to the copy. -/
theorem C7_copy_independent_witness :
    threeIntsVector.Holds threeIntsMemory [10, 20, 30] ∧
    ∃ C2 m1, threeIntsVector.copyCtor threeIntsMemory = .ok C2 m1 ∧
      C2.Size = 3 ∧ C2.Capacity = 3 ∧ C2.Holds m1 [10, 20, 30] ∧
      ∃ C3 m2, (Mutation.append (.copy 40)).run C2 m1 = .ok C3 m2 ∧
        C3.Holds m2 [10, 20, 30, 40] ∧ threeIntsVector.Holds m2 [10, 20, 30] := by
  refine ⟨threeInts_holds, ?_⟩
  obtain ⟨C2, m1, hrun, hsz, hcap, hh, _, _, hind⟩ :=
    C7_copy_independent threeIntsVector threeIntsMemory [10, 20, 30] threeInts_holds
      (intCopyNoThrow _)
  obtain ⟨C3, m2, hrun3, _⟩ := EmplaceBack_spec C2 m1 [10, 20, 30] (.copy 40) hh rfl
    (fun _ => intTransferNoThrow _)
  have hstep : (Mutation.append (.copy 40)).run C2 m1 = .ok C3 m2 := by
    simp only [Mutation.run]
    rw [Exec.bind_ok hrun3]
    rfl
  obtain ⟨hC, hC3, _⟩ := hind C3 m2 _
    (Mutated.step (Mutation.append (.copy 40)) ⟨rfl, intTransferNoThrow _⟩ hstep
      (Mutated.done _ _ _))
  exact ⟨C2, m1, hrun, hsz, hcap, hh, C3, m2, hstep, hC3, hC⟩

/-- C8. Moving from a vector `C` in a valid state. Move construction gives a
vector with the size, capacity and elements `C` had and leaves `C` with size
`0` and capacity `0`. Move assignment into any other vector `C2` returns, and
likewise gives `C2` the size, capacity and elements `C` had and leaves `C` with
size `0` and capacity `0`. The memory is the same in both cases. -/
theorem C8_move [Elem α] (C C2 : Vector α) (m : Memory α) (s : List α) (h : C.Holds m s) :
    ((C.moveCtor).1.Holds m s ∧ (C.moveCtor).1.Size = C.Size ∧
      (C.moveCtor).1.Capacity = C.Capacity ∧
      (C.moveCtor).2.Size = 0 ∧ (C.moveCtor).2.Capacity = 0 ∧ (C.moveCtor).2.Holds m []) ∧
    ∃ C3 C1, C2.moveAssign C m = .ok (C3, C1) m ∧
      C3.Holds m s ∧ C3.Size = C.Size ∧ C3.Capacity = C.Capacity ∧
      (∀ i x, s[i]? = some x → C3.read i m = .ok x m) ∧
      C1.Size = 0 ∧ C1.Capacity = 0 ∧ C1.Holds m [] := by
  have hempty : Vector.Holds (⟨⟨0, 0⟩, 0⟩ : Vector α) m [] :=
    ⟨rfl, le_refl _, fun i hi => absurd hi (Nat.not_lt_zero i)⟩
  have hsame : Vector.Holds (⟨⟨C.data_.buffer_, C.data_.capacity_⟩, C.size_⟩ : Vector α) m s := h
  refine ⟨⟨hsame, rfl, rfl, rfl, rfl, hempty⟩, ?_⟩
  exact ⟨_, _, rfl, hsame, rfl, rfl, fun i x hx => read_spec hsame hx, rfl, rfl, hempty⟩

/-- Instance of C8: moving from `{10, 20, 30}`, by construction and by
assignment into a default-constructed vector. -/
theorem C8_move_witness :
    threeIntsVector.Holds threeIntsMemory [10, 20, 30] ∧
    (threeIntsVector.moveCtor).1.Holds threeIntsMemory [10, 20, 30] ∧
    (threeIntsVector.moveCtor).2.Size = 0 ∧ (threeIntsVector.moveCtor).2.Capacity = 0 ∧
    ∃ C3 C1, (Vector.empty : Vector Int).moveAssign threeIntsVector threeIntsMemory =
        .ok (C3, C1) threeIntsMemory ∧
      C3.Holds threeIntsMemory [10, 20, 30] ∧ C1.Size = 0 ∧ C1.Capacity = 0 := by
  obtain ⟨⟨hh, _, _, hs0, hc0, _⟩, C3, C1, hrun, hh3, _, _, _, hs1, hc1, _⟩ :=
    C8_move threeIntsVector (Vector.empty : Vector Int) threeIntsMemory [10, 20, 30]
      threeInts_holds
  exact ⟨threeInts_holds, hh, hs0, hc0, C3, C1, hrun, hh3, hs1, hc1⟩

/-- C9. The copy assignment `a = b` between two vectors in valid states that
own separate storage, no copy constructor throwing, returns; afterwards
`a.Size() == b.Size()`, `a[i] == b[i]` for every index, `b` holds what it held,
and the capacity of `a` is `b.Size()` when that exceeded the old capacity of
`a` and is the old capacity otherwise. The self-assignment `a = a` returns and
changes neither the vector nor the memory. -/
theorem C9_copy_assign [Elem α] (a b : Vector α) (m : Memory α) (sa sb : List α)
    (ha : a.Holds m sa) (hb : b.Holds m sb) (hab : Vector.Apart a b)
    (ht : Vector.CopyNoThrow sb) :
    (∃ a1 m1, a.copyAssign b false m = .ok a1 m1 ∧
      a1.Size = b.Size ∧ a1.Holds m1 sb ∧ b.Holds m1 sb ∧
      (∀ i x, sb[i]? = some x → a1.read i m1 = .ok x m1 ∧ b.read i m1 = .ok x m1) ∧
      a1.Capacity = (if a.Capacity < b.Size then b.Size else a.Capacity)) ∧
    a.copyAssign a true m = .ok a m := by
  refine ⟨?_, rfl⟩
  obtain ⟨a1, m1, hrun, hh, hcap, _, _, hf⟩ := copyAssign_spec a b m sa sb ha hb hab ht
  have hb1 : b.Holds m1 sb := hb.of_frame hf hab
  refine ⟨a1, m1, hrun, ?_, hh, hb1, fun i x hx => ⟨read_spec hh hx, read_spec hb1 hx⟩, ?_⟩
  · simp only [Vector.Size, hh.1, hb.1]
  · simp only [Vector.Capacity, RawMemory.Capacity, Vector.Size, hb.1]
    exact hcap

/-- Instance of C9: assigning `{10, 20}` to `{1}` of capacity 1 (the
copy-and-swap branch) and `{1}` to `{10, 20}` of capacity 2 (the capacity is reused). -/
theorem C9_copy_assign_witness :
    (⟨⟨1, 1⟩, 1⟩ : Vector Int).Holds [none, some 1, none, some 10, some 20] [1] ∧
    (⟨⟨3, 2⟩, 2⟩ : Vector Int).Holds [none, some 1, none, some 10, some 20] [10, 20] ∧
    (∃ a1 m1, (⟨⟨1, 1⟩, 1⟩ : Vector Int).copyAssign ⟨⟨3, 2⟩, 2⟩ false
        [none, some 1, none, some 10, some 20] = .ok a1 m1 ∧
      a1.Holds m1 [10, 20] ∧ a1.Capacity = 2) ∧
    ∃ b1 m1, (⟨⟨3, 2⟩, 2⟩ : Vector Int).copyAssign ⟨⟨1, 1⟩, 1⟩ false
        [none, some 1, none, some 10, some 20] = .ok b1 m1 ∧
      b1.Holds m1 [1] ∧ b1.Capacity = 2 := by
  have ha : (⟨⟨1, 1⟩, 1⟩ : Vector Int).Holds [none, some 1, none, some 10, some 20] [1] := by
    decide
  have hb : (⟨⟨3, 2⟩, 2⟩ : Vector Int).Holds [none, some 1, none, some 10, some 20]
      [10, 20] := by
    decide
  obtain ⟨⟨a1, m1, hrun, _, hh, _, _, hcap⟩, _⟩ :=
    C9_copy_assign (⟨⟨1, 1⟩, 1⟩ : Vector Int) ⟨⟨3, 2⟩, 2⟩
      [none, some 1, none, some 10, some 20] [1] [10, 20] ha hb
      (by decide) (intCopyNoThrow _)
  obtain ⟨⟨b1, m2, hrun2, _, hh2, _, _, hcap2⟩, _⟩ :=
    C9_copy_assign (⟨⟨3, 2⟩, 2⟩ : Vector Int) ⟨⟨1, 1⟩, 1⟩
      [none, some 1, none, some 10, some 20] [10, 20] [1] hb ha
      (by decide) (intCopyNoThrow _)
  exact ⟨ha, hb, ⟨a1, m1, hrun, hh, hcap⟩, ⟨b1, m2, hrun2, hh2, hcap2⟩⟩

/-- C10. Insert-then-erase at `end()` of a non-empty vector that has spare
capacity. On `{10, 20, 30}` with capacity 4 (three `PushBack` calls on a
default-constructed `Vector<int>`), `Insert(end(), 15)` followed by `Erase` of
the iterator returned does not give back `{10, 20, 30}`: the insertion is
undefined behaviour, as in C2. Inserting 15 at index 1 instead and erasing the
iterator returned does return with the elements `{10, 20, 30}`, size 3, in the
same block. -/
theorem C10_insert_then_erase_at_end_undefined :
    (do
      let v ← threeInts
      let (pos, v) ← v.Insert v.end_ 15
      v.Erase pos : Exec Int (Nat × Vector Int)) [] = .fault .undefined ∧
    (do
      let v ← threeInts
      let (pos, v) ← v.Insert (v.begin + 1) 15
      v.Erase pos : Exec Int (Nat × Vector Int)) [] =
      .ok (7, ⟨⟨6, 4⟩, 3⟩)
        [none, none, none, none, none, none, some 10, some 20, some 30, none, none, none] := by
  have h1 : threeIntsVector.Insert (threeIntsVector.begin + 1) 15 threeIntsMemory =
      .ok (7, ⟨⟨6, 4⟩, 4⟩)
        [none, none, none, none, none, none, some 10, some 15, some 20, some 30, none,
         none] := rfl
  constructor
  · rw [Exec.bind_ok threeInts_run]
    rfl
  · rw [Exec.bind_ok threeInts_run, Exec.bind_ok h1]
    rfl

/-- C12. Copy-constructing from a vector in a valid state whose element at index
`k` (the `k+1`-th) is the first one whose copy constructor throws: the
exception leaves the constructor and no vector is produced. At the throw the
new buffer holds copies of the first `k` elements and nothing else; these `k`
objects are destroyed by one `destroy_n` over exactly their cells, which
returns, so each is destroyed once (destroying a cell twice is a fault).
Afterwards no cell allocated by the call holds an object, every cell that
existed before is as it was, and the source still holds all its elements. -/
theorem C12_copy_construction_failure [Elem α] (other : Vector α) (m : Memory α) (s : List α)
    (k : Nat) (x : α)
    (h : other.Holds m s) (hx : s[k]? = some x) (hxt : Elem.copyThrows x = true)
    (hpre : ∀ i y, i < k → s[i]? = some y → Elem.copyThrows y = false) :
    ∃ mid m1, other.copyCtor m = .thrown m1 ∧
      (∀ i, i < k → mid[m.length + 1 + i]? = some s[i]?) ∧
      (∀ a, m.length ≤ a → ¬ (m.length + 1 ≤ a ∧ a < m.length + 1 + k) →
        mid[a]? = some none ∨ mid[a]? = none) ∧
      destroy_n (m.length + 1) k mid = .ok () m1 ∧
      (∀ a, m.length ≤ a → m1[a]? = some none ∨ m1[a]? = none) ∧
      (∀ a, a < m.length → m1[a]? = m[a]?) ∧
      other.Holds m1 s ∧ other.Size = s.length ∧
      (∀ i y, s[i]? = some y → other.read i m1 = .ok y m1) := by
  obtain ⟨mid, m1, hrun, hmid, hdes, hl1, hpre1, hnew⟩ :=
    copyCtor_throw_spec other m s k x h hx hxt hpre
  have hh : other.Holds m1 s := h.of_unchanged hpre1
  refine ⟨mid, m1, hrun, ?_, ?_, hdes, ?_, hpre1, hh, h.1, fun i y hy => read_spec hh hy⟩
  · intro i hi
    have e : m.length + 1 + i - (m.length + 1) = i := by omega
    rw [hmid, if_pos (by omega), e]
  · intro a ha hout
    rw [hmid, if_neg hout, fresh_block]
    rw [if_neg (by omega)]
    by_cases hA : a < m.length + (s.length + 1)
    · rw [if_pos hA]; exact Or.inl rfl
    · rw [if_neg hA]; exact Or.inr rfl
  · intro a ha
    by_cases hA : a < m1.length
    · exact Or.inl (hnew a ha hA)
    · exact Or.inr (List.getElem?_eq_none (by omega))

/-- Instance of C12: five elements, the copy constructor throws at the third. -/
theorem C12_copy_construction_failure_witness :
    fiveFragileVector.Holds fiveFragileMemory fiveFragileElements ∧
    fiveFragileVector.copyCtor fiveFragileMemory =
      .thrown (fiveFragileMemory ++ [none, none, none, none, none, none]) ∧
    ∃ mid m1, fiveFragileVector.copyCtor fiveFragileMemory = .thrown m1 ∧
      mid[7]? = some (some ⟨1, false⟩) ∧ mid[8]? = some (some ⟨2, false⟩) ∧
      destroy_n 7 2 mid = .ok () m1 ∧
      fiveFragileVector.Holds m1 fiveFragileElements := by
  obtain ⟨mid, m1, hrun, hcopies, _, hdes, _, _, hh, _⟩ :=
    C12_copy_construction_failure fiveFragileVector fiveFragileMemory fiveFragileElements 2
      ⟨3, true⟩ fiveFragile_holds rfl rfl (by
        intro i y hi hy
        interval_cases i
        · simp [fiveFragileElements] at hy; subst hy; rfl
        · simp [fiveFragileElements] at hy; subst hy; rfl)
  exact ⟨fiveFragile_holds, rfl, mid, m1, hrun, hcopies 0 (by decide), hcopies 1 (by decide),
    hdes, hh⟩

/-- C13. `EmplaceBack` on a full vector whose transfer throws. Five `PushBack` calls
after `Reserve(5)` give a full `Vector<Fragile>` of five elements, the third of
which throws when copied; the type is transferred by copy. `EmplaceBack` of a
sixth element allocates a block of capacity 10 at address 7, constructs the
new element in its cell of index 5 (address 12) and calls
`ConstructElements` with no handler around it: the copy of the third element
throws, `std::uninitialized_copy_n` destroys the two copies it made, and the
exception leaves with the new element still live at address 12 in the block
that the destructor of `new_data` releases. The new element is never
destroyed. `Emplace` at `end()` with the same arguments (the branch
`EmplaceInFullVector`, which has the handlers) leaves no object behind. In
both cases the vector still holds its five elements. -/
theorem C13_emplace_back_leaves_new_element :
    fiveFragile [] = .ok fiveFragileVector fiveFragileMemory ∧
    fiveFragileVector.Size = fiveFragileVector.Capacity ∧
    (Elem.nothrowMove Fragile || !Elem.copyConstructible Fragile) = false ∧
    fiveFragileVector.EmplaceBack (.make ⟨6, false⟩) fiveFragileMemory =
      .thrown (fiveFragileMemory ++
        [none, none, none, none, none, none, some ⟨6, false⟩, none, none, none, none]) ∧
    fiveFragileVector.Emplace fiveFragileVector.end_ (.make ⟨6, false⟩) fiveFragileMemory =
      .thrown (fiveFragileMemory ++
        [none, none, none, none, none, none, none, none, none, none, none]) :=
  ⟨fiveFragile_run, rfl, rfl, rfl, rfl⟩

/-- C14, as stated, fails for a capacity whose byte count does not fit a `size_t`. On
the five `Fragile` elements of capacity 5, 16 bytes each, `Reserve(2^60)` asks
`operator new` for `2^60 * 16 mod 2^64 = 0` bytes, and the copy of the first
element is constructed in a block without room for it: undefined behaviour,
before the copy constructor of the third element is reached. The failure is
not propagated. -/
theorem C14_reserve_unrepresentable :
    fiveFragileVector.Holds fiveFragileMemory fiveFragileElements ∧
    fiveFragileVector.Capacity < 2 ^ 60 ∧
    (Elem.nothrowMove Fragile || !Elem.copyConstructible Fragile) = false ∧
    2 ^ 60 * fragileAllocator.sizeofT % 2 ^ 64 = 0 ∧
    fragileAllocator.Reserve fiveFragileVector (2 ^ 60) fiveFragileMemory = .fault .undefined :=
  ⟨fiveFragile_holds, by decide, rfl, rfl, rfl⟩

/-- C14, amended. The call `Reserve(n)` with `n > Capacity()` and a byte count
`n * sizeof(T)` that fits a `size_t`, on a vector in a valid state whose element
type is transferred by copy (the move constructor is not `noexcept` and the
type is copy-constructible), when the request is satisfied and the copy
constructor throws first at the element of index `k`: the exception leaves
`Reserve`. At the throw the new buffer holds copies of the first `k`
elements; these are destroyed by one `destroy_n` over exactly their cells.
Afterwards no cell allocated by the call holds an object, every cell that
existed before is as it was, and the vector, whose size and capacity fields
the call never assigned, still holds all its elements. When the request is
not satisfied, `std::bad_alloc` leaves and nothing has changed. Which branch
`CopyOrMoveElements` takes is decided by the two traits alone: it moves
exactly when the move constructor is `noexcept` or the type is not
copy-constructible. -/
theorem C14_reserve_strong_guarantee [Elem α] (A : Allocator) (v : Vector α) (m : Memory α)
    (s : List α) (n k : Nat) (x : α) (h : v.Holds m s) (hn : v.Capacity < n)
    (hrep : n * A.sizeofT < 2 ^ 64)
    (hx : s[k]? = some x) (hxt : Elem.copyThrows x = true)
    (hpre : ∀ i y, i < k → s[i]? = some y → Elem.copyThrows y = false) :
    (¬ (Elem.nothrowMove α = true ∨ Elem.copyConstructible α = false) →
      n * A.sizeofT ≤ A.available →
      ∃ mid m1, A.Reserve v n m = .thrown m1 ∧
        (∀ i, i < k → mid[m.length + 1 + i]? = some s[i]?) ∧
        destroy_n (m.length + 1) k mid = .ok () m1 ∧
        (∀ a, m.length ≤ a → m1[a]? = some none ∨ m1[a]? = none) ∧
        (∀ a, a < m.length → m1[a]? = m[a]?) ∧
        v.Holds m1 s ∧
        (∀ i y, s[i]? = some y → v.read i m1 = .ok y m1)) ∧
    (A.available < n * A.sizeofT → A.Reserve v n m = .thrown m) ∧
    (∀ src dst count,
      ((Elem.nothrowMove α = true ∨ Elem.copyConstructible α = false) →
        Vector.CopyOrMoveElements src dst count =
          (uninitialized_move_n src count dst : Exec α Unit)) ∧
      (¬ (Elem.nothrowMove α = true ∨ Elem.copyConstructible α = false) →
        Vector.CopyOrMoveElements src dst count =
          (uninitialized_copy_n src count dst : Exec α Unit))) := by
  have hcond : ¬ (Elem.nothrowMove α = true ∨ Elem.copyConstructible α = false) →
      (Elem.nothrowMove α || !Elem.copyConstructible α) = false := by
    intro hcopy
    rcases hn1 : Elem.nothrowMove α <;> rcases hn2 : Elem.copyConstructible α <;> simp_all
  refine ⟨fun hcopy hfit => ?_, fun hbig => ?_, fun src dst count => ⟨fun hmove => ?_,
    fun hcopy => ?_⟩⟩
  · rw [Reserve_fits A v n (fun _ => ⟨hrep, hfit⟩)]
    obtain ⟨mid, m1, hrun, hmid, hdes, hl1, hpre1, hnew⟩ :=
      Reserve_throw_spec v m s n k x h hn (hcond hcopy) hx hxt hpre
    have hh : v.Holds m1 s := h.of_unchanged hpre1
    refine ⟨mid, m1, hrun, ?_, hdes, ?_, hpre1, hh, fun i y hy => read_spec hh hy⟩
    · intro i hi
      have e : m.length + 1 + i - (m.length + 1) = i := by omega
      rw [hmid, if_pos (by omega), e]
    · intro a ha
      by_cases hA : a < m1.length
      · exact Or.inl (hnew a ha hA)
      · exact Or.inr (List.getElem?_eq_none (by omega))
  · exact Reserve_bad_alloc A v n m hn (by rw [Nat.mod_eq_of_lt hrep]; exact hbig)
  · have : (Elem.nothrowMove α || !Elem.copyConstructible α) = true := by
      rcases hmove with h1 | h1 <;> simp [h1]
    simp only [Vector.CopyOrMoveElements, this, if_true]
  · simp only [Vector.CopyOrMoveElements, hcond hcopy, Bool.false_eq_true, if_false]

/-- Instance of C14: `Reserve(10)` on five elements of 16 bytes whose third throws when
copied, requests of up to `2^40` bytes being satisfied. -/
theorem C14_reserve_strong_guarantee_witness :
    fiveFragileVector.Holds fiveFragileMemory fiveFragileElements ∧
    fragileAllocator.Reserve fiveFragileVector 10 fiveFragileMemory =
      .thrown (fiveFragileMemory ++ List.replicate 11 none) ∧
    ∃ mid m1, fragileAllocator.Reserve fiveFragileVector 10 fiveFragileMemory = .thrown m1 ∧
      mid[7]? = some (some ⟨1, false⟩) ∧ mid[8]? = some (some ⟨2, false⟩) ∧
      destroy_n 7 2 mid = .ok () m1 ∧
      fiveFragileVector.Holds m1 fiveFragileElements := by
  obtain ⟨hthrow, _⟩ :=
    C14_reserve_strong_guarantee fragileAllocator fiveFragileVector fiveFragileMemory
      fiveFragileElements 10 2 ⟨3, true⟩ fiveFragile_holds (by decide) (by decide) rfl rfl
      fragile_prefix_ok
  obtain ⟨mid, m1, hrun, hcopies, hdes, _, _, hh, _⟩ := hthrow (by decide) (by decide)
  exact ⟨fiveFragile_holds, rfl, mid, m1, hrun, hcopies 0 (by decide), hcopies 1 (by decide),
    hdes, hh⟩

/-- C15. Move assignment onto a vector that holds elements. The target is
`{"a", "b", "c"}` (capacity 4, block at address 6), the source is `{"z"}`, built
by one `PushBack` (block at address 11). The move assignment returns with the
target owning the block of the source and the source empty, and with the
memory exactly as before the call: the three strings of the target are still
live at the addresses 6, 7 and 8, in the block that `RawMemory::operator=`
released. They were never destroyed. The destructor of the same target
destroys all three before its block is released. -/
theorem C15_move_assign_leaves_elements_live :
    threeStrings [] = .ok threeStringsVector threeStringsMemory ∧
    (Vector.empty : Vector String).PushBack "z" threeStringsMemory =
      .ok ⟨⟨11, 1⟩, 1⟩ (threeStringsMemory ++ [none, some "z"]) ∧
    threeStringsVector.moveAssign ⟨⟨11, 1⟩, 1⟩ (threeStringsMemory ++ [none, some "z"]) =
      .ok (⟨⟨11, 1⟩, 1⟩, ⟨⟨0, 0⟩, 0⟩)
        [none, none, none, none, none, none, some "a", some "b", some "c", none,
         none, some "z"] ∧
    threeStringsVector.destroy (threeStringsMemory ++ [none, some "z"]) =
      .ok () [none, none, none, none, none, none, none, none, none, none, none, some "z"] :=
  ⟨threeStrings_run, rfl, rfl, rfl⟩

/-- C16. `PopBack` on an empty vector. `operator[]` on the default-constructed vector
fails its assertion `index < size_`. `PopBack` has no assertion: on the same
vector it decrements the size field from `0` to `2^64 - 1` and calls
`std::destroy_at` on the address `data_.GetAddress() + (2^64 - 1)`, where there
is no object: undefined behaviour, not a failed assertion. The same on a
vector that is empty after `Reserve(4)`. -/
theorem C16_pop_back_on_empty_fails_no_assertion :
    (Vector.empty : Vector Int).Size = 0 ∧
    (Vector.empty : Vector Int).index 0 [] = .fault .assertion ∧
    size_t_dec (Vector.empty : Vector Int).size_ = 2 ^ 64 - 1 ∧
    (Vector.empty : Vector Int).PopBack [] = .fault .undefined ∧
    ¬ ((Vector.empty : Vector Int).PopBack [] = .fault .assertion) ∧
    (Vector.empty : Vector Int).Reserve 4 [] = .ok ⟨⟨1, 4⟩, 0⟩ [none, none, none, none, none] ∧
    (⟨⟨1, 4⟩, 0⟩ : Vector Int).PopBack [none, none, none, none, none] = .fault .undefined :=
  ⟨rfl, rfl, rfl, rfl, (fun h => nomatch h), rfl, rfl⟩

/-- C17. `Size() ≤ Capacity()` is an invariant. The default-constructed vector has
it, and so has every vector returned by the sized constructor and by the copy
constructor, and both vectors left by the move constructor. For a vector `v`
and a second vector `other` that have it, in any memory: whenever `Reserve`,
`Resize`, `PushBack` (both overloads), `EmplaceBack`, `PopBack` on a non-empty
vector, `Emplace` and `Insert` (both overloads) at an index `p ≤ Size()`,
`Erase` at an index `p < Size()`, or the copy assignment from `other` returns,
the vector it leaves has it; the move assignment from `other` leaves it on
the target and on the moved-from source; `Swap` leaves it on both vectors. -/
theorem C17_size_le_capacity [Elem α] (v other : Vector α) (m : Memory α)
    (hv : v.Size ≤ v.Capacity) (ho : other.Size ≤ other.Capacity) :
    (Vector.empty : Vector α).Size ≤ (Vector.empty : Vector α).Capacity ∧
    (∀ n v1 m1, Vector.sized n m = .ok v1 m1 → v1.Size ≤ v1.Capacity) ∧
    (∀ v1 m1, other.copyCtor m = .ok v1 m1 → v1.Size ≤ v1.Capacity) ∧
    (other.moveCtor.1.Size ≤ other.moveCtor.1.Capacity ∧
      other.moveCtor.2.Size ≤ other.moveCtor.2.Capacity) ∧
    (∀ n v1 m1, v.Reserve n m = .ok v1 m1 → v1.Size ≤ v1.Capacity) ∧
    (∀ n v1 m1, v.Resize n m = .ok v1 m1 → v1.Size ≤ v1.Capacity) ∧
    (∀ x v1 m1, v.PushBack x m = .ok v1 m1 → v1.Size ≤ v1.Capacity) ∧
    (∀ x v1 m1, v.PushBackMove x m = .ok v1 m1 → v1.Size ≤ v1.Capacity) ∧
    (∀ args r v1 m1, v.EmplaceBack args m = .ok (r, v1) m1 → v1.Size ≤ v1.Capacity) ∧
    (∀ v1 m1, 0 < v.Size → v.PopBack m = .ok v1 m1 → v1.Size ≤ v1.Capacity) ∧
    (∀ p args r v1 m1, p ≤ v.Size → v.Emplace (v.begin + p) args m = .ok (r, v1) m1 →
      v1.Size ≤ v1.Capacity) ∧
    (∀ p x r v1 m1, p ≤ v.Size → v.Insert (v.begin + p) x m = .ok (r, v1) m1 →
      v1.Size ≤ v1.Capacity) ∧
    (∀ p x r v1 m1, p ≤ v.Size → v.InsertMove (v.begin + p) x m = .ok (r, v1) m1 →
      v1.Size ≤ v1.Capacity) ∧
    (∀ p r v1 m1, p < v.Size → v.Erase (v.begin + p) m = .ok (r, v1) m1 →
      v1.Size ≤ v1.Capacity) ∧
    (∀ same v1 m1, v.copyAssign other same m = .ok v1 m1 → v1.Size ≤ v1.Capacity) ∧
    (∀ v1 o1 m1, v.moveAssign other m = .ok (v1, o1) m1 →
      v1.Size ≤ v1.Capacity ∧ o1.Size ≤ o1.Capacity) ∧
    ((v.Swap other).1.Size ≤ (v.Swap other).1.Capacity ∧
      (v.Swap other).2.Size ≤ (v.Swap other).2.Capacity) := by
  simp only [Vector.Size, Vector.Capacity, RawMemory.Capacity] at hv ho ⊢
  refine ⟨le_refl _, ?_, ?_, ⟨ho, le_refl _⟩, ?_, ?_, ?_, ?_, ?_, ?_, ?_, ?_, ?_, ?_, ?_, ?_,
    ⟨ho, hv⟩⟩
  · intro n v1 m1 h
    have := (sized_ensures n m).2 v1 m1 h
    omega
  · intro v1 m1 h
    have := (copyCtor_ensures other m).2 v1 m1 h
    omega
  · intro n v1 m1 h
    have := (Reserve_ensures v n hv m).2 v1 m1 h
    omega
  · exact fun n v1 m1 h => (Resize_ensures v n hv m).2 v1 m1 h
  · exact fun x v1 m1 h => (PushBack_ensures v x hv m).2 v1 m1 h
  · exact fun x v1 m1 h => (PushBackMove_ensures v x hv m).2 v1 m1 h
  · exact fun args r v1 m1 h => (EmplaceBack_ensures v args hv m).2 (r, v1) m1 h
  · exact fun v1 m1 hne h => (PopBack_ensures v hv hne m).2 v1 m1 h
  · exact fun p args r v1 m1 hp h => (Emplace_ensures v p args hv hp m).2 (r, v1) m1 h
  · exact fun p x r v1 m1 hp h => (Emplace_ensures v p (.copy x) hv hp m).2 (r, v1) m1 h
  · exact fun p x r v1 m1 hp h => (Emplace_ensures v p (.make x) hv hp m).2 (r, v1) m1 h
  · exact fun p r v1 m1 hp h => (Erase_ensures v _ hv (by omega) m).2 (r, v1) m1 h
  · exact fun same v1 m1 h => (copyAssign_ensures v other same hv ho m).2 v1 m1 h
  · exact fun v1 o1 m1 h => (moveAssign_ensures v other ho m).2 (v1, o1) m1 h

/-- Instance of C17 on `{10, 20, 30}` with capacity 4 and the empty vector as the second
vector: the calls return, and the vectors they leave have `Size() ≤ Capacity()`. -/
theorem C17_size_le_capacity_witness :
    threeIntsVector.Size ≤ threeIntsVector.Capacity ∧
    threeIntsVector.PushBack 40 threeIntsMemory =
      .ok ⟨⟨6, 4⟩, 4⟩
        [none, none, none, none, none, none, some 10, some 20, some 30, some 40] ∧
    Vector.Size (⟨⟨6, 4⟩, 4⟩ : Vector Int) ≤ Vector.Capacity (⟨⟨6, 4⟩, 4⟩ : Vector Int) ∧
    threeIntsVector.PopBack threeIntsMemory =
      .ok ⟨⟨6, 4⟩, 2⟩ [none, none, none, none, none, none, some 10, some 20, none, none] ∧
    Vector.Size (⟨⟨6, 4⟩, 2⟩ : Vector Int) ≤ Vector.Capacity (⟨⟨6, 4⟩, 2⟩ : Vector Int) ∧
    threeIntsVector.Reserve 9 threeIntsMemory =
      .ok ⟨⟨11, 9⟩, 3⟩
        [none, none, none, none, none, none, none, none, none, none, none,
         some 10, some 20, some 30, none, none, none, none, none, none] ∧
    Vector.Size (⟨⟨11, 9⟩, 3⟩ : Vector Int) ≤ Vector.Capacity (⟨⟨11, 9⟩, 3⟩ : Vector Int) := by
  obtain ⟨_, _, _, _, hres, _, hpush, _, _, hpop, _⟩ :=
    @C17_size_le_capacity Int _ threeIntsVector Vector.empty threeIntsMemory (by decide)
      (by decide)
  have h1 : threeIntsVector.PushBack 40 threeIntsMemory =
      .ok ⟨⟨6, 4⟩, 4⟩
        [none, none, none, none, none, none, some 10, some 20, some 30, some 40] := rfl
  have h2 : threeIntsVector.PopBack threeIntsMemory =
      .ok ⟨⟨6, 4⟩, 2⟩ [none, none, none, none, none, none, some 10, some 20, none, none] := rfl
  have h3 : threeIntsVector.Reserve 9 threeIntsMemory =
      .ok ⟨⟨11, 9⟩, 3⟩
        [none, none, none, none, none, none, none, none, none, none, none,
         some 10, some 20, some 30, none, none, none, none, none, none] := rfl
  exact ⟨by decide, h1, hpush _ _ _ h1, h2, hpop _ _ (by decide) h2, h3, hres _ _ _ h3⟩

/-- C18. The call `Emplace` at the position of index `p ≤ Size()` on a full vector
in a valid state whose element type is transferred by copy, when the copy
constructor throws first at the element of index `k`: the exception leaves
`Emplace`. At the throw the new buffer holds the new element at index `p` and
the copies of the first `k` elements at their target indices. If the throw
happens while the elements before the position are transferred (`k < p`), the
copies are destroyed by `std::uninitialized_copy_n` and the handler destroys
the new element; if it happens while the elements from the position on are
transferred (`p ≤ k`), the copies made by that transfer are destroyed by
`std::uninitialized_copy_n` and the handler destroys the `p + 1` cells before
them. Both runs of `destroy_n` return, so every cell they visit held an object.
Afterwards no cell allocated by the call holds an object, every cell that
existed before is as it was, and the vector, whose fields the call never
assigned, still holds all its elements. -/
theorem C18_emplace_full_rollback [Elem α] (v : Vector α) (m : Memory α) (s : List α)
    (args : CtorArgs α) (p k : Nat) (x : α)
    (h : v.Holds m s) (hfull : v.Size = v.Capacity) (hp : p ≤ v.Size)
    (hc : ¬ (Elem.nothrowMove α = true ∨ Elem.copyConstructible α = false))
    (hargs : args.throws = false)
    (hx : s[k]? = some x) (hxt : Elem.copyThrows x = true)
    (hpre : ∀ i y, i < k → s[i]? = some y → Elem.copyThrows y = false) :
    ∃ mid m3 m1, v.Emplace (v.begin + p) args m = .thrown m1 ∧
      mid[m.length + 1 + p]? = some (some args.value) ∧
      (∀ i, i < k → mid[m.length + 1 + (if i < p then i else i + 1)]? = some s[i]?) ∧
      (k < p → destroy_n (m.length + 1) k mid = .ok () m3 ∧
        destroy_n (m.length + 1 + p) 1 m3 = .ok () m1) ∧
      (p ≤ k → destroy_n (m.length + 1 + p + 1) (k - p) mid = .ok () m3 ∧
        destroy_n (m.length + 1) (p + 1) m3 = .ok () m1) ∧
      (∀ a, m.length ≤ a → m1[a]? = some none ∨ m1[a]? = none) ∧
      (∀ a, a < m.length → m1[a]? = m[a]?) ∧
      v.Holds m1 s ∧
      (∀ i y, s[i]? = some y → v.read i m1 = .ok y m1) := by
  have hcond : (Elem.nothrowMove α || !Elem.copyConstructible α) = false := by
    rcases hn1 : Elem.nothrowMove α <;> rcases hn2 : Elem.copyConstructible α <;> simp_all
  have hsz := h.1
  simp only [Vector.Size, Vector.Capacity, RawMemory.Capacity] at hfull hp
  obtain ⟨mid, m3, m1, hrun, hnew, hcopies, hA, hB, hl1, hold, hraw⟩ :=
    Emplace_full_throw_spec v m s args p k x h (by omega) (by omega) hcond hargs hx hxt hpre
  have hh : v.Holds m1 s := h.of_unchanged hold
  refine ⟨mid, m3, m1, hrun, hnew, hcopies, hA, hB, ?_, hold, hh, fun i y hy => read_spec hh hy⟩
  intro a ha
  by_cases hlt : a < m1.length
  · exact Or.inl (hraw a ha hlt)
  · exact Or.inr (List.getElem?_eq_none (by omega))

/-- Instance of C18: `Emplace` into five elements whose third throws when copied,
once at index 4 (the throw happens before the position) and once at index 1
(the throw happens after it). -/
theorem C18_emplace_full_rollback_witness :
    fiveFragileVector.Holds fiveFragileMemory fiveFragileElements ∧
    (∃ mid m3 m1, fiveFragileVector.Emplace (fiveFragileVector.begin + 4) (.make ⟨6, false⟩)
        fiveFragileMemory = .thrown m1 ∧
      mid[11]? = some (some ⟨6, false⟩) ∧
      mid[7]? = some (some ⟨1, false⟩) ∧ mid[8]? = some (some ⟨2, false⟩) ∧
      destroy_n 7 2 mid = .ok () m3 ∧ destroy_n 11 1 m3 = .ok () m1 ∧
      fiveFragileVector.Holds m1 fiveFragileElements) ∧
    (∃ mid m3 m1, fiveFragileVector.Emplace (fiveFragileVector.begin + 1) (.make ⟨6, false⟩)
        fiveFragileMemory = .thrown m1 ∧
      mid[8]? = some (some ⟨6, false⟩) ∧
      mid[7]? = some (some ⟨1, false⟩) ∧ mid[9]? = some (some ⟨2, false⟩) ∧
      destroy_n 9 1 mid = .ok () m3 ∧ destroy_n 7 2 m3 = .ok () m1 ∧
      fiveFragileVector.Holds m1 fiveFragileElements) := by
  obtain ⟨mid, m3, m1, hrun, hnew, hcopies, hA, _, _, _, hh, _⟩ :=
    C18_emplace_full_rollback fiveFragileVector fiveFragileMemory fiveFragileElements
      (.make ⟨6, false⟩) 4 2 ⟨3, true⟩ fiveFragile_holds rfl (by decide) (by decide) rfl rfl rfl
      fragile_prefix_ok
  obtain ⟨mid2, m32, m12, hrun2, hnew2, hcopies2, _, hB2, _, _, hh2, _⟩ :=
    C18_emplace_full_rollback fiveFragileVector fiveFragileMemory fiveFragileElements
      (.make ⟨6, false⟩) 1 2 ⟨3, true⟩ fiveFragile_holds rfl (by decide) (by decide) rfl rfl rfl
      fragile_prefix_ok
  exact ⟨fiveFragile_holds,
    ⟨mid, m3, m1, hrun, hnew, hcopies 0 (by decide), hcopies 1 (by decide), (hA (by decide)).1,
      (hA (by decide)).2, hh⟩,
    ⟨mid2, m32, m12, hrun2, hnew2, hcopies2 0 (by decide), hcopies2 1 (by decide),
      (hB2 (by decide)).1, (hB2 (by decide)).2, hh2⟩⟩

/-- C19. Inserting at `end()` against appending, on `{10, 20, 30}` with capacity 4
(three `PushBack` calls on a default-constructed `Vector<int>`): `PushBack(40)`
returns with the elements `{10, 20, 30, 40}` in the same block, the element
`30` in place; `Insert(end(), 40)` and `Emplace(end(), 40)` are undefined
behaviour, the defect of C2. On the empty vector and on the full vector
`{10, 20, 30, 40}` the two calls return the same vector and memory. -/
theorem C19_insert_at_end_differs_from_append :
    threeInts [] = .ok threeIntsVector threeIntsMemory ∧
    threeIntsVector.PushBack 40 threeIntsMemory =
      .ok ⟨⟨6, 4⟩, 4⟩
        [none, none, none, none, none, none, some 10, some 20, some 30, some 40] ∧
    threeIntsVector.Insert threeIntsVector.end_ 40 threeIntsMemory = .fault .undefined ∧
    threeIntsVector.Emplace threeIntsVector.end_ (.make 40) threeIntsMemory =
      .fault .undefined ∧
    (Vector.empty : Vector Int).Insert (Vector.empty : Vector Int).end_ 7 [] =
      .ok (1, ⟨⟨1, 1⟩, 1⟩) [none, some 7] ∧
    (Vector.empty : Vector Int).PushBack 7 [] = .ok ⟨⟨1, 1⟩, 1⟩ [none, some 7] ∧
    (⟨⟨6, 4⟩, 4⟩ : Vector Int).Insert (Vector.end_ (⟨⟨6, 4⟩, 4⟩ : Vector Int)) 50
        [none, none, none, none, none, none, some 10, some 20, some 30, some 40] =
      .ok (15, ⟨⟨11, 8⟩, 5⟩)
        [none, none, none, none, none, none, none, none, none, none, none,
         some 10, some 20, some 30, some 40, some 50, none, none, none] ∧
    (⟨⟨6, 4⟩, 4⟩ : Vector Int).PushBack 50
        [none, none, none, none, none, none, some 10, some 20, some 30, some 40] =
      .ok ⟨⟨11, 8⟩, 5⟩
        [none, none, none, none, none, none, none, none, none, none, none,
         some 10, some 20, some 30, some 40, some 50, none, none, none] :=
  ⟨threeInts_run, rfl, rfl, rfl, rfl, rfl, rfl, rfl⟩

/-- C20. On a vector with `Size() ≤ Capacity()`, in any memory, the calls
`operator[]` with an index below the size, `EmplaceBack`, `PushBack` (both
overloads), `Emplace` and `Insert` (both overloads) at an index `p ≤ Size()`,
and the copy assignment from a vector with `Size() ≤ Capacity()`, never end in
a failed assertion. The assertions of the header are those of
`Vector::operator[]`, `RawMemory::operator[]` and `RawMemory::operator+`, and the
latter two fail exactly when the index is not below, respectively the
offset is above, the capacity of the buffer they are called on; so every use
these calls make of them, also on the buffer they allocate, is within bounds. -/
theorem C20_no_failed_assertion [Elem α] (v rhs : Vector α) (m : Memory α)
    (hv : v.Size ≤ v.Capacity) (hr : rhs.Size ≤ rhs.Capacity) :
    (∀ (r : RawMemory α) i m0, r.index i m0 = .fault .assertion ↔ ¬ i < r.Capacity) ∧
    (∀ (r : RawMemory α) k m0, r.add k m0 = .fault .assertion ↔ ¬ k ≤ r.Capacity) ∧
    (∀ i, i < v.Size → v.index i m = .ok (v.begin + i) m) ∧
    (∀ args, v.EmplaceBack args m ≠ .fault .assertion) ∧
    (∀ x, v.PushBack x m ≠ .fault .assertion) ∧
    (∀ x, v.PushBackMove x m ≠ .fault .assertion) ∧
    (∀ p args, p ≤ v.Size → v.Emplace (v.begin + p) args m ≠ .fault .assertion) ∧
    (∀ p x, p ≤ v.Size → v.Insert (v.begin + p) x m ≠ .fault .assertion) ∧
    (∀ p x, p ≤ v.Size → v.InsertMove (v.begin + p) x m ≠ .fault .assertion) ∧
    (∀ same, v.copyAssign rhs same m ≠ .fault .assertion) := by
  simp only [Vector.Size, Vector.Capacity, RawMemory.Capacity] at hv hr ⊢
  exact ⟨fun r i m0 => (RawMemory.rawIndex_assertion r i m0).1,
    fun r k m0 => (RawMemory.add_assertion r k m0).1,
    fun i hi => Vector.vectorIndex_ok v hi hv m,
    fun args => (EmplaceBack_ensures v args hv m).1,
    fun x => (PushBack_ensures v x hv m).1,
    fun x => (PushBackMove_ensures v x hv m).1,
    fun p args hp => (Emplace_ensures v p args hv hp m).1,
    fun p x hp => (Emplace_ensures v p (.copy x) hv hp m).1,
    fun p x hp => (Emplace_ensures v p (.make x) hv hp m).1,
    fun same => (copyAssign_ensures v rhs same hv hr m).1⟩

/-- Instance of C20 on `{10, 20, 30}` with capacity 4, and the empty vector as the
right-hand side of the assignment. -/
theorem C20_no_failed_assertion_witness :
    threeIntsVector.Size ≤ threeIntsVector.Capacity ∧
    threeIntsVector.index 2 threeIntsMemory = .ok 8 threeIntsMemory ∧
    threeIntsVector.EmplaceBack (.copy 40) threeIntsMemory ≠ .fault .assertion ∧
    threeIntsVector.Emplace (threeIntsVector.begin + 3) (.copy 40) threeIntsMemory ≠
      .fault .assertion ∧
    threeIntsVector.Emplace (threeIntsVector.begin + 1) (.copy 40) threeIntsMemory ≠
      .fault .assertion ∧
    threeIntsVector.copyAssign Vector.empty false threeIntsMemory ≠ .fault .assertion := by
  obtain ⟨_, _, hidx, hback, _, _, hemp, _, _, hassign⟩ :=
    @C20_no_failed_assertion Int _ threeIntsVector Vector.empty threeIntsMemory (by decide)
      (by decide)
  exact ⟨by decide, hidx 2 (by decide), hback _, hemp 3 _ (by decide), hemp 1 _ (by decide),
    hassign false⟩

end

end AdvancedVector
